import Mathlib

/-!
mpsym: permutation groups and orbit minimisation of task allocations.

A shallow embedding of the parts of `tud-ccc/mpsym` that its specification
makes claims about: permutations and permutation sets, the orbit engine and the
two Schreier structure variants, the BSGS with its symmetric and alternating
fast paths and `strip`, and the task orbit minimiser with its representative
registry.

Points are one-based naturals.  Functions whose C++ body is part of the
repository slice are transcribed from it; the classes that the slice only uses
(`Perm`, `PermSet`, `Orbit`, the Schreier structure variants, `TaskAllocation`,
the registry) are modelled from the specification and marked as such.
-/

namespace mpsym

/-! ## Permutations -/

/-- Modelled from the spec: a permutation is stored as an image vector of
length `d`; the image of the point `x` is entry `x - 1` of the vector. -/
structure Perm where
  img : List Nat
deriving DecidableEq, Repr

/-- Degree of a permutation: the length of its image vector. -/
def Perm.degree (p : Perm) : Nat := p.img.length

/-- Modelled from the spec: the action on a point is array indexing.  A point
outside `[1, d]` is a `DomainError` in the spec; the embedding leaves such a
point where it is, and every statement about the action is made for points of
the domain. -/
def Perm.apply (p : Perm) : Nat → Nat
  | 0 => 0
  | x + 1 => p.img.getD x (x + 1)

/-- Modelled from the spec: the identity of degree `d`, image vector
`[1, ..., d]`. -/
def Perm.identity (d : Nat) : Perm := ⟨List.range' 1 d⟩

/-- Modelled from the spec: the derived identity predicate `Perm::id`. -/
def Perm.id (p : Perm) : Bool := p.img == List.range' 1 p.degree

/-- Modelled from the spec (§4.A): `compose(a, b)(x) = a(b(x))`. -/
def Perm.compose (a b : Perm) : Perm := ⟨b.img.map a.apply⟩

/-- Modelled from the spec (§4.A): `inverse` yields the image-inverted vector:
the image of `y` is the position at which `y` occurs in the image vector. -/
def Perm.inverse (a : Perm) : Perm :=
  ⟨(List.range' 1 a.degree).map (fun y => a.img.indexOf y + 1)⟩

/-- Modelled from the spec (§3): the image vector of a permutation of degree
`d` holds each value of `[1, d]` exactly once. -/
def Perm.valid (p : Perm) : Prop :=
  p.img.Nodup ∧ ∀ x ∈ p.img, 1 ≤ x ∧ x ≤ p.img.length

instance (p : Perm) : Decidable p.valid := by
  unfold Perm.valid; infer_instance

/-- Successor of a point on a cycle given as the list of its points; points
not on the cycle stay where they are. -/
def cycNext (c : List Nat) (x : Nat) : Nat :=
  if x ∈ c then c.getD ((c.indexOf x + 1) % c.length) x else x

/-- Modelled from the spec: `Perm(d, cycles)`, the permutation of degree `d`
given in cycle notation (the cycles are taken to be disjoint). -/
def Perm.ofCycles (d : Nat) (cycles : List (List Nat)) : Perm :=
  ⟨(List.range' 1 d).map (fun x => cycles.foldl (fun y c => cycNext c y) x)⟩

/-- Modelled from the spec (§4.A): `stabilizes(range)` iff the permutation
fixes every point of the range. -/
def Perm.stabilizes (p : Perm) (pts : List Nat) : Bool :=
  pts.all (fun x => p.apply x == x)

/-! ## Permutation sets -/

/-- Modelled from the spec: a `PermSet` is an ordered sequence of
permutations. -/
abbrev PermSet := List Perm

/-- Modelled from the spec: insertion with dedup, at the end of the sequence. -/
def PermSet.insert (s : PermSet) (p : Perm) : PermSet :=
  if p ∈ s then s else s ++ [p]

/-- Modelled from the spec: bulk insertion of the inverses of the members, in
order. -/
def PermSet.insert_inverses (s : PermSet) : PermSet :=
  s.foldl (fun acc p => PermSet.insert acc p.inverse) s

/-- Modelled from the spec: `make_unique` removes duplicates (the first
occurrence of each member stays, the order is kept). -/
def PermSet.make_unique (s : PermSet) : PermSet :=
  s.foldl PermSet.insert []

/-- Modelled from the spec: `subset(offs, sz)`, the `sz` members starting at
position `offs`. -/
def PermSet.subset (s : PermSet) (offs sz : Nat) : PermSet :=
  (s.drop offs).take sz

/-- Modelled from the spec: a generator set is trivial when it is empty or
holds only identities. -/
def PermSet.trivial (s : PermSet) : Bool := s.all Perm.id

/-- The group generated by a set of permutations of degree `d`: the closure of
the generators and the identity under composition and inverse. -/
inductive Generated (d : Nat) (gens : List Perm) : Perm → Prop
  | one : Generated d gens (Perm.identity d)
  | gen {g : Perm} : g ∈ gens → Generated d gens g
  | mul {a b : Perm} : Generated d gens a → Generated d gens b →
      Generated d gens (Perm.compose a b)
  | inv {a : Perm} : Generated d gens a → Generated d gens (Perm.inverse a)

/-! ## Task allocations and the representative registry -/

/-- Modelled from the spec: a task allocation is a sequence of PE identifiers
(points shifted by an offset). -/
abbrev TaskAllocation := List Nat

/-- Modelled from the spec: lexicographic comparison of two allocations,
`TaskAllocation::less_than(other)`. -/
def lexLt : List Nat → List Nat → Bool
  | [], [] => false
  | [], _ :: _ => true
  | _ :: _, [] => false
  | x :: xs, y :: ys => if x < y then true else if y < x then false else lexLt xs ys

/-- Modelled from the spec: `permuted(x, σ, o)` applies `σ` to the entries
`≥ o + 1`, shifted by the offset `o`; smaller entries stay. -/
def permuted (x : TaskAllocation) (σ : Perm) (o : Nat) : TaskAllocation :=
  x.map (fun e => if o + 1 ≤ e then σ.apply (e - o) + o else e)

/-- Modelled from the spec: `x.less_than(y, σ, o)` compares `σ·x` with `y`
lexicographically, `σ` acting on the entries shifted by `o`. -/
def less_than (x y : TaskAllocation) (σ : Perm) (o : Nat) : Bool :=
  lexLt (permuted x σ o) y

/-- No entry of the allocation lies beyond the range `[o + 1, o + d]` on which
a group of degree `d` acts at offset `o` (entries up to `o` are not moved). -/
def InRange (a : TaskAllocation) (o d : Nat) : Prop :=
  ∀ e ∈ a, e ≤ o + d

instance (a : TaskAllocation) (o d : Nat) : Decidable (InRange a o d) := by
  unfold InRange; infer_instance

/-- The registry of orbit representatives (`TMORs`, in `arch_graph_system.cc`
still called `TaskOrbits`): the map `_orbit_reprs` from representative to orbit
id, kept in order of insertion. -/
structure TMORs where
  orbit_reprs : List (TaskAllocation × Nat)
deriving DecidableEq, Repr

/-- The empty registry. -/
def TMORs.empty : TMORs := ⟨[]⟩

/-- `TMORs::is_repr`: a pure lookup of the allocation among the keys. -/
def TMORs.is_repr (r : TMORs) (m : TaskAllocation) : Bool :=
  (r.orbit_reprs.lookup m).isSome

/-- `TMORs::num_orbits`: the size of the map. -/
def TMORs.num_orbits (r : TMORs) : Nat := r.orbit_reprs.length

/-- Modelled from the spec: the body of `TMORs::insert` is not in the slice.
`insert(m)` looks up `m`; if absent it assigns the next id and returns
`(true, id)`, else it returns `(false, existing_id)`. -/
def TMORs.insert (r : TMORs) (m : TaskAllocation) : (Bool × Nat) × TMORs :=
  match r.orbit_reprs.lookup m with
  | some i => ((false, i), r)
  | none => ((true, r.orbit_reprs.length), ⟨r.orbit_reprs ++ [(m, r.orbit_reprs.length)]⟩)

/-- Modelled from the spec: `is_representative`, the lookup behind the early
exit: with no registry supplied nothing is a known representative. -/
def is_representative (m : TaskAllocation) (orbits : Option TMORs) : Bool :=
  match orbits with
  | none => false
  | some r => r.is_repr m

/-! ## The task orbit minimiser (`arch_graph_system.cc`) -/

/-- What the minimiser uses of `automorphisms()`: the degree, the generators
`automorphisms().generators()` and the sequence of elements that iterating the
group yields. -/
structure PermGroup where
  degree : Nat
  generators : PermSet
  elements : List Perm
deriving DecidableEq, Repr

/-- The group is well formed: its generators are permutations of its degree
and iterating it yields exactly the elements of the group they generate. -/
def PermGroup.wf (G : PermGroup) : Prop :=
  (∀ g ∈ G.generators, g.valid ∧ g.degree = G.degree) ∧
  ∀ σ, σ ∈ G.elements ↔ Generated G.degree G.generators σ

/-- The `for` loop of `ArchGraphSystem::min_elem_iterate` over the elements
still to come, with the current `representative`. -/
def min_elem_iterate_loop (tasks : TaskAllocation) (offset : Nat) (orbits : Option TMORs) :
    List Perm → TaskAllocation → TaskAllocation
  | [], representative => representative
  | element :: rest, representative =>
    if less_than tasks representative element offset then
      let representative' := permuted tasks element offset
      if is_representative representative' orbits then representative'
      else min_elem_iterate_loop tasks offset orbits rest representative'
    else min_elem_iterate_loop tasks offset orbits rest representative

/-- `ArchGraphSystem::min_elem_iterate`. -/
def min_elem_iterate (G : PermGroup) (tasks : TaskAllocation) (offset : Nat)
    (orbits : Option TMORs) : TaskAllocation :=
  min_elem_iterate_loop tasks offset orbits G.elements tasks

/-- The `for` loop over the generators inside the `while` loop of
`ArchGraphSystem::min_elem_orbits`: either a known representative is hit and
returned (`Sum.inl`), or the queue `unprocessed` is extended (`Sum.inr`). -/
def min_elem_orbits_gens (current : TaskAllocation) (offset : Nat) (orbits : Option TMORs)
    (processed : List TaskAllocation) :
    List Perm → List TaskAllocation → TaskAllocation ⊕ List TaskAllocation
  | [], unprocessed => Sum.inr unprocessed
  | generator :: rest, unprocessed =>
    let next := permuted current generator offset
    if is_representative next orbits then Sum.inl next
    else if next ∉ processed then
      min_elem_orbits_gens current offset orbits processed rest (unprocessed ++ [next])
    else min_elem_orbits_gens current offset orbits processed rest unprocessed

/-- The `while (!unprocessed.empty())` loop of
`ArchGraphSystem::min_elem_orbits`.  The first argument bounds the number of
passes; `none` means that the bound was reached with the queue not empty. -/
def min_elem_orbits_loop (generators : PermSet) (offset : Nat) (orbits : Option TMORs) :
    Nat → List TaskAllocation → List TaskAllocation → TaskAllocation → Option TaskAllocation
  | _, [], _, representative => some representative
  | 0, _ :: _, _, _ => none
  | fuel + 1, current :: unprocessed, processed, representative =>
    let processed' := List.insert current processed
    let representative' := if lexLt current representative then current else representative
    match min_elem_orbits_gens current offset orbits processed' generators unprocessed with
    | Sum.inl next => some next
    | Sum.inr unprocessed' =>
      min_elem_orbits_loop generators offset orbits fuel unprocessed' processed' representative'

/-- `ArchGraphSystem::min_elem_orbits`, with a bound on the passes of its
`while` loop. -/
def min_elem_orbits (G : PermGroup) (fuel : Nat) (tasks : TaskAllocation) (offset : Nat)
    (orbits : Option TMORs) : Option TaskAllocation :=
  min_elem_orbits_loop G.generators offset orbits fuel [tasks] [] tasks

/-- One pass of the `for` loop of `ArchGraphSystem::min_elem_local_search`
over the generators, with the current `representative` and `stationary`. -/
def min_elem_local_search_pass (offset : Nat) :
    List Perm → TaskAllocation → Bool → TaskAllocation × Bool
  | [], representative, stationary => (representative, stationary)
  | generator :: rest, representative, stationary =>
    if less_than representative representative generator offset then
      min_elem_local_search_pass offset rest (permuted representative generator offset) false
    else min_elem_local_search_pass offset rest representative stationary

/-- The `while (!stationary)` loop of `ArchGraphSystem::min_elem_local_search`
with a bound on its passes. -/
def min_elem_local_search_loop (generators : PermSet) (offset : Nat) :
    Nat → TaskAllocation → Option TaskAllocation
  | 0, _ => none
  | fuel + 1, representative =>
    match min_elem_local_search_pass offset generators representative true with
    | (representative', true) => some representative'
    | (representative', false) =>
      min_elem_local_search_loop generators offset fuel representative'

/-- `ArchGraphSystem::min_elem_local_search` (it ignores the registry). -/
def min_elem_local_search (G : PermGroup) (fuel : Nat) (tasks : TaskAllocation) (offset : Nat)
    (_orbits : Option TMORs) : Option TaskAllocation :=
  min_elem_local_search_loop G.generators offset fuel tasks

/-- `MappingMethod`. -/
inductive MappingMethod where
  | ITERATE
  | LOCAL_SEARCH
  | ORBITS
deriving DecidableEq, Repr

/-- `ArchGraphSystem::mapping`: computes the representative with the chosen
method and, when a registry is supplied, inserts it there.  Returns the
representative and the registry after the call. -/
def mapping (G : PermGroup) (fuel : Nat) (allocation : TaskAllocation) (offset : Nat)
    (method : MappingMethod) (orbits : Option TMORs) :
    Option (TaskAllocation × Option TMORs) :=
  let representative :=
    match method with
    | MappingMethod.ITERATE => some (min_elem_iterate G allocation offset orbits)
    | MappingMethod.LOCAL_SEARCH => min_elem_local_search G fuel allocation offset orbits
    | MappingMethod.ORBITS => min_elem_orbits G fuel allocation offset orbits
  representative.map (fun r => (r, orbits.map (fun R => (R.insert r).2)))

/-! ## Checking that a listed group is well formed -/

/-- The products of at most `n` generators, by repeated multiplication from the
left. -/
def closureUpTo (gens : List Perm) (d : Nat) : Nat → List Perm
  | 0 => [Perm.identity d]
  | n + 1 => closureUpTo gens d n ++
      gens.flatMap (fun g => (closureUpTo gens d n).map (Perm.compose g))

/-- A decidable test for `PermGroup.wf`: the generators are permutations of
the degree, every listed element is a product of at most `n` generators, and
the list holds the identity and the generators and is closed under composition
and inverse. -/
def PermGroup.check (G : PermGroup) (n : Nat) : Bool :=
  G.generators.all (fun g => decide g.valid && decide (g.degree = G.degree)) &&
  G.elements.all (fun σ => decide (σ ∈ closureUpTo G.generators G.degree n)) &&
  decide (Perm.identity G.degree ∈ G.elements) &&
  G.generators.all (fun g => decide (g ∈ G.elements)) &&
  G.elements.all (fun a => G.elements.all (fun b => decide (Perm.compose a b ∈ G.elements))) &&
  G.elements.all (fun a => decide (Perm.inverse a ∈ G.elements))

/-- The symmetric group of degree 3, generated by `(1 3)` and `(2 3)`. -/
def exS3 : PermGroup :=
  { degree := 3
    generators := [⟨[1, 3, 2]⟩, ⟨[3, 2, 1]⟩]
    elements := [⟨[1, 2, 3]⟩, ⟨[1, 3, 2]⟩, ⟨[2, 1, 3]⟩, ⟨[2, 3, 1]⟩, ⟨[3, 1, 2]⟩, ⟨[3, 2, 1]⟩] }

/-- The group of degree 4 generated by the transposition `(1 2)`. -/
def exC2 : PermGroup :=
  { degree := 4
    generators := [⟨[2, 1, 3, 4]⟩]
    elements := [⟨[1, 2, 3, 4]⟩, ⟨[2, 1, 3, 4]⟩] }

/-! ## Orbits of allocations -/

/-- The allocation `x` lies in the orbit of `a` under the group: `x = τ·a` for
a group element `τ`. -/
def InOrbit (G : PermGroup) (a : TaskAllocation) (o : Nat) (x : TaskAllocation) : Prop :=
  ∃ τ, Generated G.degree G.generators τ ∧ x = permuted a τ o

/-- The orbit minimum: `r` is `τ·a` for a group element `τ`, and for no group
element `σ` is `σ·a` lexicographically smaller than `r`. -/
def IsOrbitMin (G : PermGroup) (a : TaskAllocation) (o : Nat) (r : TaskAllocation) : Prop :=
  InOrbit G a o r ∧
  ∀ σ, Generated G.degree G.generators σ → lexLt (permuted a σ o) r = false

/-- Every known representative of the registry that lies in the orbit of `a`
is the minimum of that orbit. -/
def RegistryMinimal (G : PermGroup) (a : TaskAllocation) (o : Nat) (orbits : Option TMORs) :
    Prop :=
  ∀ x, is_representative x orbits = true → InOrbit G a o x → IsOrbitMin G a o x

/-- The orbit of `a` as a list: the images of `a` under the listed elements. -/
def orbitList (G : PermGroup) (a : TaskAllocation) (o : Nat) : List TaskAllocation :=
  G.elements.map (fun τ => permuted a τ o)

/-- The invariant of the `while` loop of `min_elem_orbits`, for the queue
`Q`, the set `P` of processed allocations and the current representative `r`. -/
structure OrbitsInv (G : PermGroup) (a : TaskAllocation) (o : Nat)
    (Q P : List TaskAllocation) (r : TaskAllocation) : Prop where
  inQ : ∀ x ∈ Q, InOrbit G a o x
  inP : ∀ x ∈ P, InOrbit G a o x
  inR : InOrbit G a o r
  le : ∀ x ∈ P, lexLt x r = false
  closed : ∀ x ∈ P, ∀ g ∈ G.generators, permuted x g o ∈ P ∨ permuted x g o ∈ Q
  start : a ∈ P ∨ a ∈ Q

/-- A sequence of `mapping` calls that share one registry: for each call the
representative returned and the registry after the call. -/
def mapping_seq (G : PermGroup) (fuel : Nat) (offset : Nat) :
    List (TaskAllocation × MappingMethod) → TMORs → Option (List (TaskAllocation × TMORs))
  | [], _ => some []
  | (allocation, method) :: rest, R =>
    match mapping G fuel allocation offset method (some R) with
    | some (representative, some R') =>
      (mapping_seq G fuel offset rest R').map (fun l => (representative, R') :: l)
    | _ => none

/-- Every allocation the registry holds is the minimum of its own orbit. -/
def RegistryOK (G : PermGroup) (o : Nat) (R : TMORs) : Prop :=
  ∀ x, R.is_repr x = true → IsOrbitMin G x o x

/-! ## Schreier structures (`schreier_structure.h`) and the orbit engine -/

/-- The two realisations of the abstract `SchreierStructure`.  Modelled from the
spec (§3, §4.C): *explicit transversals* store for each orbit point the composed
permutation, in order of discovery; a *Schreier tree* stores for each orbit
point other than the root its incoming edge `(destination, origin, label)`. -/
inductive SchreierStructure where
  | explicit (root degree : Nat) (labels : PermSet) (orbit : List (Nat × Perm))
  | tree (root degree : Nat) (labels : PermSet) (edges : List (Nat × Nat × Nat))
deriving DecidableEq, Repr

/-- `SchreierStructure::root`. -/
def SchreierStructure.root : SchreierStructure → Nat
  | explicit r _ _ _ => r
  | tree r _ _ _ => r

/-- Degree of the permutations the structure holds. -/
def SchreierStructure.degree : SchreierStructure → Nat
  | explicit _ d _ _ => d
  | tree _ d _ _ => d

/-- `SchreierStructure::labels`. -/
def SchreierStructure.labels : SchreierStructure → PermSet
  | explicit _ _ l _ => l
  | tree _ _ l _ => l

/-- `SchreierStructure::nodes`: the orbit points, the root first. -/
def SchreierStructure.nodes : SchreierStructure → List Nat
  | explicit _ _ _ orbit => orbit.map Prod.fst
  | tree r _ _ edges => r :: edges.map Prod.fst

/-- `SchreierStructure::contains`. -/
def SchreierStructure.contains (ss : SchreierStructure) (node : Nat) : Bool :=
  decide (node ∈ ss.nodes)

/-- Modelled from the spec: `create_root` resets the structure to the orbit
that holds only the root (with the identity as its transversal). -/
def SchreierStructure.create_root : SchreierStructure → Nat → SchreierStructure
  | explicit _ d l _, r => explicit r d l [(r, Perm.identity d)]
  | tree _ d l _, r => tree r d l []

/-- `SchreierStructure::create_labels`. -/
def SchreierStructure.create_labels : SchreierStructure → PermSet → SchreierStructure
  | explicit r d _ orbit, l => explicit r d l orbit
  | tree r d _ edges, l => tree r d l edges

/-- Modelled from the spec (§4.C): the walk of a Schreier tree from a node to
the root, accumulating the labels bottom-up; it stops at the root, at a node
without incoming edge, or after `fuel` steps. -/
def SchreierStructure.walk (root degree : Nat) (labels : PermSet)
    (edges : List (Nat × Nat × Nat)) : Nat → Nat → Perm → Perm
  | 0, _, acc => acc
  | fuel + 1, current, acc =>
    if current = root then acc
    else
      match edges.lookup current with
      | none => acc
      | some (origin, label) =>
        SchreierStructure.walk root degree labels edges fuel origin
          (Perm.compose acc (labels.getD label (Perm.identity degree)))

/-- Modelled from the spec (§3, §4.C): `transversal(p)`, the product of the
labels along the path from the root to `p`: the stored permutation (explicit
transversals), or the product collected on the walk to the root (Schreier
tree, where a path has at most as many steps as there are edges).  Callers ask
only for points of the orbit; for any other point the identity comes back. -/
def SchreierStructure.transversal : SchreierStructure → Nat → Perm
  | explicit _ d _ orbit, p => (orbit.lookup p).getD (Perm.identity d)
  | tree r d l edges, p =>
    SchreierStructure.walk r d l edges edges.length p (Perm.identity d)

/-- Modelled from the spec (§4.C): `create_edge(origin, destination, label)`.
Explicit transversals set `T(destination) := ℓ · T(origin)`; a Schreier tree
stores `(origin, label)` for the destination. -/
def SchreierStructure.create_edge (ss : SchreierStructure) (origin destination label : Nat) :
    SchreierStructure :=
  match ss with
  | explicit r d l orbit =>
    explicit r d l (orbit ++ [(destination,
      Perm.compose (l.getD label (Perm.identity d)) (ss.transversal origin))])
  | tree r d l edges => tree r d l (edges ++ [(destination, origin, label)])

/-- Modelled from the spec (§4.B, step 3): for the popped point `p`, the pass
over the labels `(i, ℓ)`: `q = ℓ(p)`; if `q` is not visited, add it, record the
incoming edge and enqueue `q`. -/
def Orbit.expand (p : Nat) :
    List Perm → Nat → List Nat → List Nat → SchreierStructure →
      List Nat × List Nat × SchreierStructure
  | [], _, visited, queue, out => (visited, queue, out)
  | l :: rest, i, visited, queue, out =>
    let q := l.apply p
    if q ∉ visited then
      Orbit.expand p rest (i + 1) (visited ++ [q]) (queue ++ [q]) (out.create_edge p q i)
    else Orbit.expand p rest (i + 1) visited queue out

/-- Modelled from the spec (§4.B, step 3): the loop `while queue nonempty`.
The first argument bounds the number of passes; `none` means that the bound was
reached with the queue not empty. -/
def Orbit.loop (labels : PermSet) :
    Nat → List Nat → List Nat → SchreierStructure → Option SchreierStructure
  | _, [], _, out => some out
  | 0, _ :: _, _, _ => none
  | fuel + 1, p :: queue, visited, out =>
    match Orbit.expand p labels 0 visited queue out with
    | (visited', queue', out') => Orbit.loop labels fuel queue' visited' out'

/-- Modelled from the spec (§4.B): `Orbit::generate(root, labels, out)`: reset
`out` with the root and the labels, then run the breadth-first search from the
root.  Every pass of the loop pops a different point, so `degree + 1` passes are
enough for labels of that degree. -/
def Orbit.generate (root : Nat) (labels : PermSet) (out : SchreierStructure) :
    Option SchreierStructure :=
  Orbit.loop labels (out.degree + 1) [root] [root]
    ((out.create_root root).create_labels labels)

/-! ## BSGS (`bsgs.cpp`) -/

/-- What can go wrong: a failed `assert`, the `std::logic_error` thrown for
the shallow Schreier trees, a loop of the embedding that ran out of passes, and
a call through `_transversals` while that pointer is not set. -/
inductive Error where
  | assertion
  | unsupported
  | fuel
  | null
deriving DecidableEq, Repr

/-- `BSGSOptions::Transversals`. -/
inductive Transversals where
  | EXPLICIT
  | SCHREIER_TREES
  | SHALLOW_SCHREIER_TREES
deriving DecidableEq, Repr

/-- The instantiation of `BSGSTransversals<T>` behind `_transversals`. -/
inductive Variant where
  | explicit
  | tree
deriving DecidableEq, Repr

/-- `make_schreier_structure(root, degree, generators)` of
`BSGSTransversals<T>`: a fresh structure of the chosen kind. -/
def make_schreier_structure (v : Variant) (root degree : Nat) (generators : PermSet) :
    SchreierStructure :=
  match v with
  | Variant.explicit => SchreierStructure.explicit root degree generators []
  | Variant.tree => SchreierStructure.tree root degree generators []

/-- `BSGSTransversalsBase::update_schreier_structure`, on the vector
`_schreier_structures`: generate the new structure; `if (i < size) swap`;
`assert(i == size)`; `push_back`. -/
def BSGSTransversalsBase.update_schreier_structure (v : Variant)
    (schreier_structures : List SchreierStructure) (i root degree : Nat)
    (generators : PermSet) : Except Error (List SchreierStructure) :=
  match Orbit.generate root generators (make_schreier_structure v root degree generators) with
  | none => Except.error Error.fuel
  | some ss =>
    let swapped : List SchreierStructure × SchreierStructure :=
      if i < schreier_structures.length then
        (schreier_structures.set i ss, schreier_structures.getD i ss)
      else (schreier_structures, ss)
    if i = swapped.1.length then Except.ok (swapped.1 ++ [swapped.2])
    else Except.error Error.assertion

/-- The state of a `BSGS`. -/
structure BSGS where
  degree : Nat
  base : List Nat
  strong_generators : PermSet
  transversals : Option Variant
  schreier_structures : List SchreierStructure
  is_symmetric : Bool
  is_alternating : Bool
deriving DecidableEq, Repr

/-- `BSGS::BSGS(degree)` with the transversals already chosen: empty base, no
strong generators, no Schreier structures. -/
def BSGS.init (degree : Nat) (v : Variant) : BSGS :=
  { degree := degree, base := [], strong_generators := [], transversals := some v,
    schreier_structures := [], is_symmetric := false, is_alternating := false }

/-- `BSGS::base_size`. -/
def BSGS.base_size (b : BSGS) : Nat := b.base.length

/-- `BSGS::base_point(i)`. -/
def BSGS.base_point (b : BSGS) (i : Nat) : Nat := b.base.getD i 0

/-- `BSGS::schreier_structure(i)`. -/
def BSGS.schreier_structure (b : BSGS) (i : Nat) : SchreierStructure :=
  b.schreier_structures.getD i (SchreierStructure.explicit 0 b.degree [] [])

/-- `BSGS::orbit(i)`: the nodes of the Schreier structure of level `i`. -/
def BSGS.orbit (b : BSGS) (i : Nat) : List Nat := (b.schreier_structure i).nodes

/-- `BSGS::order`: the product of the orbit sizes of all levels. -/
def BSGS.order (b : BSGS) : Nat :=
  (List.range b.base_size).foldl (fun res i => res * (b.orbit i).length) 1

/-- `BSGS::strong_generators(i)`: the strong generators that stabilise the
first `i` base points. -/
def BSGS.strong_generators_from (b : BSGS) (i : Nat) : PermSet :=
  b.strong_generators.foldl
    (fun ret sg => if sg.stabilizes (b.base.take i) then PermSet.insert ret sg else ret) []

/-- `BSGS::transversal(i, o)`. -/
def BSGS.transversal (b : BSGS) (i o : Nat) : Perm := (b.schreier_structure i).transversal o

/-- `BSGS::stabilizers(i)`. -/
def BSGS.stabilizers (b : BSGS) (i : Nat) : PermSet := (b.schreier_structure i).labels

/-- The `for` loop of `BSGS::strip` from level `i` on, with `n` levels to go.
The product `operator*=` of `Perm` is not in the slice and is a parameter. -/
def BSGS.strip_loop (mul : Perm → Perm → Perm) (b : BSGS) : Nat → Nat → Perm → Perm × Nat
  | 0, _, result => (result, b.base_size + 1)
  | n + 1, i, result =>
    let beta := result.apply (b.base_point i)
    if !(b.schreier_structure i).contains beta then (result, i + 1)
    else
      BSGS.strip_loop mul b n (i + 1)
        (mul result (Perm.inverse ((b.schreier_structure i).transversal beta)))

/-- `BSGS::strip(perm, offs)`. -/
def BSGS.strip (mul : Perm → Perm → Perm) (b : BSGS) (perm : Perm) (offs : Nat) : Perm × Nat :=
  BSGS.strip_loop mul b (b.base_size - offs) offs perm

/-- `BSGS::strips_completely`. -/
def BSGS.strips_completely (mul : Perm → Perm → Perm) (b : BSGS) (perm : Perm) : Bool :=
  (BSGS.strip mul b perm 0).1.id && (BSGS.strip mul b perm 0).2 == b.base_size + 1

/-- Modelled from the spec: `BSGS::update_schreier_structure(i, generators)`
(declared in the header) hands level `i`, its base point and the degree to the
transversals. -/
def BSGS.update_schreier_structure (b : BSGS) (i : Nat) (generators : PermSet) :
    Except Error BSGS :=
  match b.transversals with
  | none => Except.error Error.null
  | some v =>
    match BSGSTransversalsBase.update_schreier_structure v b.schreier_structures i
        (b.base_point i) b.degree generators with
    | Except.error e => Except.error e
    | Except.ok sss => Except.ok { b with schreier_structures := sss }

/-- The second `for` loop of `construct_symmetric` (`skip = 1`) and of
`construct_alternating` (`skip = 2`), from level `i` on with `n` levels to
go: the first `degree - i - skip` strong generators and their inverses generate
the Schreier structure of level `i`. -/
def BSGS.construct_levels (skip : Nat) : Nat → Nat → BSGS → Except Error BSGS
  | 0, _, b => Except.ok b
  | n + 1, i, b =>
    match b.update_schreier_structure i
        (PermSet.insert_inverses (PermSet.subset b.strong_generators 0 (b.degree - i - skip))) with
    | Except.error e => Except.error e
    | Except.ok b' => BSGS.construct_levels skip n (i + 1) b'

/-- `BSGS::construct_symmetric`. -/
def BSGS.construct_symmetric (b : BSGS) : Except Error BSGS :=
  if b.degree = 1 then Except.ok b
  else
    let b1 := { b with base := List.range' 1 (b.degree - 1) }
    let b2 := { b1 with
      strong_generators := PermSet.make_unique
        ((List.range' 1 (b.degree - 1)).reverse.foldl
          (fun s i => PermSet.insert s (Perm.ofCycles b.degree [[i, b.degree]]))
          b.strong_generators) }
    match BSGS.construct_levels 1 b2.base.length 0 b2 with
    | Except.error e => Except.error e
    | Except.ok b3 => Except.ok { b3 with is_symmetric := true }

/-- `BSGS::construct_alternating`. -/
def BSGS.construct_alternating (b : BSGS) : Except Error BSGS :=
  if b.degree < 2 then Except.ok b
  else
    let b1 := { b with base := List.range' 1 (b.degree - 2) }
    let b2 := { b1 with
      strong_generators := PermSet.insert_inverses
        ((List.range' 1 (b.degree - 2)).reverse.foldl
          (fun s i => PermSet.insert s (Perm.ofCycles b.degree [[i, b.degree - 1, b.degree]]))
          b.strong_generators) }
    match BSGS.construct_levels 2 b2.base.length 0 b2 with
    | Except.error e => Except.error e
    | Except.ok b3 => Except.ok { b3 with is_alternating := true }

/-! ## Invariants of the orbit engine -/

/-- The permutation `t` is a product of labels and carries the root to `p`. -/
def IsTransversal (r d : Nat) (L : PermSet) (p : Nat) (t : Perm) : Prop :=
  Generated d L t ∧ t.apply r = p

/-- In the Schreier tree with the given edges, the node `p` is `n` edges away
from the root and the product of the labels on its path is `t`. -/
inductive TreePath (r d : Nat) (L : PermSet) (edges : List (Nat × Nat × Nat)) :
    Nat → Perm → Nat → Prop
  | root : TreePath r d L edges r (Perm.identity d) 0
  | step {q origin label n : Nat} {t l : Perm} :
      TreePath r d L edges origin t n → q ≠ r → edges.lookup q = some (origin, label) →
      L.get? label = some l → TreePath r d L edges q (Perm.compose l t) (n + 1)

/-- What a Schreier structure stores for the node `p` amounts to `t`. -/
def SchreierStructure.Stored : SchreierStructure → Nat → Perm → Prop
  | explicit _ _ _ orbit, p, t => orbit.lookup p = some t
  | tree r d L edges, p, t => ∃ n, n ≤ edges.length ∧ TreePath r d L edges p t n

/-- The invariant of a Schreier structure under construction for the root
`r`, the degree `d` and the labels `L`: for every node a product of labels
that carries the root to the node is stored. -/
def SchreierStructure.Inv (r d : Nat) (L : PermSet) (ss : SchreierStructure) : Prop :=
  ss.root = r ∧ ss.degree = d ∧ ss.labels = L ∧
  ∀ p ∈ ss.nodes, ∃ t, ss.Stored p t ∧ IsTransversal r d L p t

/-- The labels of level `i` on the fast paths: the first `degree - i - skip`
strong generators and their inverses. -/
def BSGS.level_labels (b : BSGS) (skip i : Nat) : PermSet :=
  PermSet.insert_inverses (PermSet.subset b.strong_generators 0 (b.degree - i - skip))

/-- What the Schreier structure of the 0-based level `k` of a fast path looks
like in degree `d`: its root is `k + 1`, its nodes are the points
`k + 1, ..., d`, each once, and the transversal of a node is a permutation of
degree `d` that carries the root to the node and fixes the points `1, ..., k`. -/
structure LevelSpec (d k : Nat) (ss : SchreierStructure) : Prop where
  root : ss.root = k + 1
  nodup : ss.nodes.Nodup
  nodes : ∀ x, x ∈ ss.nodes ↔ k + 1 ≤ x ∧ x ≤ d
  transversal : ∀ p ∈ ss.nodes, (ss.transversal p).valid ∧ (ss.transversal p).degree = d ∧
    (ss.transversal p).apply (k + 1) = p ∧
    ∀ x, 1 ≤ x → x ≤ k → (ss.transversal p).apply x = x

/-- The transpositions `(d-1 d), ..., (1 d)` in the order in which
`construct_symmetric` inserts them. -/
def symmetric_generators (d : Nat) : PermSet :=
  (List.range' 1 (d - 1)).reverse.map (fun i => Perm.ofCycles d [[i, d]])

/-- The 3-cycles `(d-2 d-1 d), ..., (1 d-1 d)` in the order in which
`construct_alternating` inserts them. -/
def alternating_cycles (d : Nat) : PermSet :=
  (List.range' 1 (d - 2)).reverse.map (fun i => Perm.ofCycles d [[i, d - 1, d]])

/-- The product that applies its left factor first,
`(a · b)(x) = b(a(x))`. -/
def Perm.mul_left_first (a b : Perm) : Perm := Perm.compose b a

/-- The alternating group of degree 3, generated by the strong generators of
the alternating fast path, `(1 2 3)` and its inverse. -/
def exA3 : PermGroup :=
  { degree := 3
    generators := [⟨[2, 3, 1]⟩, ⟨[3, 1, 2]⟩]
    elements := [⟨[1, 2, 3]⟩, ⟨[2, 3, 1]⟩, ⟨[3, 1, 2]⟩] }

/-- The BSGS that `construct_alternating` builds in degree 3 (explicit
transversals). -/
def exA3_bsgs : BSGS :=
  { degree := 3, base := [1], strong_generators := [⟨[2, 3, 1]⟩, ⟨[3, 1, 2]⟩],
    transversals := some Variant.explicit,
    schreier_structures := [SchreierStructure.explicit 1 3 [⟨[2, 3, 1]⟩, ⟨[3, 1, 2]⟩]
      [(1, ⟨[1, 2, 3]⟩), (2, ⟨[2, 3, 1]⟩), (3, ⟨[3, 1, 2]⟩)]],
    is_symmetric := false, is_alternating := true }

/-- The BSGS that `construct_symmetric` builds in degree 3 (explicit
transversals). -/
def exS3_bsgs : BSGS :=
  { degree := 3, base := [1, 2], strong_generators := [⟨[1, 3, 2]⟩, ⟨[3, 2, 1]⟩],
    transversals := some Variant.explicit,
    schreier_structures := [SchreierStructure.explicit 1 3 [⟨[1, 3, 2]⟩, ⟨[3, 2, 1]⟩]
        [(1, ⟨[1, 2, 3]⟩), (3, ⟨[3, 2, 1]⟩), (2, ⟨[2, 3, 1]⟩)],
      SchreierStructure.explicit 2 3 [⟨[1, 3, 2]⟩] [(2, ⟨[1, 2, 3]⟩), (3, ⟨[1, 3, 2]⟩)]],
    is_symmetric := true, is_alternating := false }

/-- The explicit transversals `orbit` and the Schreier tree `edges` filled by
the same run of the orbit engine agree: they hold the same nodes in the same
order, and for every node the stored permutation is the product of the labels
on the path of the tree from the root to the node. -/
def SchreierStructure.Agree (r d : Nat) (L : PermSet) (orbit : List (Nat × Perm))
    (edges : List (Nat × Nat × Nat)) : Prop :=
  orbit.map Prod.fst = r :: edges.map Prod.fst ∧
  ∀ p ∈ orbit.map Prod.fst, ∃ t n, orbit.lookup p = some t ∧ n ≤ edges.length ∧
    TreePath r d L edges p t n

/-- A sequence of `insert` calls on one registry: the pairs the calls return, in
order, and the registry after the last call. -/
def TMORs.inserts (r : TMORs) : List TaskAllocation → List (Bool × Nat) × TMORs
  | [] => ([], r)
  | m :: rest =>
    ((r.insert m).1 :: (TMORs.inserts (r.insert m).2 rest).1,
      (TMORs.inserts (r.insert m).2 rest).2)

/-- The allocation obtained from `a` by applying the permutations of the
sequence `w` one after the other. -/
def applyWord (a : TaskAllocation) (o : Nat) (w : List Perm) : TaskAllocation :=
  w.foldl (fun x g => permuted x g o) a

/-! ## Element enumeration -/

/-- Modelled from the spec: (§4.F) the base-image tuples `(β_i, …, β_{i+n-1})`
with each `β_j` taken from the orbit of level `j`, in enumeration order. -/
def BSGS.tuples (b : BSGS) : Nat → Nat → List (List Nat)
  | 0, _ => [[]]
  | n + 1, i =>
    (b.orbit i).flatMap (fun β => (BSGS.tuples b n (i + 1)).map (fun t => β :: t))

/-- Modelled from the spec: (§4.F) the element `T_i(β_i) · T_{i+1}(β_{i+1}) · …`
of a base-image tuple, with the composition of §4.A. -/
def BSGS.tuple_product (b : BSGS) : Nat → List Nat → Perm
  | _, [] => Perm.identity b.degree
  | i, β :: t => Perm.compose (b.transversal i β) (BSGS.tuple_product b (i + 1) t)

/-- Modelled from the spec: (§4.F) the enumeration of the group elements, one
product per base-image tuple. -/
def BSGS.elements (b : BSGS) : List Perm :=
  (b.tuples b.base_size 0).map (b.tuple_product 0)

/-- The invariants of a base with its transversals: every base point lies in the
domain, the orbit of a level lists no point twice, and `T_i(β)` is a permutation
of the domain that maps the base point `b_i` to `β` and fixes the earlier base
points. -/
def BSGS.Chain (b : BSGS) : Prop :=
  ∀ i, i < b.base_size →
    (1 ≤ b.base_point i ∧ b.base_point i ≤ b.degree) ∧ (b.orbit i).Nodup ∧
    ∀ β ∈ b.orbit i,
      (b.transversal i β).valid ∧ (b.transversal i β).degree = b.degree ∧
      (b.transversal i β).apply (b.base_point i) = β ∧
      ∀ j, j < i → (b.transversal i β).apply (b.base_point j) = b.base_point j

instance (b : BSGS) : Decidable b.Chain := by
  unfold BSGS.Chain Perm.valid
  infer_instance

/-- A base and strong generating set of the group generated by `(1 2 3)` and
`(2 3 4)` in degree 4, with base `[1, 2]` and explicit transversals. -/
def exA4_bsgs : BSGS :=
  { degree := 4, base := [1, 2], strong_generators := [⟨[2, 3, 1, 4]⟩, ⟨[1, 3, 4, 2]⟩],
    transversals := some Variant.explicit,
    schreier_structures :=
      [SchreierStructure.explicit 1 4 [⟨[2, 3, 1, 4]⟩, ⟨[1, 3, 4, 2]⟩]
        [(1, ⟨[1, 2, 3, 4]⟩), (2, ⟨[2, 3, 1, 4]⟩), (3, ⟨[3, 1, 2, 4]⟩), (4, ⟨[4, 1, 3, 2]⟩)],
       SchreierStructure.explicit 2 4 [⟨[1, 3, 4, 2]⟩]
        [(2, ⟨[1, 2, 3, 4]⟩), (3, ⟨[1, 3, 4, 2]⟩), (4, ⟨[1, 4, 2, 3]⟩)]],
    is_symmetric := false, is_alternating := false }

/-! ## Sign -/

/-- The map of `Fin d` that `p` induces: the point `i + 1` goes to `p(i + 1)`. -/
def Perm.toFun (d : Nat) (p : Perm) (i : Fin d) : Fin d :=
  if h : p.apply (i.1 + 1) - 1 < d then ⟨p.apply (i.1 + 1) - 1, h⟩ else i

/-- The bijection of `Fin d` that `p` induces (the identity when the image
vector is not a bijection of `[1, d]`). -/
def Perm.toEquiv (d : Nat) (p : Perm) : Equiv.Perm (Fin d) :=
  if h : (∀ i, Perm.toFun d p.inverse (Perm.toFun d p i) = i) ∧
      (∀ i, Perm.toFun d p (Perm.toFun d p.inverse i) = i) then
    ⟨Perm.toFun d p, Perm.toFun d p.inverse, h.1, h.2⟩
  else 1

/-- Modelled from the spec: (§3, Permutation) the derived sign (parity) of a
permutation, `1` for an even and `-1` for an odd one. -/
def Perm.sign (p : Perm) : Int :=
  ((Equiv.Perm.sign (Perm.toEquiv p.degree p) : ℤˣ) : Int)

/-! ## Product-replacement randomizer -/

/-- Modelled from the spec: (§4.D) the outcome of the random choices of one
step: the two indices into the tape, the side and the polarity.  A choice the
generator may make has both indices inside the tape and distinct; the step of
the embedding is defined for every choice. -/
structure PrChoice where
  i : Nat
  j : Nat
  right : Bool
  inverse : Bool
deriving DecidableEq, Repr

/-- Modelled from the spec: (§4.D) the state of the randomizer: the tape, the
accumulator, and its own source of random choices `rnd` with the number `pos`
of choices drawn so far. -/
structure PrRandomizer where
  degree : Nat
  tape : List Perm
  acc : Perm
  rnd : Nat → PrChoice
  pos : Nat

/-- Modelled from the spec: (§4.D) one step: `tape[i] ← tape[i] · tape[j]^{±1}`
(right) or `tape[j]^{±1} · tape[i]` (left), and the accumulator is multiplied
by the new `tape[i]` on the same side. -/
def PrRandomizer.step (pr : PrRandomizer) : PrRandomizer :=
  let c := pr.rnd pr.pos
  let x := pr.tape.getD c.i (Perm.identity pr.degree)
  let y := pr.tape.getD c.j (Perm.identity pr.degree)
  let y' := if c.inverse then Perm.inverse y else y
  let x' := if c.right then Perm.compose x y' else Perm.compose y' x
  { pr with
    tape := pr.tape.set c.i x'
    acc := if c.right then Perm.compose pr.acc x' else Perm.compose x' pr.acc
    pos := pr.pos + 1 }

/-- Modelled from the spec: the common degree of the members of a generating
set (0 for the empty set). -/
def PermSet.degree (s : PermSet) : Nat := (s.head?.map Perm.degree).getD 0

/-- Modelled from the spec: (§4.D) the seeded state: a tape of
`max(10, 2|S| + 1)` entries that repeats the generators (the identity when
there is none), and the identity as accumulator. -/
def PrRandomizer.seed (generators : PermSet) (rnd : Nat → PrChoice) : PrRandomizer :=
  { degree := generators.degree
    tape := (List.range (max 10 (2 * generators.length + 1))).map
      (fun k => generators.getD (k % generators.length) (Perm.identity generators.degree))
    acc := Perm.identity generators.degree
    rnd := rnd
    pos := 0 }

/-- Modelled from the spec: (§4.D) `PrRandomizer(generators)`: seed, then a
warm-up of 50 steps. -/
def PrRandomizer.create (generators : PermSet) (rnd : Nat → PrChoice) : PrRandomizer :=
  Nat.iterate PrRandomizer.step 50 (PrRandomizer.seed generators rnd)

/-- Modelled from the spec: (§4.D) `next()`: one step, then
`accumulator · tape[0]`.  Returns the element and the state after the call. -/
def PrRandomizer.next (pr : PrRandomizer) : Perm × PrRandomizer :=
  (Perm.compose pr.step.acc (pr.step.tape.getD 0 (Perm.identity pr.degree)), pr.step)

/-- The results of `k` successive calls of `next()`, and the state after them. -/
def PrRandomizer.draw : Nat → PrRandomizer → List Perm × PrRandomizer
  | 0, pr => ([], pr)
  | k + 1, pr =>
    (pr.next.1 :: (PrRandomizer.draw k pr.next.2).1, (PrRandomizer.draw k pr.next.2).2)

/-- Modelled from the spec: (§4.D) the default number of samples,
`⌈10 · log₂ d⌉`. -/
def PrRandomizer.default_runs (d : Nat) : Nat := Nat.clog 2 (d ^ 10)

/-- Modelled from the spec: (§4.D) the samples generate a transitive action,
by trial orbit closure on the point 1. -/
def PrRandomizer.transitive (d : Nat) (samples : List Perm) : Bool :=
  match Orbit.generate 1 samples (make_schreier_structure Variant.explicit 1 d samples) with
  | some ss => ss.nodes.length == d
  | none => false

/-- Modelled from the spec: (§4.D) `test_symmetric`: draw `runs` samples; pass
iff at least one is odd and together they act transitively. -/
def PrRandomizer.test_symmetric (pr : PrRandomizer) (runs : Nat) : Bool × PrRandomizer :=
  ((pr.draw runs).1.any (fun p => p.sign == -1) && PrRandomizer.transitive pr.degree (pr.draw runs).1,
    (pr.draw runs).2)

/-- Modelled from the spec: (§4.D) `test_alternating`: all samples are even
and together they act transitively. -/
def PrRandomizer.test_alternating (pr : PrRandomizer) (runs : Nat) : Bool × PrRandomizer :=
  ((pr.draw runs).1.all (fun p => p.sign == 1) && PrRandomizer.transitive pr.degree (pr.draw runs).1,
    (pr.draw runs).2)

/-- The tape entries and the accumulator of `pr` lie in the group generated by
`S`. -/
def PrRandomizer.InGroup (S : PermSet) (pr : PrRandomizer) : Prop :=
  pr.degree = S.degree ∧ (∀ t ∈ pr.tape, Generated S.degree S t) ∧ Generated S.degree S pr.acc

/-- A source of choices that walks over the tape of ten entries. -/
def exRnd (n : Nat) : PrChoice :=
  { i := n % 10, j := (n + 1) % 10, right := n % 2 == 0, inverse := n % 3 == 0 }

/-! ## The constructor `BSGS::BSGS` -/

/-- `BSGSOptions::Construction`. -/
inductive Construction where
  | AUTO
  | SCHREIER_SIMS
  | SCHREIER_SIMS_RANDOM
  | SOLVE
deriving DecidableEq, Repr

/-- The fields of `BSGSOptions` that `bsgs.cpp` reads, as `fill_defaults`
returns them. -/
structure BSGSOptions where
  construction : Construction
  transversals : Transversals
  check_altsym : Bool
  reduce_gens : Bool
  schreier_sims_random_use_known_order : Bool
  schreier_sims_random_known_order : Nat
deriving DecidableEq, Repr

/-- The construction algorithms that `construct_unknown` calls and that are
defined outside the slice (`schreier_sims`, `schreier_sims_random`, `solve`,
`reduce_gens`), as parameters: each takes the object under construction and
returns it or fails. -/
structure Algorithms where
  schreier_sims : BSGS → PermSet → Except Error BSGS
  schreier_sims_random : BSGS → PermSet → BSGSOptions → Except Error BSGS
  solve : BSGS → PermSet → Except Error BSGS
  reduce_gens : BSGS → Except Error BSGS

/-- `BSGS::construct_unknown`. -/
def BSGS.construct_unknown (alg : Algorithms) (b : BSGS) (generators : PermSet)
    (options : BSGSOptions) : Except Error BSGS :=
  match (match options.construction with
    | Construction.AUTO =>
      if options.schreier_sims_random_use_known_order &&
          decide (options.schreier_sims_random_known_order > 0) then
        alg.schreier_sims_random b generators options
      else alg.schreier_sims b generators
    | Construction.SCHREIER_SIMS => alg.schreier_sims b generators
    | Construction.SCHREIER_SIMS_RANDOM => alg.schreier_sims_random b generators options
    | Construction.SOLVE => alg.solve b generators) with
  | Except.error e => Except.error e
  | Except.ok b1 => if options.reduce_gens then alg.reduce_gens b1 else Except.ok b1

/-- The members of a `BSGS` before the body of a constructor runs: the degree
is set, the base and the strong generators are empty and `_transversals` is a
null pointer. -/
def BSGS.blank (degree : Nat) : BSGS :=
  { degree := degree, base := [], strong_generators := [], transversals := none,
    schreier_structures := [], is_symmetric := false, is_alternating := false }

/-- Modelled from the spec: `PermSet::assert_degree(degree)` holds when every
member has the given degree (§4.E: generators of a different degree are
fatal). -/
def PermSet.assert_degree (s : PermSet) (degree : Nat) : Bool :=
  s.all (fun p => p.degree == degree)

/-- `BSGS::BSGS(degree, generators, options)`, with the options already filled
and the random choices of the randomizer given by `rnd`: `assert(degree > 0)`;
return at once for trivial generators; `assert_degree`; choose the transversals
(the shallow trees throw); take the symmetric or alternating fast path when the
randomizer tests say so, `construct_unknown` otherwise;
`assert(base_size() > 0)`. -/
def BSGS.create (alg : Algorithms) (rnd : Nat → PrChoice) (degree : Nat) (generators : PermSet)
    (options : BSGSOptions) : Except Error BSGS :=
  if degree = 0 then Except.error Error.assertion
  else if generators.trivial then Except.ok (BSGS.blank degree)
  else if !generators.assert_degree degree then Except.error Error.assertion
  else
    match (match options.transversals with
      | Transversals.EXPLICIT => Except.ok Variant.explicit
      | Transversals.SCHREIER_TREES => Except.ok Variant.tree
      | Transversals.SHALLOW_SCHREIER_TREES => Except.error Error.unsupported) with
    | Except.error e => Except.error e
    | Except.ok v =>
      match (if options.check_altsym && decide (degree > 8) then
          if ((PrRandomizer.create generators rnd).test_symmetric
              (PrRandomizer.default_runs degree)).1 then
            (BSGS.init degree v).construct_symmetric
          else if (((PrRandomizer.create generators rnd).test_symmetric
              (PrRandomizer.default_runs degree)).2.test_alternating
                (PrRandomizer.default_runs degree)).1 then
            (BSGS.init degree v).construct_alternating
          else BSGS.construct_unknown alg (BSGS.init degree v) generators options
        else BSGS.construct_unknown alg (BSGS.init degree v) generators options) with
      | Except.error e => Except.error e
      | Except.ok b => if b.base_size > 0 then Except.ok b else Except.error Error.assertion

/-- Stand-ins for the algorithms outside the slice that return the object
unchanged. -/
def exAlgorithms : Algorithms :=
  { schreier_sims := fun b _ => Except.ok b
    schreier_sims_random := fun b _ _ => Except.ok b
    solve := fun b _ => Except.ok b
    reduce_gens := fun b => Except.ok b }

/-- Options that ask for the shallow Schreier trees. -/
def exShallowOptions : BSGSOptions :=
  { construction := Construction.AUTO, transversals := Transversals.SHALLOW_SCHREIER_TREES,
    check_altsym := true, reduce_gens := true, schreier_sims_random_use_known_order := false,
    schreier_sims_random_known_order := 0 }

/-! ## Automorphism oracle wrapper (`nauty_graph.cpp`) -/

/-- The members of `NautyGraph`.  `g` lists the arcs that are set in the dense
adjacency matrix `_g`; `lab` and `ptn` are the arrays of length `n` handed to
the oracle; vertices are 0-based. -/
structure NautyGraph where
  directed : Bool
  effectively_directed : Bool
  n : Nat
  n_reduced : Nat
  g : List (Nat × Nat)
  lab : List Nat
  ptn : List Nat
  edges : List (Nat × Nat)
  ptn_expl : List (List Nat)
deriving DecidableEq, Repr

/-- `NautyGraph::NautyGraph(n, n_reduced, directed, effectively_directed)`:
the empty graph (`EMPTYGRAPH`), no edges and no partition; the freshly
allocated arrays are taken to hold zeros. -/
def NautyGraph.create (n n_reduced : Nat) (directed effectively_directed : Bool) : NautyGraph :=
  { directed := directed, effectively_directed := effectively_directed, n := n,
    n_reduced := n_reduced, g := [], lab := List.replicate n 0, ptn := List.replicate n 0,
    edges := [], ptn_expl := [] }

/-- `NautyGraph::add_edge`: both ends are asserted to be vertices; `ADDONEARC`
sets the arc from `u` to `v`, `ADDONEEDGE` both arcs; the edge is appended to
`_edges`. -/
def NautyGraph.add_edge (G : NautyGraph) (u v : Nat) : Except Error NautyGraph :=
  if ¬ u < G.n then Except.error Error.assertion
  else if ¬ v < G.n then Except.error Error.assertion
  else
    Except.ok { G with
      g := if G.directed then List.insert (u, v) G.g
        else List.insert (v, u) (List.insert (u, v) G.g)
      edges := G.edges ++ [(u, v)] }

/-- The inner loop of `NautyGraph::add_edges` over the targets of one vertex. -/
def NautyGraph.add_edges_from (G : NautyGraph) (u : Nat) :
    List Nat → Except Error NautyGraph
  | [] => Except.ok G
  | v :: rest =>
    match G.add_edge u v with
    | Except.error e => Except.error e
    | Except.ok G' => NautyGraph.add_edges_from G' u rest

/-- `NautyGraph::add_edges`: the adjacency map, in the order of its keys. -/
def NautyGraph.add_edges (G : NautyGraph) : List (Nat × List Nat) → Except Error NautyGraph
  | [] => Except.ok G
  | p :: rest =>
    match G.add_edges_from p.1 p.2 with
    | Except.error e => Except.error e
    | Except.ok G' => NautyGraph.add_edges G' rest

/-- The values that `set_partition` writes to `_lab` and `_ptn`, cell by cell:
the vertex, and 0 for the last vertex of a cell, 1 for the others. -/
def NautyGraph.partition_entries (ptn : List (List Nat)) : List (Nat × Nat) :=
  ptn.flatMap (fun p =>
    (List.range p.length).map (fun j => (p.getD j 0, if j = p.length - 1 then 0 else 1)))

/-- `NautyGraph::set_partition`: stores the partition and writes `_lab[i]`,
`_ptn[i]` for `i = 0, 1, ...`; entries beyond the partition keep their
values (writes past the end of the arrays are not modelled). -/
def NautyGraph.set_partition (G : NautyGraph) (ptn : List (List Nat)) : NautyGraph :=
  { G with
    ptn_expl := ptn
    lab := (((NautyGraph.partition_entries ptn).map Prod.fst) ++
      G.lab.drop (NautyGraph.partition_entries ptn).length).take G.lab.length
    ptn := (((NautyGraph.partition_entries ptn).map Prod.snd) ++
      G.ptn.drop (NautyGraph.partition_entries ptn).length).take G.ptn.length }

/-- The options of the oracle that `automorphism_generators` chooses: the
directed or the undirected defaults, and `defaultptn`. -/
structure NautyOptions where
  digraph : Bool
  defaultptn : Bool
deriving DecidableEq, Repr

/-- The oracle `densenauty`, which is outside the slice, as a parameter: from
the dense graph, `lab`, `ptn`, the options and `n` to the raw 0-based image
arrays that it hands to the callback `userautomproc`, in order. -/
abbrev NautyOracle :=
  List (Nat × Nat) → List Nat → List Nat → NautyOptions → Nat → List (List Nat)

/-- The callback `_save_gens`: `tmp[i] = perm[i] + 1` for `i < _gen_degree`,
then `_gens.emplace(tmp)`. -/
def _save_gens (_gen_degree : Nat) (_gens : PermSet) (perm : List Nat) : PermSet :=
  PermSet.insert _gens ⟨(List.range _gen_degree).map (fun i => perm.getD i 0 + 1)⟩

/-- `NautyGraph::automorphism_generators`: nothing for a graph without edges;
otherwise `_gens` is cleared, `_gen_degree` is set to `n_reduced`, and the
oracle runs with `_save_gens` as callback. -/
def NautyGraph.automorphism_generators (oracle : NautyOracle) (G : NautyGraph) : PermSet :=
  if G.edges.isEmpty then []
  else
    (oracle G.g G.lab G.ptn
      { digraph := G.effectively_directed, defaultptn := G.ptn_expl.isEmpty } G.n).foldl
      (_save_gens G.n_reduced) []

/-- The calls that build a graph. -/
inductive NautyCall where
  | add_edge (u v : Nat)
  | add_edges (adj : List (Nat × List Nat))
  | set_partition (ptn : List (List Nat))
deriving DecidableEq, Repr

/-- A sequence of calls on a graph, in order. -/
def NautyGraph.run (G : NautyGraph) : List NautyCall → Except Error NautyGraph
  | [] => Except.ok G
  | NautyCall.add_edge f t :: rest =>
    match G.add_edge f t with
    | Except.error e => Except.error e
    | Except.ok G' => NautyGraph.run G' rest
  | NautyCall.add_edges adj :: rest =>
    match G.add_edges adj with
    | Except.error e => Except.error e
    | Except.ok G' => NautyGraph.run G' rest
  | NautyCall.set_partition ptn :: rest => NautyGraph.run (G.set_partition ptn) rest

/-- A call that adds no edge: `set_partition`, or `add_edges` with an adjacency
map without targets. -/
def NautyCall.adds_no_edge : NautyCall → Bool
  | NautyCall.add_edge _ _ => false
  | NautyCall.add_edges adj => adj.all (fun p => p.2.isEmpty)
  | NautyCall.set_partition _ => true

/-- An oracle that hands one array to the callback: the exchange of the
vertices 0 and 1. -/
def exOracle : NautyOracle := fun _ _ _ _ n => [[1, 0] ++ List.range' 2 (n - 2)]

/-- The permutation `q` is the stored form of the raw array `p` for
`n_reduced = nr`: it has degree `nr`, the image of the point `i + 1` is
`p[i] + 1` for `i < nr`, and when `p` maps `[0, nr)` onto itself the image
vector of `q` is a bijection of `[1, nr]`. -/
def NautyGraph.Translates (nr : Nat) (p : List Nat) (q : Perm) : Prop :=
  q.degree = nr ∧
  (∀ i, i < nr → ∃ x, p.get? i = some x ∧ q.apply (i + 1) = x + 1) ∧
  ((∀ i, i < nr → p.getD i 0 < nr) → (∀ j, j < nr → ∃ i, i < nr ∧ p.getD i 0 = j) → q.valid)

/-- A graph on four vertices, two of them auxiliary, with the partition
`{0, 1}, {2, 3}` and the edges `0 - 2` and `1 - 3`. -/
def exNautyGraph : NautyGraph :=
  { directed := false, effectively_directed := false, n := 4, n_reduced := 2,
    g := [(3, 1), (1, 3), (2, 0), (0, 2)], lab := [0, 1, 2, 3], ptn := [1, 0, 1, 0],
    edges := [(0, 2), (1, 3)], ptn_expl := [[0, 1], [2, 3]] }

/-- `BSGSTransversalsBase::update_schreier_structure` as it runs when the
assertions are compiled out (`NDEBUG`): generate; `if (i < size) swap`;
`push_back`. -/
def BSGSTransversalsBase.update_schreier_structure_ndebug (v : Variant)
    (schreier_structures : List SchreierStructure) (i root degree : Nat)
    (generators : PermSet) : Except Error (List SchreierStructure) :=
  match Orbit.generate root generators (make_schreier_structure v root degree generators) with
  | none => Except.error Error.fuel
  | some ss =>
    let swapped : List SchreierStructure × SchreierStructure :=
      if i < schreier_structures.length then
        (schreier_structures.set i ss, schreier_structures.getD i ss)
      else (schreier_structures, ss)
    Except.ok (swapped.1 ++ [swapped.2])

/-- The level invariant of a BSGS (§3): the Schreier structure of level `i` has
the base point `b_i` as root, its labels are, as a set, the strong generators
that fix the earlier base points (`strong_generators(i)`) together with their
inverses, and some strong generator moves `b_i`. -/
def BSGS.LevelInvariant (b : BSGS) : Prop :=
  ∀ i, i < b.base_size →
    (b.schreier_structure i).root = b.base_point i ∧
    (∀ l, l ∈ (b.schreier_structure i).labels ↔
      l ∈ b.strong_generators_from i ∨ ∃ s ∈ b.strong_generators_from i, l = Perm.inverse s) ∧
    ∃ s ∈ b.strong_generators, s.apply (b.base_point i) ≠ b.base_point i

/-! ## Lexicographic order -/

theorem lexLt_irrefl (a : List Nat) : lexLt a a = false := by
  induction a with
  | nil => rfl
  | cons x xs ih => simp [lexLt, ih]

theorem lexLt_trans {a b c : List Nat} (h1 : lexLt a b = true) (h2 : lexLt b c = true) :
    lexLt a c = true := by
  induction a generalizing b c with
  | nil =>
    cases b with
    | nil => simp [lexLt] at h1
    | cons y ys =>
      cases c with
      | nil => simp [lexLt] at h2
      | cons z zs => simp [lexLt]
  | cons x xs ih =>
    cases b with
    | nil => simp [lexLt] at h1
    | cons y ys =>
      cases c with
      | nil => simp [lexLt] at h2
      | cons z zs =>
        simp only [lexLt] at h1 h2 ⊢
        split_ifs at h1 h2 ⊢ <;> first
          | rfl
          | omega
          | exact ih h1 h2

theorem lexLt_trichotomy (a b : List Nat) : lexLt a b = true ∨ a = b ∨ lexLt b a = true := by
  induction a generalizing b with
  | nil => cases b <;> simp [lexLt]
  | cons x xs ih =>
    cases b with
    | nil => simp [lexLt]
    | cons y ys =>
      simp only [lexLt]
      rcases Nat.lt_trichotomy x y with h | h | h
      · left; simp [h]
      · subst h
        simp only [lt_irrefl, if_false, List.cons.injEq, true_and]
        exact ih ys
      · right; right; simp [h]

theorem lexLt_asymm {a b : List Nat} (h : lexLt a b = true) : lexLt b a = false := by
  cases hba : lexLt b a with
  | false => rfl
  | true =>
    have := lexLt_trans h hba
    rw [lexLt_irrefl] at this
    exact absurd this (by decide)

/-- `a ≤ b < c` gives `a < c`. -/
theorem lexLt_of_le_of_lt {a b c : List Nat} (h1 : lexLt b a = false) (h2 : lexLt b c = true) :
    lexLt a c = true := by
  rcases lexLt_trichotomy a b with h | h | h
  · exact lexLt_trans h h2
  · subst h; exact h2
  · rw [h] at h1; exact absurd h1 (by decide)

/-- `a < b ≤ c` gives `a < c`. -/
theorem lexLt_of_lt_of_le {a b c : List Nat} (h1 : lexLt a b = true) (h2 : lexLt c b = false) :
    lexLt a c = true := by
  rcases lexLt_trichotomy b c with h | h | h
  · exact lexLt_trans h1 h
  · subst h; exact h1
  · rw [h] at h2; exact absurd h2 (by decide)

theorem lexLt_le_trans {a b c : List Nat} (h1 : lexLt b a = false) (h2 : lexLt c b = false) :
    lexLt c a = false := by
  cases hca : lexLt c a with
  | false => rfl
  | true =>
    have := lexLt_of_lt_of_le hca h1
    rw [this] at h2; exact absurd h2 (by decide)

theorem lexLt_antisymm {a b : List Nat} (h1 : lexLt a b = false) (h2 : lexLt b a = false) :
    a = b := by
  rcases lexLt_trichotomy a b with h | h | h
  · rw [h] at h1; exact absurd h1 (by decide)
  · exact h
  · rw [h] at h2; exact absurd h2 (by decide)

theorem Perm.apply_zero (p : Perm) : p.apply 0 = 0 := rfl

theorem Perm.apply_succ_lt (p : Perm) {n : Nat} (h : n < p.img.length) :
    p.apply (n + 1) = p.img[n] := by
  show p.img.getD n (n + 1) = p.img[n]
  exact List.getD_eq_getElem _ _ h

theorem Perm.apply_of_gt (p : Perm) {x : Nat} (h : p.degree < x) : p.apply x = x := by
  cases x with
  | zero => rfl
  | succ n =>
    unfold Perm.degree at h
    show p.img.getD n (n + 1) = n + 1
    rw [List.getD_eq_default]
    omega

theorem Perm.degree_identity (d : Nat) : (Perm.identity d).degree = d := by
  simp [Perm.identity, Perm.degree]

theorem Perm.degree_compose (a b : Perm) : (Perm.compose a b).degree = b.degree := by
  simp [Perm.compose, Perm.degree]

theorem Perm.degree_inverse (a : Perm) : (Perm.inverse a).degree = a.degree := by
  simp [Perm.inverse, Perm.degree]

theorem Perm.apply_identity (d x : Nat) : (Perm.identity d).apply x = x := by
  cases x with
  | zero => rfl
  | succ n =>
    by_cases h : n < d
    · rw [Perm.apply_succ_lt _ (by simpa [Perm.identity] using h)]
      simp [Perm.identity, List.getElem_range']
      omega
    · exact Perm.apply_of_gt _ (by rw [Perm.degree_identity]; omega)

theorem Perm.compose_apply (a b : Perm) (h : a.degree = b.degree) (x : Nat) :
    (Perm.compose a b).apply x = a.apply (b.apply x) := by
  cases x with
  | zero => rfl
  | succ n =>
    by_cases hn : n < b.img.length
    · rw [Perm.apply_succ_lt _ (by simpa [Perm.compose] using hn), Perm.apply_succ_lt _ hn]
      simp [Perm.compose]
    · have hb : b.degree < n + 1 := by unfold Perm.degree; omega
      rw [Perm.apply_of_gt _ (by rw [Perm.degree_compose]; exact hb), Perm.apply_of_gt _ hb,
        Perm.apply_of_gt _ (by rw [h]; exact hb)]

theorem Perm.apply_mem_img (p : Perm) {x : Nat} (h1 : 1 ≤ x) (h2 : x ≤ p.degree) :
    p.apply x ∈ p.img := by
  cases x with
  | zero => omega
  | succ n =>
    unfold Perm.degree at h2
    rw [Perm.apply_succ_lt _ (by omega)]
    exact List.getElem_mem _

theorem Perm.apply_range {p : Perm} (hv : p.valid) {x : Nat} (h1 : 1 ≤ x) (h2 : x ≤ p.degree) :
    1 ≤ p.apply x ∧ p.apply x ≤ p.degree :=
  hv.2 _ (p.apply_mem_img h1 h2)

theorem Perm.apply_pos {p : Perm} (hv : p.valid) {x : Nat} (h1 : 1 ≤ x) : 1 ≤ p.apply x := by
  by_cases h2 : x ≤ p.degree
  · exact (Perm.apply_range hv h1 h2).1
  · rw [Perm.apply_of_gt p (by omega)]; exact h1

theorem Perm.apply_inj {p : Perm} (hv : p.valid) {x y : Nat} (hx1 : 1 ≤ x) (hx2 : x ≤ p.degree)
    (hy1 : 1 ≤ y) (hy2 : y ≤ p.degree) (h : p.apply x = p.apply y) : x = y := by
  cases x with
  | zero => omega
  | succ n =>
    cases y with
    | zero => omega
    | succ m =>
      unfold Perm.degree at hx2 hy2
      have hn : n < p.img.length := by omega
      have hm : m < p.img.length := by omega
      rw [Perm.apply_succ_lt p hn, Perm.apply_succ_lt p hm] at h
      have := (List.Nodup.getElem_inj_iff hv.1).1 h
      omega

theorem Perm.img_perm_range {p : Perm} (hv : p.valid) :
    List.Perm p.img (List.range' 1 p.degree) := by
  have hsub : p.img ⊆ List.range' 1 p.degree := by
    intro x hx
    have := hv.2 x hx
    rw [List.mem_range'_1]
    unfold Perm.degree
    omega
  have hsp : List.Subperm p.img (List.range' 1 p.degree) := List.subperm_of_subset hv.1 hsub
  exact hsp.perm_of_length_le (by simp [Perm.degree])

theorem Perm.mem_img {p : Perm} (hv : p.valid) {y : Nat} (h1 : 1 ≤ y) (h2 : y ≤ p.degree) :
    y ∈ p.img := by
  rw [(Perm.img_perm_range hv).mem_iff, List.mem_range'_1]
  omega

theorem Perm.inverse_apply_eq (p : Perm) {y : Nat} (h1 : 1 ≤ y) (h2 : y ≤ p.degree) :
    (Perm.inverse p).apply y = p.img.indexOf y + 1 := by
  cases y with
  | zero => omega
  | succ n =>
    rw [Perm.apply_succ_lt _ (by simp [Perm.inverse]; omega)]
    simp [Perm.inverse, List.getElem_range']
    rw [Nat.add_comm 1 n]

theorem Perm.apply_inverse {p : Perm} (hv : p.valid) {y : Nat} (h1 : 1 ≤ y) (h2 : y ≤ p.degree) :
    p.apply ((Perm.inverse p).apply y) = y := by
  have hmem := Perm.mem_img hv h1 h2
  have hidx : p.img.indexOf y < p.img.length := List.indexOf_lt_length.2 hmem
  rw [Perm.inverse_apply_eq p h1 h2, Perm.apply_succ_lt _ hidx]
  exact List.indexOf_get hidx

theorem Perm.inverse_range {p : Perm} (hv : p.valid) {y : Nat} (h1 : 1 ≤ y) (h2 : y ≤ p.degree) :
    1 ≤ (Perm.inverse p).apply y ∧ (Perm.inverse p).apply y ≤ p.degree := by
  have hmem := Perm.mem_img hv h1 h2
  have hidx : p.img.indexOf y < p.img.length := List.indexOf_lt_length.2 hmem
  rw [Perm.inverse_apply_eq p h1 h2]
  unfold Perm.degree
  omega

theorem Perm.inverse_apply {p : Perm} (hv : p.valid) {x : Nat} (h1 : 1 ≤ x) (h2 : x ≤ p.degree) :
    (Perm.inverse p).apply (p.apply x) = x := by
  have hr := Perm.apply_range hv h1 h2
  have hi := Perm.inverse_range hv hr.1 hr.2
  exact Perm.apply_inj hv hi.1 hi.2 h1 h2 (Perm.apply_inverse hv hr.1 hr.2)

theorem Perm.ext_apply {a b : Perm} (hd : a.degree = b.degree)
    (h : ∀ x, 1 ≤ x → x ≤ a.degree → a.apply x = b.apply x) : a = b := by
  cases a with
  | mk ai =>
    cases b with
    | mk bi =>
      simp only [Perm.degree] at hd h
      congr 1
      apply List.ext_getElem hd
      intro n h1 h2
      have := h (n + 1) (by omega) (by omega)
      rw [Perm.apply_succ_lt _ h1, Perm.apply_succ_lt _ h2] at this
      exact this

theorem Perm.valid_identity (d : Nat) : (Perm.identity d).valid := by
  constructor
  · exact List.nodup_range' 1 d
  · intro x hx
    simp only [Perm.identity, List.mem_range'_1, List.length_range'] at hx ⊢
    omega

theorem Perm.valid_compose {a b : Perm} (ha : a.valid) (hb : b.valid) (h : a.degree = b.degree) :
    (Perm.compose a b).valid := by
  constructor
  · show (b.img.map a.apply).Nodup
    apply List.Nodup.map_on _ hb.1
    intro x hx y hy hxy
    have h1 := hb.2 x hx
    have h2 := hb.2 y hy
    unfold Perm.degree at h
    exact Perm.apply_inj ha h1.1 (by unfold Perm.degree; omega) h2.1
      (by unfold Perm.degree; omega) hxy
  · intro x hx
    simp only [Perm.compose, List.mem_map, List.length_map] at hx ⊢
    obtain ⟨y, hy, rfl⟩ := hx
    have h1 := hb.2 y hy
    have := Perm.apply_range ha h1.1 (by rw [h]; exact h1.2)
    rw [h] at this
    exact this

theorem Perm.valid_inverse {a : Perm} (ha : a.valid) : (Perm.inverse a).valid := by
  constructor
  · show ((List.range' 1 a.degree).map (fun y => a.img.indexOf y + 1)).Nodup
    apply List.Nodup.map_on _ (List.nodup_range' 1 a.degree)
    intro x hx y hy hxy
    rw [List.mem_range'_1] at hx hy
    have hx' := Perm.mem_img ha hx.1 (by omega)
    have hy' := Perm.mem_img ha hy.1 (by omega)
    exact (List.indexOf_inj hx' hy').1 (Nat.succ_injective hxy)
  · intro x hx
    simp only [Perm.inverse, List.mem_map, List.length_map, List.length_range',
      List.mem_range'_1] at hx ⊢
    obtain ⟨y, hy, rfl⟩ := hx
    have hy' := Perm.mem_img ha hy.1 (by omega)
    have := List.indexOf_lt_length.2 hy'
    unfold Perm.degree
    omega

theorem Perm.compose_assoc (a b c : Perm) (h : a.degree = b.degree) :
    Perm.compose (Perm.compose a b) c = Perm.compose a (Perm.compose b c) := by
  simp only [Perm.compose, List.map_map, Perm.mk.injEq]
  apply List.map_congr_left
  intro x _
  exact Perm.compose_apply a b h x

theorem Perm.identity_compose (d : Nat) (a : Perm) : Perm.compose (Perm.identity d) a = a := by
  cases a with
  | mk ai =>
    simp only [Perm.compose, Perm.mk.injEq]
    conv_rhs => rw [← List.map_id ai]
    apply List.map_congr_left
    intro x _
    exact Perm.apply_identity d x

theorem Perm.compose_identity (a : Perm) : Perm.compose a (Perm.identity a.degree) = a := by
  apply Perm.ext_apply
  · rw [Perm.degree_compose, Perm.degree_identity]
  · intro x _ _
    rw [Perm.compose_apply _ _ (by rw [Perm.degree_identity]), Perm.apply_identity]

theorem Perm.compose_inverse {a : Perm} (ha : a.valid) :
    Perm.compose a (Perm.inverse a) = Perm.identity a.degree := by
  apply Perm.ext_apply
  · rw [Perm.degree_compose, Perm.degree_inverse, Perm.degree_identity]
  · intro x h1 h2
    rw [Perm.degree_compose, Perm.degree_inverse] at h2
    rw [Perm.compose_apply _ _ (by rw [Perm.degree_inverse]), Perm.apply_identity,
      Perm.apply_inverse ha h1 h2]

theorem Perm.inverse_compose {a : Perm} (ha : a.valid) :
    Perm.compose (Perm.inverse a) a = Perm.identity a.degree := by
  apply Perm.ext_apply
  · rw [Perm.degree_compose, Perm.degree_identity]
  · intro x h1 h2
    rw [Perm.degree_compose] at h2
    rw [Perm.compose_apply _ _ (by rw [Perm.degree_inverse]), Perm.apply_identity,
      Perm.inverse_apply ha h1 h2]

theorem Generated.valid_degree {d : Nat} {gens : List Perm}
    (hg : ∀ g ∈ gens, g.valid ∧ g.degree = d) {σ : Perm} (h : Generated d gens σ) :
    σ.valid ∧ σ.degree = d := by
  induction h with
  | one => exact ⟨Perm.valid_identity d, Perm.degree_identity d⟩
  | gen hmem => exact hg _ hmem
  | mul _ _ iha ihb =>
    exact ⟨Perm.valid_compose iha.1 ihb.1 (by rw [iha.2, ihb.2]),
      by rw [Perm.degree_compose, ihb.2]⟩
  | inv _ ih => exact ⟨Perm.valid_inverse ih.1, by rw [Perm.degree_inverse, ih.2]⟩

/-! ## The action on task allocations -/

theorem length_permuted (a : TaskAllocation) (σ : Perm) (o : Nat) :
    (permuted a σ o).length = a.length := by
  simp [permuted]

theorem permuted_identity (a : TaskAllocation) (d o : Nat) :
    permuted a (Perm.identity d) o = a := by
  unfold permuted
  conv_rhs => rw [← List.map_id a]
  apply List.map_congr_left
  intro e _
  rw [Perm.apply_identity]
  split
  · simp only [id]; omega
  · rfl

theorem permuted_permuted (a : TaskAllocation) {σ τ : Perm} (hσ : σ.valid)
    (h : τ.degree = σ.degree) (o : Nat) :
    permuted (permuted a σ o) τ o = permuted a (Perm.compose τ σ) o := by
  simp only [permuted, List.map_map]
  apply List.map_congr_left
  intro e _
  simp only [Function.comp]
  by_cases he : o + 1 ≤ e
  · have hp : 1 ≤ σ.apply (e - o) := Perm.apply_pos hσ (by omega)
    have hs : σ.apply (e - o) + o - o = σ.apply (e - o) := by omega
    rw [if_pos he, if_pos he, if_pos (by omega), Perm.compose_apply _ _ h, hs]
  · rw [if_neg he, if_neg he, if_neg he]

theorem permuted_inRange {a : TaskAllocation} {o d : Nat} (ha : InRange a o d) {σ : Perm}
    (hσ : σ.valid) (hd : σ.degree = d) : InRange (permuted a σ o) o d := by
  intro e he
  simp only [permuted, List.mem_map] at he
  obtain ⟨x, hx, rfl⟩ := he
  have hx' := ha x hx
  split
  · have := Perm.apply_range hσ (x := x - o) (by omega) (by omega)
    omega
  · omega

/-- The action of a permutation on allocations in range can be undone. -/
theorem permuted_inverse (a : TaskAllocation) (o : Nat) {σ : Perm}
    (hσ : σ.valid) : permuted (permuted a σ o) (Perm.inverse σ) o = a := by
  rw [permuted_permuted a hσ (Perm.degree_inverse σ), Perm.inverse_compose hσ, permuted_identity]

/-! ## The listed example groups are well formed -/

theorem closureUpTo_generated (gens : List Perm) (d n : Nat) :
    ∀ σ ∈ closureUpTo gens d n, Generated d gens σ := by
  induction n with
  | zero =>
    intro σ hσ
    simp only [closureUpTo, List.mem_singleton] at hσ
    subst hσ
    exact Generated.one
  | succ n ih =>
    intro σ hσ
    simp only [closureUpTo, List.mem_append, List.mem_flatMap, List.mem_map] at hσ
    rcases hσ with h | ⟨g, hg, τ, hτ, rfl⟩
    · exact ih σ h
    · exact Generated.mul (Generated.gen hg) (ih τ hτ)

theorem PermGroup.wf_of_check {G : PermGroup} {n : Nat} (h : G.check n = true) : G.wf := by
  simp only [PermGroup.check, Bool.and_eq_true, List.all_eq_true, decide_eq_true_eq] at h
  obtain ⟨⟨⟨⟨⟨hgens, hcl⟩, hone⟩, hsub⟩, hmul⟩, hinv⟩ := h
  refine ⟨hgens, fun σ => ⟨fun hσ => closureUpTo_generated _ _ n σ (hcl σ hσ), fun hσ => ?_⟩⟩
  induction hσ with
  | one => exact hone
  | gen hg => exact hsub _ hg
  | mul _ _ iha ihb => exact hmul _ iha _ ihb
  | inv _ ih => exact hinv _ ih

theorem PermGroup.wf.valid {G : PermGroup} (hG : G.wf) {σ : Perm}
    (h : Generated G.degree G.generators σ) : σ.valid ∧ σ.degree = G.degree :=
  Generated.valid_degree hG.1 h

/-! ## `min_elem_iterate` without a registry -/

theorem min_elem_iterate_loop_spec (tasks : TaskAllocation) (o : Nat) (orbits : Option TMORs)
    (es : List Perm) :
    ∀ repr : TaskAllocation,
      (min_elem_iterate_loop tasks o orbits es repr = repr ∨
        ∃ τ ∈ es, min_elem_iterate_loop tasks o orbits es repr = permuted tasks τ o) ∧
      (((∃ τ ∈ es, min_elem_iterate_loop tasks o orbits es repr = permuted tasks τ o) ∧
          is_representative (min_elem_iterate_loop tasks o orbits es repr) orbits = true) ∨
        (lexLt repr (min_elem_iterate_loop tasks o orbits es repr) = false ∧
          ∀ σ ∈ es,
            lexLt (permuted tasks σ o) (min_elem_iterate_loop tasks o orbits es repr) = false)) := by
  induction es with
  | nil =>
    intro repr
    simp [min_elem_iterate_loop, lexLt_irrefl]
  | cons e es ih =>
    intro repr
    simp only [min_elem_iterate_loop, less_than]
    by_cases hlt : lexLt (permuted tasks e o) repr = true
    · simp only [hlt, if_true]
      by_cases hrep : is_representative (permuted tasks e o) orbits = true
      · simp only [hrep, if_true]
        exact ⟨Or.inr ⟨e, List.mem_cons_self _ _, rfl⟩,
          Or.inl ⟨⟨e, List.mem_cons_self _ _, rfl⟩, trivial⟩⟩
      · simp only [hrep, Bool.false_eq_true, if_false]
        obtain ⟨h1, h2⟩ := ih (permuted tasks e o)
        have h1' : ∃ τ ∈ e :: es,
            min_elem_iterate_loop tasks o orbits es (permuted tasks e o) = permuted tasks τ o := by
          rcases h1 with h | ⟨τ, hτ, h⟩
          · exact ⟨e, List.mem_cons_self _ _, h⟩
          · exact ⟨τ, List.mem_cons_of_mem _ hτ, h⟩
        refine ⟨Or.inr h1', ?_⟩
        rcases h2 with ⟨_, h⟩ | ⟨h2, h3⟩
        · exact Or.inl ⟨h1', h⟩
        · refine Or.inr ⟨lexLt_asymm (lexLt_of_le_of_lt h2 hlt), ?_⟩
          intro σ hσ
          rcases List.mem_cons.1 hσ with rfl | hσ
          · exact h2
          · exact h3 σ hσ
    · simp only [hlt, Bool.false_eq_true, if_false]
      obtain ⟨h1, h2⟩ := ih repr
      constructor
      · rcases h1 with h | ⟨τ, hτ, h⟩
        · exact Or.inl h
        · exact Or.inr ⟨τ, List.mem_cons_of_mem _ hτ, h⟩
      · rcases h2 with ⟨⟨τ, hτ, h⟩, h'⟩ | ⟨h2, h3⟩
        · exact Or.inl ⟨⟨τ, List.mem_cons_of_mem _ hτ, h⟩, h'⟩
        · refine Or.inr ⟨h2, ?_⟩
          intro σ hσ
          rcases List.mem_cons.1 hσ with rfl | hσ
          · exact lexLt_le_trans h2 (Bool.eq_false_iff.2 hlt)
          · exact h3 σ hσ

/-- Whatever the registry holds, as long as its members are orbit minima,
`min_elem_iterate` returns the minimum of the orbit. -/
theorem min_elem_iterate_isOrbitMin (G : PermGroup) (a : TaskAllocation) (o : Nat)
    (orbits : Option TMORs) (hG : G.wf) (hreg : RegistryMinimal G a o orbits) :
    IsOrbitMin G a o (min_elem_iterate G a o orbits) := by
  obtain ⟨h1, h2⟩ := min_elem_iterate_loop_spec a o orbits G.elements a
  have hin : InOrbit G a o (min_elem_iterate G a o orbits) := by
    rcases h1 with h | ⟨τ, hτ, h⟩
    · exact ⟨Perm.identity G.degree, Generated.one, by rw [permuted_identity]; exact h⟩
    · exact ⟨τ, (hG.2 τ).1 hτ, h⟩
  rcases h2 with ⟨_, h⟩ | ⟨_, h3⟩
  · exact hreg _ h hin
  · exact ⟨hin, fun σ hσ => h3 σ ((hG.2 σ).2 hσ)⟩

theorem registryMinimal_none (G : PermGroup) (a : TaskAllocation) (o : Nat) :
    RegistryMinimal G a o none := by
  intro x hx
  simp [is_representative] at hx

/-- Two minima of the same orbit are equal. -/
theorem IsOrbitMin.unique {G : PermGroup} {a : TaskAllocation} {o : Nat} {r s : TaskAllocation}
    (hr : IsOrbitMin G a o r) (hs : IsOrbitMin G a o s) : r = s := by
  obtain ⟨⟨τ, hτ, rfl⟩, hr2⟩ := hr
  obtain ⟨⟨ρ, hρ, rfl⟩, hs2⟩ := hs
  exact lexLt_antisymm (hs2 τ hτ) (hr2 ρ hρ)

/-! ## `min_elem_orbits` -/

theorem min_elem_orbits_gens_inr (c : TaskAllocation) (o : Nat) (orbits : Option TMORs)
    (P : List TaskAllocation) :
    ∀ (gs : List Perm) (Q Q' : List TaskAllocation),
      min_elem_orbits_gens c o orbits P gs Q = Sum.inr Q' →
      Q' = Q ++ (gs.map (fun g => permuted c g o)).filter (fun x => decide (x ∉ P)) := by
  intro gs
  induction gs with
  | nil =>
    intro Q Q' h
    simp only [min_elem_orbits_gens, Sum.inr.injEq] at h
    simp [h]
  | cons g gs ih =>
    intro Q Q' h
    simp only [min_elem_orbits_gens] at h
    split_ifs at h with h1 h2
    · rw [ih _ _ h]
      simp [List.filter_cons, h2]
    · rw [ih _ _ h]
      simp [List.filter_cons, h2]

theorem min_elem_orbits_gens_inl (c : TaskAllocation) (o : Nat) (orbits : Option TMORs)
    (P : List TaskAllocation) :
    ∀ (gs : List Perm) (Q : List TaskAllocation) (next : TaskAllocation),
      min_elem_orbits_gens c o orbits P gs Q = Sum.inl next →
      ∃ g ∈ gs, next = permuted c g o ∧ is_representative next orbits = true := by
  intro gs
  induction gs with
  | nil =>
    intro Q next h
    simp [min_elem_orbits_gens] at h
  | cons g gs ih =>
    intro Q next h
    simp only [min_elem_orbits_gens] at h
    split_ifs at h with h1 h2
    · simp only [Sum.inl.injEq] at h
      subst h
      exact ⟨g, List.mem_cons_self _ _, rfl, h1⟩
    · obtain ⟨g', hg', h'⟩ := ih _ _ h
      exact ⟨g', List.mem_cons_of_mem _ hg', h'⟩
    · obtain ⟨g', hg', h'⟩ := ih _ _ h
      exact ⟨g', List.mem_cons_of_mem _ hg', h'⟩

/-- A map of a finite set into itself that is injective there is onto it. -/
theorem list_surj_of_inj {α : Type} [DecidableEq α] (P : List α) (f : α → α)
    (hmaps : ∀ x ∈ P, f x ∈ P) (hinj : ∀ x ∈ P, ∀ y ∈ P, f x = f y → x = y) :
    ∀ y ∈ P, ∃ x ∈ P, f x = y := by
  have himg : P.toFinset.image f = P.toFinset := by
    apply Finset.eq_of_subset_of_card_le
    · intro y hy
      simp only [Finset.mem_image, List.mem_toFinset] at hy ⊢
      obtain ⟨x, hx, rfl⟩ := hy
      exact hmaps x hx
    · rw [Finset.card_image_of_injOn]
      intro x hx y hy h
      simp only [List.coe_toFinset, Set.mem_setOf_eq] at hx hy
      exact hinj x hx y hy h
  intro y hy
  have : y ∈ P.toFinset.image f := by rw [himg]; simpa using hy
  simpa using this

theorem permuted_injective {σ : Perm} (hσ : σ.valid) (o : Nat) {x y : TaskAllocation}
    (h : permuted x σ o = permuted y σ o) : x = y := by
  rw [← permuted_inverse x o hσ, ← permuted_inverse y o hσ, h]

/-- A set of allocations closed under the generators is closed under every
element of the group they generate. -/
theorem closed_under_generated {G : PermGroup} (hG : G.wf) (o : Nat) (P : List TaskAllocation)
    (hcl : ∀ x ∈ P, ∀ g ∈ G.generators, permuted x g o ∈ P) {σ : Perm}
    (hσ : Generated G.degree G.generators σ) : ∀ x ∈ P, permuted x σ o ∈ P := by
  induction hσ with
  | one => intro x hx; rw [permuted_identity]; exact hx
  | gen hg => intro x hx; exact hcl x hx _ hg
  | @mul a b ha hb iha ihb =>
    intro x hx
    have hva := Generated.valid_degree hG.1 ha
    have hvb := Generated.valid_degree hG.1 hb
    rw [← permuted_permuted x hvb.1 (by rw [hva.2, hvb.2])]
    exact iha _ (ihb x hx)
  | @inv a ha ih =>
    intro y hy
    have hva := Generated.valid_degree hG.1 ha
    obtain ⟨x, hx, rfl⟩ := list_surj_of_inj P (fun x => permuted x a o) ih
      (fun x _ y _ h => permuted_injective hva.1 o h) y hy
    rw [permuted_inverse x o hva.1]
    exact hx

theorem InOrbit.step {G : PermGroup} (hG : G.wf) {a : TaskAllocation} {o : Nat}
    {x : TaskAllocation} (hx : InOrbit G a o x) {g : Perm} (hg : g ∈ G.generators) :
    InOrbit G a o (permuted x g o) := by
  obtain ⟨τ, hτ, rfl⟩ := hx
  have hvτ := Generated.valid_degree hG.1 hτ
  have hvg := hG.1 g hg
  exact ⟨Perm.compose g τ, Generated.mul (Generated.gen hg) hτ,
    permuted_permuted a hvτ.1 (by rw [hvg.2, hvτ.2]) o⟩

theorem mem_orbitList {G : PermGroup} (hG : G.wf) {a : TaskAllocation} {o : Nat}
    {x : TaskAllocation} : x ∈ orbitList G a o ↔ InOrbit G a o x := by
  simp only [orbitList, List.mem_map, InOrbit]
  constructor
  · rintro ⟨τ, hτ, rfl⟩
    exact ⟨τ, (hG.2 τ).1 hτ, rfl⟩
  · rintro ⟨τ, hτ, rfl⟩
    exact ⟨τ, (hG.2 τ).2 hτ, rfl⟩

/-- When the queue is empty the representative is the minimum of the orbit. -/
theorem OrbitsInv.final {G : PermGroup} (hG : G.wf) {a : TaskAllocation} {o : Nat}
    {P : List TaskAllocation} {r : TaskAllocation} (inv : OrbitsInv G a o [] P r) :
    IsOrbitMin G a o r := by
  refine ⟨inv.inR, fun σ hσ => ?_⟩
  have hcl : ∀ x ∈ P, ∀ g ∈ G.generators, permuted x g o ∈ P := by
    intro x hx g hg
    rcases inv.closed x hx g hg with h | h
    · exact h
    · simp at h
  have ha : a ∈ P := by
    rcases inv.start with h | h
    · exact h
    · simp at h
  exact inv.le _ (closed_under_generated hG o P hcl hσ a ha)

theorem OrbitsInv.next {G : PermGroup} (hG : G.wf) {a : TaskAllocation} {o : Nat}
    {c : TaskAllocation} {rest P : List TaskAllocation} {r : TaskAllocation}
    (inv : OrbitsInv G a o (c :: rest) P r) :
    OrbitsInv G a o
      (rest ++ (G.generators.map (fun g => permuted c g o)).filter
        (fun x => decide (x ∉ List.insert c P)))
      (List.insert c P) (if lexLt c r then c else r) := by
  have hc : InOrbit G a o c := inv.inQ c (List.mem_cons_self _ _)
  constructor
  · intro x hx
    rcases List.mem_append.1 hx with h | h
    · exact inv.inQ x (List.mem_cons_of_mem _ h)
    · obtain ⟨g, hg, rfl⟩ := List.mem_map.1 (List.mem_filter.1 h).1
      exact hc.step hG hg
  · intro x hx
    rcases List.mem_insert_iff.1 hx with rfl | h
    · exact hc
    · exact inv.inP x h
  · split
    · exact hc
    · exact inv.inR
  · intro x hx
    by_cases hlt : lexLt c r = true
    · rw [if_pos hlt]
      rcases List.mem_insert_iff.1 hx with rfl | h
      · exact lexLt_irrefl _
      · cases hxc : lexLt x c with
        | false => rfl
        | true =>
          have := lexLt_trans hxc hlt
          rw [inv.le x h] at this
          exact absurd this (by decide)
    · rw [if_neg hlt]
      rcases List.mem_insert_iff.1 hx with rfl | h
      · exact Bool.eq_false_iff.2 hlt
      · exact inv.le x h
  · intro x hx g hg
    rcases List.mem_insert_iff.1 hx with rfl | h
    · by_cases hm : permuted x g o ∈ List.insert x P
      · exact Or.inl hm
      · right
        apply List.mem_append_right
        apply List.mem_filter.2
        exact ⟨List.mem_map.2 ⟨g, hg, rfl⟩, by simpa using hm⟩
    · rcases inv.closed x h g hg with h' | h'
      · exact Or.inl (List.mem_insert_iff.2 (Or.inr h'))
      · rcases List.mem_cons.1 h' with h'' | h''
        · left; rw [h'']; exact List.mem_insert_self _ _
        · exact Or.inr (List.mem_append_left _ h'')
  · rcases inv.start with h | h
    · exact Or.inl (List.mem_insert_iff.2 (Or.inr h))
    · rcases List.mem_cons.1 h with h' | h'
      · left; rw [h']; exact List.mem_insert_self _ _
      · exact Or.inr (List.mem_append_left _ h')

/-- The `while` loop of `min_elem_orbits` ends, and it ends with the minimum of
the orbit, whenever the known representatives are orbit minima. -/
theorem min_elem_orbits_loop_spec (G : PermGroup) (a : TaskAllocation) (o : Nat)
    (orbits : Option TMORs) (hG : G.wf) (hreg : RegistryMinimal G a o orbits) :
    ∀ (u D : Nat) (Q P : List TaskAllocation) (r : TaskAllocation),
      OrbitsInv G a o Q P r →
      ((orbitList G a o).toFinset \ P.toFinset).card = u →
      (Q.filter (fun x => decide (x ∈ P))).length = D →
      ∃ n, ∀ fuel, n ≤ fuel → ∃ res,
        min_elem_orbits_loop G.generators o orbits fuel Q P r = some res ∧
        IsOrbitMin G a o res := by
  intro u
  induction u using Nat.strong_induction_on with
  | _ u ihu =>
    intro D
    induction D using Nat.strong_induction_on with
    | _ D ihD =>
      intro Q P r inv hu hD
      cases Q with
      | nil =>
        refine ⟨0, fun fuel _ => ⟨r, ?_, inv.final hG⟩⟩
        cases fuel <;> rfl
      | cons c rest =>
        have hc : InOrbit G a o c := inv.inQ c (List.mem_cons_self _ _)
        cases hgens : min_elem_orbits_gens c o orbits (List.insert c P) G.generators rest with
        | inl next =>
          refine ⟨1, fun fuel hf => ⟨next, ?_, ?_⟩⟩
          · obtain ⟨f, rfl⟩ : ∃ f, fuel = f + 1 := ⟨fuel - 1, by omega⟩
            simp only [min_elem_orbits_loop, hgens]
          · obtain ⟨g, hg, rfl, hrep⟩ := min_elem_orbits_gens_inl _ _ _ _ _ _ _ hgens
            exact hreg _ hrep (hc.step hG hg)
        | inr Q' =>
          have hQ' := min_elem_orbits_gens_inr _ _ _ _ _ _ _ hgens
          have inv' := inv.next hG
          rw [← hQ'] at inv'
          have hrec : ∃ n, ∀ fuel, n ≤ fuel → ∃ res,
              min_elem_orbits_loop G.generators o orbits fuel Q' (List.insert c P)
                (if lexLt c r then c else r) = some res ∧ IsOrbitMin G a o res := by
            by_cases hcP : c ∈ P
            · have hins : List.insert c P = P := List.insert_of_mem hcP
              rw [hins] at inv' hQ' ⊢
              refine ihD ((Q'.filter (fun x => decide (x ∈ P))).length) ?_ Q' P _ inv' hu rfl
              rw [← hD, hQ']
              simp only [List.filter_append, List.filter_filter, List.length_append,
                List.filter_cons, hcP, decide_True, if_true, List.length_cons]
              have : (List.filter (fun a_1 => decide (a_1 ∈ P) && decide (a_1 ∉ P))
                  (List.map (fun g => permuted c g o) G.generators)) = [] := by
                apply List.filter_eq_nil_iff.2
                intro x _
                simp
              rw [this]
              simp
            · refine ihu _ ?_ _ Q' (List.insert c P) _ inv' rfl rfl
              rw [← hu]
              apply Finset.card_lt_card
              rw [Finset.ssubset_iff_of_subset]
              · refine ⟨c, ?_, ?_⟩
                · simp only [Finset.mem_sdiff, List.mem_toFinset]
                  exact ⟨(mem_orbitList hG).2 hc, hcP⟩
                · simp
              · intro x hx
                simp only [Finset.mem_sdiff, List.mem_toFinset, List.mem_insert_iff] at hx ⊢
                exact ⟨hx.1, fun h => hx.2 (Or.inr h)⟩
          obtain ⟨n, hn⟩ := hrec
          refine ⟨n + 1, fun fuel hf => ?_⟩
          obtain ⟨f, rfl⟩ : ∃ f, fuel = f + 1 := ⟨fuel - 1, by omega⟩
          simp only [min_elem_orbits_loop, hgens]
          exact hn f (by omega)

/-- `min_elem_orbits` returns, given enough passes, the minimum of the orbit
whenever the known representatives are orbit minima. -/
theorem min_elem_orbits_isOrbitMin (G : PermGroup) (a : TaskAllocation) (o : Nat)
    (orbits : Option TMORs) (hG : G.wf) (hreg : RegistryMinimal G a o orbits) :
    ∃ n, ∀ fuel, n ≤ fuel → ∃ res,
      min_elem_orbits G fuel a o orbits = some res ∧ IsOrbitMin G a o res := by
  have ha : InOrbit G a o a := ⟨Perm.identity G.degree, Generated.one, by rw [permuted_identity]⟩
  refine min_elem_orbits_loop_spec G a o orbits hG hreg _ _ [a] [] a ?_ rfl rfl
  constructor
  · intro x hx
    rw [List.mem_singleton.1 hx]; exact ha
  · intro x hx; simp at hx
  · exact ha
  · intro x hx; simp at hx
  · intro x hx; simp at hx
  · exact Or.inr (List.mem_singleton_self a)

/-! ## Orbits and their minima -/

theorem InOrbit.refl (G : PermGroup) (a : TaskAllocation) (o : Nat) : InOrbit G a o a :=
  ⟨Perm.identity G.degree, Generated.one, by rw [permuted_identity]⟩

theorem InOrbit.trans {G : PermGroup} (hG : G.wf) {a x y : TaskAllocation} {o : Nat}
    (h1 : InOrbit G a o x) (h2 : InOrbit G x o y) : InOrbit G a o y := by
  obtain ⟨σ, hσ, rfl⟩ := h1
  obtain ⟨τ, hτ, rfl⟩ := h2
  have hvσ := Generated.valid_degree hG.1 hσ
  have hvτ := Generated.valid_degree hG.1 hτ
  exact ⟨Perm.compose τ σ, Generated.mul hτ hσ,
    permuted_permuted a hvσ.1 (by rw [hvσ.2, hvτ.2]) o⟩

theorem InOrbit.symm {G : PermGroup} (hG : G.wf) {a x : TaskAllocation} {o : Nat}
    (h : InOrbit G a o x) : InOrbit G x o a := by
  obtain ⟨σ, hσ, rfl⟩ := h
  have hvσ := Generated.valid_degree hG.1 hσ
  exact ⟨Perm.inverse σ, Generated.inv hσ, (permuted_inverse a o hvσ.1).symm⟩

/-- Allocations of one orbit have the same orbit minimum. -/
theorem IsOrbitMin.congr {G : PermGroup} (hG : G.wf) {a x r : TaskAllocation} {o : Nat}
    (hx : InOrbit G a o x) (hr : IsOrbitMin G a o r) : IsOrbitMin G x o r := by
  refine ⟨(hx.symm hG).trans hG hr.1, fun σ hσ => ?_⟩
  obtain ⟨τ, hτ, h⟩ := hx.trans hG ⟨σ, hσ, rfl⟩
  rw [h]
  exact hr.2 τ hτ

theorem RegistryOK.minimal {G : PermGroup} (hG : G.wf) {o : Nat} {R : TMORs}
    (hR : RegistryOK G o R) (a : TaskAllocation) : RegistryMinimal G a o (some R) := by
  intro x hx hin
  exact (hR x hx).congr hG (hin.symm hG)

/-- With known representatives that are orbit minima, `min_elem_iterate`
returns what it returns without a registry. -/
theorem min_elem_iterate_registry (G : PermGroup) (a : TaskAllocation) (o : Nat)
    (orbits : Option TMORs) (hG : G.wf) (hreg : RegistryMinimal G a o orbits) :
    min_elem_iterate G a o orbits = min_elem_iterate G a o none :=
  (min_elem_iterate_isOrbitMin G a o orbits hG hreg).unique
    (min_elem_iterate_isOrbitMin G a o none hG (registryMinimal_none G a o))

/-- With known representatives that are orbit minima, `min_elem_orbits`
returns, given enough passes, what `min_elem_iterate` returns. -/
theorem min_elem_orbits_registry (G : PermGroup) (a : TaskAllocation) (o : Nat)
    (orbits : Option TMORs) (hG : G.wf) (hreg : RegistryMinimal G a o orbits) :
    ∃ n, ∀ fuel, n ≤ fuel →
      min_elem_orbits G fuel a o orbits = some (min_elem_iterate G a o none) := by
  obtain ⟨n, hn⟩ := min_elem_orbits_isOrbitMin G a o orbits hG hreg
  refine ⟨n, fun fuel hf => ?_⟩
  obtain ⟨res, h1, h2⟩ := hn fuel hf
  rw [h1, h2.unique (min_elem_iterate_isOrbitMin G a o none hG (registryMinimal_none G a o))]

/-- The representative of `σ·a` is the representative of `a`. -/
theorem min_elem_iterate_permuted (G : PermGroup) (a : TaskAllocation) (o : Nat) (hG : G.wf)
    {σ : Perm} (hσ : Generated G.degree G.generators σ) :
    min_elem_iterate G (permuted a σ o) o none = min_elem_iterate G a o none :=
  (min_elem_iterate_isOrbitMin G _ o none hG (registryMinimal_none G _ o)).unique
    ((min_elem_iterate_isOrbitMin G a o none hG (registryMinimal_none G a o)).congr hG
      ⟨σ, hσ, rfl⟩)

/-- The representative is its own representative. -/
theorem min_elem_iterate_idem (G : PermGroup) (a : TaskAllocation) (o : Nat) (hG : G.wf) :
    min_elem_iterate G (min_elem_iterate G a o none) o none = min_elem_iterate G a o none := by
  obtain ⟨⟨τ, hτ, h⟩, _⟩ := min_elem_iterate_isOrbitMin G a o none hG (registryMinimal_none G a o)
  conv_lhs => rw [h]
  exact min_elem_iterate_permuted G a o hG hτ

/-! ## The registry -/

theorem TMORs.is_repr_insert (R : TMORs) (m x : TaskAllocation) :
    (R.insert m).2.is_repr x = true ↔ R.is_repr x = true ∨ x = m := by
  unfold TMORs.insert
  cases h : R.orbit_reprs.lookup m with
  | some i =>
    simp only [TMORs.is_repr]
    constructor
    · exact Or.inl
    · rintro (h' | rfl)
      · exact h'
      · rw [h]; rfl
  | none =>
    simp only [TMORs.is_repr, List.lookup_append, Option.isSome_or, Bool.or_eq_true,
      List.lookup_isSome_iff, List.mem_singleton, exists_eq_left, beq_iff_eq]

theorem RegistryOK.empty (G : PermGroup) (o : Nat) : RegistryOK G o TMORs.empty := by
  intro x hx
  simp [TMORs.is_repr, TMORs.empty] at hx

theorem RegistryOK.insert {G : PermGroup} (hG : G.wf) {o : Nat} {R : TMORs}
    (hR : RegistryOK G o R) {a r : TaskAllocation} (hr : IsOrbitMin G a o r) :
    RegistryOK G o (R.insert r).2 := by
  intro x hx
  rcases (TMORs.is_repr_insert R r x).1 hx with h | rfl
  · exact hR x h
  · exact hr.congr hG hr.1

/-- A registry of orbit minima holds at most one allocation per orbit. -/
theorem RegistryOK.one_per_orbit {G : PermGroup} (hG : G.wf) {o : Nat} {R : TMORs}
    (hR : RegistryOK G o R) {x y : TaskAllocation} (hx : R.is_repr x = true)
    (hy : R.is_repr y = true) (h : InOrbit G x o y) : x = y :=
  (hR x hx).unique ((hR y hy).congr hG (h.symm hG))

/-! ## Sequences of `mapping` calls on one registry -/

theorem mapping_registry (G : PermGroup) (a : TaskAllocation) (o : Nat) (m : MappingMethod)
    (R : TMORs) (hG : G.wf) (hR : RegistryOK G o R) (hm : m ≠ MappingMethod.LOCAL_SEARCH) :
    ∃ n, ∀ fuel, n ≤ fuel →
      mapping G fuel a o m (some R) =
        some (min_elem_iterate G a o none, some (R.insert (min_elem_iterate G a o none)).2) := by
  cases m with
  | ITERATE =>
    refine ⟨0, fun fuel _ => ?_⟩
    simp only [mapping, Option.map_some', Option.some.injEq,
      min_elem_iterate_registry G a o (some R) hG (hR.minimal hG a)]
  | LOCAL_SEARCH => exact absurd rfl hm
  | ORBITS =>
    obtain ⟨n, hn⟩ := min_elem_orbits_registry G a o (some R) hG (hR.minimal hG a)
    refine ⟨n, fun fuel hf => ?_⟩
    simp only [mapping, hn fuel hf, Option.map_some']

theorem mapping_seq_spec (G : PermGroup) (o : Nat) (hG : G.wf) :
    ∀ (seq : List (TaskAllocation × MappingMethod)) (R : TMORs), RegistryOK G o R →
      (∀ p ∈ seq, p.2 ≠ MappingMethod.LOCAL_SEARCH) →
      ∃ n, ∀ fuel, n ≤ fuel → ∃ out,
        mapping_seq G fuel o seq R = some out ∧
        out.map Prod.fst = seq.map (fun p => min_elem_iterate G p.1 o none) ∧
        ∀ p ∈ out, RegistryOK G o p.2 := by
  intro seq
  induction seq with
  | nil =>
    intro R _ _
    exact ⟨0, fun fuel _ => ⟨[], rfl, rfl, by simp⟩⟩
  | cons p seq ih =>
    intro R hR hm
    obtain ⟨a, m⟩ := p
    obtain ⟨n1, hn1⟩ := mapping_registry G a o m R hG hR (hm _ (List.mem_cons_self _ _))
    have hR' : RegistryOK G o (R.insert (min_elem_iterate G a o none)).2 :=
      hR.insert hG (min_elem_iterate_isOrbitMin G a o none hG (registryMinimal_none G a o))
    obtain ⟨n2, hn2⟩ := ih _ hR' (fun q hq => hm q (List.mem_cons_of_mem _ hq))
    refine ⟨max n1 n2, fun fuel hf => ?_⟩
    obtain ⟨out, h1, h2, h3⟩ := hn2 fuel (le_trans (le_max_right _ _) hf)
    refine ⟨(min_elem_iterate G a o none, (R.insert (min_elem_iterate G a o none)).2) :: out,
      ?_, ?_, ?_⟩
    · simp only [mapping_seq, hn1 fuel (le_trans (le_max_left _ _) hf), h1, Option.map_some']
    · simp only [List.map_cons, h2]
    · intro q hq
      rcases List.mem_cons.1 hq with rfl | hq
      · exact hR'
      · exact h3 q hq

theorem zip_of_map_eq {α β γ : Type} (f : β → γ) (g : α → γ) :
    ∀ (xs : List α) (ys : List β), ys.map f = xs.map g →
      ∀ p ∈ xs.zip ys, f p.2 = g p.1 := by
  intro xs
  induction xs with
  | nil => intro ys _ p hp; simp at hp
  | cons x xs ih =>
    intro ys h p hp
    cases ys with
    | nil => simp at hp
    | cons y ys =>
      simp only [List.map_cons, List.cons.injEq] at h
      simp only [List.zip_cons_cons, List.mem_cons] at hp
      rcases hp with rfl | hp
      · exact h.1
      · exact ih ys h.2 p hp

/-! ## Schreier structures: what is stored is what `transversal` returns -/

theorem lookup_of_mem_keys {β : Type} (l : List (Nat × β)) (p : Nat)
    (h : p ∈ l.map Prod.fst) : ∃ t, l.lookup p = some t ∧ (p, t) ∈ l := by
  induction l with
  | nil => simp at h
  | cons e l ih =>
    obtain ⟨k, v⟩ := e
    by_cases hk : p = k
    · subst hk
      exact ⟨v, by simp [List.lookup_cons], List.mem_cons_self _ _⟩
    · have hp : p ∈ l.map Prod.fst := by
        simp only [List.map_cons, List.mem_cons] at h
        rcases h with h | h
        · exact absurd h hk
        · exact h
      obtain ⟨t, h1, h2⟩ := ih hp
      refine ⟨t, ?_, List.mem_cons_of_mem _ h2⟩
      rw [List.lookup_cons]
      have : (p == k) = false := by simpa using hk
      rw [this]
      exact h1

theorem lookup_eq_none_of_not_mem_keys {β : Type} (l : List (Nat × β)) (p : Nat)
    (h : p ∉ l.map Prod.fst) : l.lookup p = none := by
  rw [List.lookup_eq_none_iff]
  intro e he
  have : e.1 ∈ l.map Prod.fst := List.mem_map.2 ⟨e, he, rfl⟩
  simp only [bne_iff_ne, ne_eq]
  intro hpe
  exact h (hpe ▸ this)

theorem lookup_mem {β : Type} (l : List (Nat × β)) (p : Nat) (t : β)
    (h : l.lookup p = some t) : (p, t) ∈ l := by
  obtain ⟨l1, l2, rfl, _⟩ := List.lookup_eq_some_iff.1 h
  simp

theorem Generated.degree_eq {d : Nat} {L : PermSet} (hL : ∀ l ∈ L, l.valid ∧ l.degree = d)
    {t : Perm} (h : Generated d L t) : t.degree = d :=
  (Generated.valid_degree hL h).2

theorem TreePath.walk {r d : Nat} {L : PermSet} (hL : ∀ l ∈ L, l.valid ∧ l.degree = d)
    {edges : List (Nat × Nat × Nat)} {p : Nat} {t : Perm} {n : Nat}
    (h : TreePath r d L edges p t n) :
    Generated d L t ∧ ∀ fuel, n ≤ fuel → ∀ acc : Perm, acc.degree = d →
      SchreierStructure.walk r d L edges fuel p acc = Perm.compose acc t := by
  induction h with
  | root =>
    refine ⟨Generated.one, fun fuel _ acc hacc => ?_⟩
    have : Perm.compose acc (Perm.identity d) = acc := by
      rw [← hacc]; exact Perm.compose_identity acc
    rw [this]
    cases fuel with
    | zero => rfl
    | succ f => simp [SchreierStructure.walk]
  | @step q origin label n t l _ hq hlook hl ih =>
    have hlmem : l ∈ L := List.get?_mem hl
    have hld := (hL l hlmem).2
    refine ⟨Generated.mul (Generated.gen hlmem) ih.1, fun fuel hf acc hacc => ?_⟩
    obtain ⟨f, rfl⟩ : ∃ f, fuel = f + 1 := ⟨fuel - 1, by omega⟩
    have hget : L.getD label (Perm.identity d) = l := by
      rw [List.getD_eq_getElem?_getD, ← List.get?_eq_getElem?, hl]; rfl
    simp only [SchreierStructure.walk, if_neg hq, hlook, hget]
    rw [ih.2 f (by omega) _ (by rw [Perm.degree_compose, hld]),
      Perm.compose_assoc _ _ _ (by rw [hacc, hld])]

theorem TreePath.append {r d : Nat} {L : PermSet} {edges : List (Nat × Nat × Nat)}
    (e : Nat × Nat × Nat) {p : Nat} {t : Perm} {n : Nat} (h : TreePath r d L edges p t n) :
    TreePath r d L (edges ++ [e]) p t n := by
  induction h with
  | root => exact TreePath.root
  | step _ hq hlook hl ih =>
    refine TreePath.step ih hq ?_ hl
    rw [List.lookup_append, hlook]
    rfl

/-- For a node of a structure that satisfies the invariant, `transversal`
returns a product of labels that carries the root to the node. -/
theorem SchreierStructure.Inv.transversal {r d : Nat} {L : PermSet}
    (hL : ∀ l ∈ L, l.valid ∧ l.degree = d) {ss : SchreierStructure} (inv : ss.Inv r d L)
    {p : Nat} (hp : p ∈ ss.nodes) : IsTransversal r d L p (ss.transversal p) := by
  obtain ⟨hr, hd, hl, hn⟩ := inv
  obtain ⟨t, hst, ht⟩ := hn p hp
  cases ss with
  | explicit r' d' L' orbit =>
    simp only [SchreierStructure.Stored] at hst
    simp only [SchreierStructure.transversal, hst, Option.getD_some]
    exact ht
  | tree r' d' L' edges =>
    simp only [SchreierStructure.root, SchreierStructure.degree,
      SchreierStructure.labels] at hr hd hl
    subst hr hd hl
    obtain ⟨n, hn1, hn2⟩ := hst
    have hw := (TreePath.walk hL hn2).2 edges.length hn1 (Perm.identity d')
      (Perm.degree_identity d')
    simp only [SchreierStructure.transversal, hw, Perm.identity_compose]
    exact ht

theorem SchreierStructure.Inv.init (r d : Nat) (L : PermSet)
    (out : SchreierStructure) (hd : out.degree = d) :
    ((out.create_root r).create_labels L).Inv r d L ∧
      ((out.create_root r).create_labels L).nodes = [r] := by
  cases out with
  | explicit r' d' L' orbit =>
    simp only [SchreierStructure.degree] at hd
    subst hd
    refine ⟨⟨rfl, rfl, rfl, ?_⟩, rfl⟩
    intro p hp
    simp only [SchreierStructure.create_root, SchreierStructure.create_labels,
      SchreierStructure.nodes, List.map_cons, List.map_nil, List.mem_singleton] at hp
    subst hp
    refine ⟨Perm.identity d', ?_, Generated.one, Perm.apply_identity _ _⟩
    simp [SchreierStructure.create_root, SchreierStructure.create_labels,
      SchreierStructure.Stored, List.lookup_cons]
  | tree r' d' L' edges =>
    simp only [SchreierStructure.degree] at hd
    subst hd
    refine ⟨⟨rfl, rfl, rfl, ?_⟩, rfl⟩
    intro p hp
    simp only [SchreierStructure.create_root, SchreierStructure.create_labels,
      SchreierStructure.nodes, List.map_nil, List.mem_singleton] at hp
    subst hp
    exact ⟨Perm.identity d', ⟨0, Nat.zero_le _, TreePath.root⟩, Generated.one,
      Perm.apply_identity _ _⟩

/-- Recording the edge from a node `p` to a new point `q = ℓ(p)` keeps the
invariant and adds `q` at the end of the nodes. -/
theorem SchreierStructure.Inv.create_edge {r d : Nat} {L : PermSet}
    (hL : ∀ l ∈ L, l.valid ∧ l.degree = d) {ss : SchreierStructure} (inv : ss.Inv r d L)
    {p q i : Nat} {l : Perm} (hp : p ∈ ss.nodes) (hq : q ∉ ss.nodes) (hi : L.get? i = some l)
    (hr : r ∈ ss.nodes) (hql : q = l.apply p) :
    (ss.create_edge p q i).Inv r d L ∧ (ss.create_edge p q i).nodes = ss.nodes ++ [q] := by
  have htr := inv.transversal hL hp
  obtain ⟨hr', hd, hl, hn⟩ := inv
  have hlmem : l ∈ L := List.get?_mem hi
  have hld := (hL l hlmem).2
  have hget : L.getD i (Perm.identity d) = l := by
    rw [List.getD_eq_getElem?_getD, ← List.get?_eq_getElem?, hi]; rfl
  have hnew : IsTransversal r d L q (Perm.compose l (ss.transversal p)) := by
    refine ⟨Generated.mul (Generated.gen hlmem) htr.1, ?_⟩
    rw [Perm.compose_apply _ _ (by rw [hld, Generated.degree_eq hL htr.1]), htr.2, hql]
  cases ss with
  | explicit r' d' L' orbit =>
    simp only [SchreierStructure.root, SchreierStructure.degree,
      SchreierStructure.labels] at hr' hd hl
    subst hr' hd hl
    simp only [SchreierStructure.nodes] at hq hp hr
    refine ⟨⟨rfl, rfl, rfl, ?_⟩, by simp [SchreierStructure.create_edge,
      SchreierStructure.nodes]⟩
    intro x hx
    simp only [SchreierStructure.create_edge, SchreierStructure.nodes, List.map_append,
      List.map_cons, List.map_nil, List.mem_append, List.mem_singleton] at hx
    rcases hx with hx | rfl
    · obtain ⟨t, hst, ht⟩ := hn x hx
      refine ⟨t, ?_, ht⟩
      simp only [SchreierStructure.Stored] at hst
      simp only [SchreierStructure.create_edge, SchreierStructure.Stored, List.lookup_append,
        hst]
      rfl
    · refine ⟨_, ?_, hnew⟩
      simp only [SchreierStructure.create_edge, SchreierStructure.Stored, List.lookup_append,
        lookup_eq_none_of_not_mem_keys orbit x hq, hget]
      simp [List.lookup_cons]
  | tree r' d' L' edges =>
    simp only [SchreierStructure.root, SchreierStructure.degree,
      SchreierStructure.labels] at hr' hd hl
    subst hr' hd hl
    simp only [SchreierStructure.nodes] at hq hp hr
    refine ⟨⟨rfl, rfl, rfl, ?_⟩, by simp [SchreierStructure.create_edge,
      SchreierStructure.nodes]⟩
    have hpath : ∀ x ∈ r' :: edges.map Prod.fst, ∃ t n, n ≤ edges.length ∧
        TreePath r' d' L' (edges ++ [(q, p, i)]) x t n ∧ IsTransversal r' d' L' x t ∧
        (SchreierStructure.tree r' d' L' edges).transversal x = t := by
      intro x hx
      obtain ⟨t, ⟨n, hn1, hn2⟩, ht⟩ := hn x hx
      refine ⟨t, n, hn1, hn2.append _, ht, ?_⟩
      have hw := (TreePath.walk hL hn2).2 edges.length hn1 (Perm.identity d')
        (Perm.degree_identity d')
      simp only [SchreierStructure.transversal, hw, Perm.identity_compose]
    intro x hx
    simp only [SchreierStructure.create_edge, SchreierStructure.nodes, List.map_append,
      List.map_cons, List.map_nil, List.mem_cons, List.mem_append, List.mem_singleton] at hx
    have hx' : x ∈ r' :: edges.map Prod.fst ∨ x = q := by
      rcases hx with hx | hx | hx
      · exact Or.inl (hx ▸ List.mem_cons_self _ _)
      · exact Or.inl (List.mem_cons_of_mem _ hx)
      · rcases hx with hx | hx
        · exact Or.inr hx
        · simp at hx
    rcases hx' with hx' | rfl
    · obtain ⟨t, n, hn1, hn2, ht, _⟩ := hpath x hx'
      exact ⟨t, ⟨n, by simp only [List.length_append, List.length_singleton]; omega, hn2⟩, ht⟩
    · obtain ⟨t, n, hn1, hn2, _, htp⟩ := hpath p hp
      rw [htp] at hnew
      refine ⟨_, ⟨n + 1, by simp only [List.length_append, List.length_singleton]; omega, ?_⟩,
        hnew⟩
      refine TreePath.step hn2 ?_ ?_ hi
      · intro h; exact hq (h ▸ hr)
      · have hnone : edges.lookup x = none := by
          apply lookup_eq_none_of_not_mem_keys
          intro h; exact hq (List.mem_cons_of_mem _ h)
        rw [List.lookup_append, hnone]
        simp [List.lookup_cons]

/-! ## The orbit engine -/

theorem length_le_of_nodup_range {V : List Nat} {d : Nat} (hn : V.Nodup)
    (hr : ∀ x ∈ V, 1 ≤ x ∧ x ≤ d) : V.length ≤ d := by
  have hsub : V ⊆ List.range' 1 d := by
    intro x hx
    have := hr x hx
    rw [List.mem_range'_1]; omega
  have := (List.subperm_of_subset hn hsub).length_le
  simpa using this

theorem Orbit.expand_spec {r d : Nat} {L : PermSet} (hL : ∀ l ∈ L, l.valid ∧ l.degree = d)
    (p : Nat) :
    ∀ (rest : List Perm) (i : Nat) (V Q : List Nat) (ss : SchreierStructure),
      (∃ pre, L = pre ++ rest ∧ pre.length = i) →
      ss.Inv r d L → ss.nodes = V → p ∈ V → r ∈ V → V.Nodup → (∀ x ∈ V, 1 ≤ x ∧ x ≤ d) →
      ∃ new, (Orbit.expand p rest i V Q ss).1 = V ++ new ∧
        (Orbit.expand p rest i V Q ss).2.1 = Q ++ new ∧
        (Orbit.expand p rest i V Q ss).2.2.Inv r d L ∧
        (Orbit.expand p rest i V Q ss).2.2.nodes = V ++ new ∧
        (V ++ new).Nodup ∧ (∀ x ∈ new, 1 ≤ x ∧ x ≤ d) ∧
        ∀ l ∈ rest, l.apply p ∈ V ++ new := by
  intro rest
  induction rest with
  | nil =>
    intro i V Q ss _ inv hnodes _ _ hnd _
    exact ⟨[], by simp [Orbit.expand], by simp [Orbit.expand], by simpa [Orbit.expand] using inv,
      by simpa [Orbit.expand] using hnodes, by simpa using hnd, by simp, by simp⟩
  | cons l rest ih =>
    intro i V Q ss hpre inv hnodes hp hr hnd hrange
    obtain ⟨pre, hpre1, hpre2⟩ := hpre
    have hpre' : ∃ pre', L = pre' ++ rest ∧ pre'.length = i + 1 :=
      ⟨pre ++ [l], by simp [hpre1], by simp [hpre2]⟩
    have hlmem : l ∈ L := by rw [hpre1]; simp
    have hget : L.get? i = some l := by
      rw [hpre1, ← hpre2, List.get?_eq_getElem?, List.getElem?_append_right (le_refl _)]
      simp
    simp only [Orbit.expand]
    by_cases hq : l.apply p ∈ V
    · simp only [hq, not_true_eq_false, if_false]
      obtain ⟨new, h1, h2, h3, h4, h5, h6, h7⟩ := ih (i + 1) V Q ss hpre' inv hnodes hp hr hnd hrange
      refine ⟨new, h1, h2, h3, h4, h5, h6, ?_⟩
      intro l' hl'
      rcases List.mem_cons.1 hl' with rfl | hl'
      · exact List.mem_append_left _ hq
      · exact h7 l' hl'
    · simp only [hq, not_false_eq_true, if_true]
      have hqr : 1 ≤ l.apply p ∧ l.apply p ≤ d := by
        have hv := hL l hlmem
        have hpr := hrange p hp
        have := Perm.apply_range hv.1 (x := p) hpr.1 (by rw [hv.2]; exact hpr.2)
        rw [hv.2] at this
        exact this
      obtain ⟨inv', hnodes'⟩ := inv.create_edge hL (p := p) (q := l.apply p) (i := i)
        (by rw [hnodes]; exact hp) (by rw [hnodes]; exact hq) hget (by rw [hnodes]; exact hr) rfl
      rw [hnodes] at hnodes'
      have hnd' : (V ++ [l.apply p]).Nodup := by
        rw [List.nodup_append]
        refine ⟨hnd, List.nodup_singleton _, ?_⟩
        intro x hx hx'
        rw [List.mem_singleton] at hx'
        exact hq (hx' ▸ hx)
      have hrange' : ∀ x ∈ V ++ [l.apply p], 1 ≤ x ∧ x ≤ d := by
        intro x hx
        rcases List.mem_append.1 hx with hx | hx
        · exact hrange x hx
        · rw [List.mem_singleton.1 hx]; exact hqr
      obtain ⟨new, h1, h2, h3, h4, h5, h6, h7⟩ := ih (i + 1) (V ++ [l.apply p])
        (Q ++ [l.apply p]) (ss.create_edge p (l.apply p) i) hpre' inv' hnodes'
        (List.mem_append_left _ hp) (List.mem_append_left _ hr) hnd' hrange'
      refine ⟨l.apply p :: new, ?_, ?_, h3, ?_, ?_, ?_, ?_⟩
      · rw [h1]; simp
      · rw [h2]; simp
      · rw [h4]; simp
      · simpa using h5
      · intro x hx
        rcases List.mem_cons.1 hx with rfl | hx
        · exact hqr
        · exact h6 x hx
      · intro l' hl'
        rcases List.mem_cons.1 hl' with rfl | hl'
        · simp
        · have := h7 l' hl'
          simpa using this

theorem Orbit.loop_spec {r d : Nat} {L : PermSet} (hL : ∀ l ∈ L, l.valid ∧ l.degree = d) :
    ∀ (fuel : Nat) (Q V : List Nat) (ss : SchreierStructure),
      ss.Inv r d L → ss.nodes = V → V.Nodup → (∀ x ∈ V, 1 ≤ x ∧ x ≤ d) → r ∈ V →
      Q.Nodup → (∀ x ∈ Q, x ∈ V) → (∀ x ∈ V, x ∉ Q → ∀ l ∈ L, l.apply x ∈ V) →
      Q.length + d ≤ V.length + fuel →
      ∃ ss', Orbit.loop L fuel Q V ss = some ss' ∧ ss'.Inv r d L ∧ ss'.nodes.Nodup ∧
        (∀ x ∈ ss'.nodes, 1 ≤ x ∧ x ≤ d) ∧ r ∈ ss'.nodes ∧
        ∀ x ∈ ss'.nodes, ∀ l ∈ L, l.apply x ∈ ss'.nodes := by
  intro fuel
  induction fuel with
  | zero =>
    intro Q V ss inv hnodes hnd hrange hr _ _ hcl hfuel
    have hlen := length_le_of_nodup_range hnd hrange
    cases Q with
    | nil =>
      refine ⟨ss, rfl, inv, hnodes ▸ hnd, hnodes ▸ hrange, hnodes ▸ hr, ?_⟩
      rw [hnodes]
      exact fun x hx => hcl x hx (by simp)
    | cons p rest => simp only [List.length_cons] at hfuel; omega
  | succ fuel ih =>
    intro Q V ss inv hnodes hnd hrange hr hQnd hQV hcl hfuel
    cases Q with
    | nil =>
      refine ⟨ss, rfl, inv, hnodes ▸ hnd, hnodes ▸ hrange, hnodes ▸ hr, ?_⟩
      rw [hnodes]
      exact fun x hx => hcl x hx (by simp)
    | cons p rest =>
      have hp : p ∈ V := hQV p (List.mem_cons_self _ _)
      obtain ⟨new, h1, h2, h3, h4, h5, h6, h7⟩ := Orbit.expand_spec hL p L 0 V rest ss
        ⟨[], rfl, rfl⟩ inv hnodes hp hr hnd hrange
      simp only [Orbit.loop]
      have hdisj : ∀ x ∈ new, x ∉ V := by
        intro x hx hxV
        exact (List.nodup_append.1 h5).2.2 hxV hx
      have hQnd' := List.nodup_cons.1 hQnd
      obtain ⟨ss', hs1, hs2⟩ := ih (Orbit.expand p L 0 V rest ss).2.1
        (Orbit.expand p L 0 V rest ss).1 (Orbit.expand p L 0 V rest ss).2.2 h3
        (by rw [h4, h1]) (by rw [h1]; exact h5)
        (by
          rw [h1]; intro x hx
          rcases List.mem_append.1 hx with hx | hx
          · exact hrange x hx
          · exact h6 x hx)
        (by rw [h1]; exact List.mem_append_left _ hr)
        (by
          rw [h2, List.nodup_append]
          refine ⟨hQnd'.2, (List.nodup_append.1 h5).2.1, ?_⟩
          intro x hx hx'
          exact hdisj x hx' (hQV x (List.mem_cons_of_mem _ hx)))
        (by
          rw [h1, h2]; intro x hx
          rcases List.mem_append.1 hx with hx | hx
          · exact List.mem_append_left _ (hQV x (List.mem_cons_of_mem _ hx))
          · exact List.mem_append_right _ hx)
        (by
          rw [h1, h2]; intro x hx hxQ l hl
          rcases List.mem_append.1 hx with hx | hx
          · by_cases hxp : x = p
            · subst hxp; exact h7 l hl
            · apply List.mem_append_left
              apply hcl x hx _ l hl
              intro hmem
              rcases List.mem_cons.1 hmem with h | h
              · exact hxp h
              · exact hxQ (List.mem_append_left _ h)
          · exact absurd (List.mem_append_right _ hx) hxQ)
        (by
          rw [h1, h2]
          simp only [List.length_append, List.length_cons] at hfuel ⊢
          omega)
      exact ⟨ss', hs1, hs2⟩

/-- The orbit engine returns a structure for labels that are permutations of
the degree and a root of the domain: its nodes are distinct points of the
domain, hold the root and are closed under the labels, and for every node the
transversal is a product of labels that carries the root to the node. -/
theorem Orbit.generate_spec {r d : Nat} {L : PermSet} (hL : ∀ l ∈ L, l.valid ∧ l.degree = d)
    (hr : 1 ≤ r ∧ r ≤ d) (out : SchreierStructure) (hd : out.degree = d) :
    ∃ ss, Orbit.generate r L out = some ss ∧ ss.root = r ∧ ss.degree = d ∧ ss.labels = L ∧
      ss.nodes.Nodup ∧ (∀ x ∈ ss.nodes, 1 ≤ x ∧ x ≤ d) ∧ r ∈ ss.nodes ∧
      (∀ x ∈ ss.nodes, ∀ l ∈ L, l.apply x ∈ ss.nodes) ∧
      ∀ p ∈ ss.nodes, IsTransversal r d L p (ss.transversal p) := by
  obtain ⟨inv, hnodes⟩ := SchreierStructure.Inv.init r d L out hd
  obtain ⟨ss, h1, h2, h3, h4, h5, h6⟩ := Orbit.loop_spec hL (out.degree + 1) [r] [r]
    ((out.create_root r).create_labels L) inv hnodes (List.nodup_singleton r)
    (by intro x hx; rw [List.mem_singleton.1 hx]; exact hr) (List.mem_singleton_self r)
    (List.nodup_singleton r) (fun x hx => hx)
    (by intro x hx hx'; exact absurd hx hx') (by simp [hd])
  exact ⟨ss, h1, h2.1, h2.2.1, h2.2.2.1, h3, h4, h5, h6, fun p hp => h2.transversal hL hp⟩

/-! ## Transpositions and 3-cycles -/

theorem Perm.ofCycles_apply (d : Nat) (cs : List (List Nat)) {x : Nat} (h1 : 1 ≤ x)
    (h2 : x ≤ d) : (Perm.ofCycles d cs).apply x = cs.foldl (fun y c => cycNext c y) x := by
  cases x with
  | zero => omega
  | succ n =>
    rw [Perm.apply_succ_lt _ (by simp [Perm.ofCycles]; omega)]
    simp only [Perm.ofCycles, List.getElem_map, List.getElem_range', Nat.one_mul]
    rw [Nat.add_comm 1 n]

theorem Perm.degree_ofCycles (d : Nat) (cs : List (List Nat)) :
    (Perm.ofCycles d cs).degree = d := by
  simp [Perm.ofCycles, Perm.degree]

theorem cycNext_two (i d x : Nat) (hid : i ≠ d) :
    cycNext [i, d] x = if x = i then d else if x = d then i else x := by
  unfold cycNext
  by_cases h1 : x = i
  · subst h1; simp [List.indexOf_cons]
  · by_cases h2 : x = d
    · subst h2
      have : (i == x) = false := by simpa using hid
      simp [List.indexOf_cons, h1, this]
    · simp [h1, h2]

theorem cycNext_three (i a b x : Nat) (hia : i ≠ a) (hib : i ≠ b) (hab : a ≠ b) :
    cycNext [i, a, b] x = if x = i then a else if x = a then b else if x = b then i else x := by
  unfold cycNext
  by_cases h1 : x = i
  · subst h1; simp [List.indexOf_cons]
  · by_cases h2 : x = a
    · subst h2
      have : (i == x) = false := by simpa using hia
      simp [List.indexOf_cons, h1, this]
    · by_cases h3 : x = b
      · subst h3
        have e1 : (i == x) = false := by simpa using hib
        have e2 : (a == x) = false := by simpa using hab
        simp [List.indexOf_cons, h1, h2, e1, e2]
      · simp [h1, h2, h3]

/-- The transposition `(i d)` of degree `d`. -/
theorem transposition_apply {d i x : Nat} (_hi : 1 ≤ i) (hid : i < d) (h1 : 1 ≤ x) (h2 : x ≤ d) :
    (Perm.ofCycles d [[i, d]]).apply x = if x = i then d else if x = d then i else x := by
  rw [Perm.ofCycles_apply d _ h1 h2]
  simp only [List.foldl_cons, List.foldl_nil]
  exact cycNext_two i d x (by omega)

/-- The 3-cycle `(i d-1 d)` of degree `d`. -/
theorem threecycle_apply {d i x : Nat} (hi : 1 ≤ i) (hid : i + 1 < d) (h1 : 1 ≤ x)
    (h2 : x ≤ d) :
    (Perm.ofCycles d [[i, d - 1, d]]).apply x =
      if x = i then d - 1 else if x = d - 1 then d else if x = d then i else x := by
  rw [Perm.ofCycles_apply d _ h1 h2]
  simp only [List.foldl_cons, List.foldl_nil]
  exact cycNext_three i (d - 1) d x (by omega) (by omega) (by omega)

/-- An image vector given by a map of the domain into itself that has a left
inverse is a permutation. -/
theorem Perm.valid_of_leftInverse (d : Nat) (p : Perm) (hd : p.degree = d) (g : Nat → Nat)
    (hmaps : ∀ x, 1 ≤ x → x ≤ d → 1 ≤ p.apply x ∧ p.apply x ≤ d)
    (hinv : ∀ x, 1 ≤ x → x ≤ d → g (p.apply x) = x) : p.valid := by
  unfold Perm.degree at hd
  constructor
  · rw [List.nodup_iff_injective_get]
    intro a b hab
    have ha := hinv (a.1 + 1) (by omega) (by have := a.2; omega)
    have hb := hinv (b.1 + 1) (by omega) (by have := b.2; omega)
    rw [Perm.apply_succ_lt _ a.2] at ha
    rw [Perm.apply_succ_lt _ b.2] at hb
    simp only [List.get_eq_getElem] at hab
    rw [hab, hb] at ha
    exact Fin.ext (by omega)
  · intro x hx
    obtain ⟨n, hn, rfl⟩ := List.getElem_of_mem hx
    have := hmaps (n + 1) (by omega) (by omega)
    rw [Perm.apply_succ_lt _ hn] at this
    rw [hd]
    exact this

theorem transposition_valid {d i : Nat} (hi : 1 ≤ i) (hid : i < d) :
    (Perm.ofCycles d [[i, d]]).valid ∧ (Perm.ofCycles d [[i, d]]).degree = d := by
  refine ⟨Perm.valid_of_leftInverse d _ (Perm.degree_ofCycles d _)
    (fun y => if y = i then d else if y = d then i else y) ?_ ?_, Perm.degree_ofCycles d _⟩
  · intro x h1 h2
    rw [transposition_apply hi hid h1 h2]
    split_ifs <;> omega
  · intro x h1 h2
    rw [transposition_apply hi hid h1 h2]
    beta_reduce
    split_ifs <;> omega

theorem threecycle_valid {d i : Nat} (hi : 1 ≤ i) (hid : i + 1 < d) :
    (Perm.ofCycles d [[i, d - 1, d]]).valid ∧ (Perm.ofCycles d [[i, d - 1, d]]).degree = d := by
  refine ⟨Perm.valid_of_leftInverse d _ (Perm.degree_ofCycles d _)
    (fun y => if y = d - 1 then i else if y = d then d - 1 else if y = i then d else y) ?_ ?_,
    Perm.degree_ofCycles d _⟩
  · intro x h1 h2
    rw [threecycle_apply hi hid h1 h2]
    split_ifs <;> omega
  · intro x h1 h2
    rw [threecycle_apply hi hid h1 h2]
    beta_reduce
    split_ifs <;> omega

theorem transposition_inverse {d i : Nat} (hi : 1 ≤ i) (hid : i < d) :
    Perm.inverse (Perm.ofCycles d [[i, d]]) = Perm.ofCycles d [[i, d]] := by
  have hv := transposition_valid hi hid
  apply Perm.ext_apply
  · rw [Perm.degree_inverse]
  · intro x h1 h2
    rw [Perm.degree_inverse, hv.2] at h2
    have hx := Perm.inverse_range hv.1 h1 (by rw [hv.2]; exact h2)
    rw [hv.2] at hx
    apply Perm.apply_inj hv.1 hx.1 (by rw [hv.2]; exact hx.2)
    · exact (Perm.apply_range hv.1 h1 (by rw [hv.2]; exact h2)).1
    · exact (Perm.apply_range hv.1 h1 (by rw [hv.2]; exact h2)).2
    · rw [Perm.apply_inverse hv.1 h1 (by rw [hv.2]; exact h2)]
      have h3 : 1 ≤ (Perm.ofCycles d [[i, d]]).apply x ∧ (Perm.ofCycles d [[i, d]]).apply x ≤ d := by
        have := Perm.apply_range hv.1 h1 (by rw [hv.2]; exact h2)
        rw [hv.2] at this; exact this
      rw [transposition_apply hi hid h3.1 h3.2, transposition_apply hi hid h1 h2]
      split_ifs <;> omega

/-! ## Lemmas on permutation sets -/

theorem PermSet.mem_insert (s : PermSet) (p x : Perm) :
    x ∈ PermSet.insert s p ↔ x ∈ s ∨ x = p := by
  unfold PermSet.insert
  split
  · constructor
    · exact Or.inl
    · rintro (h | rfl)
      · exact h
      · assumption
  · simp

theorem PermSet.foldl_insert_nodup :
    ∀ (l : List Perm) (s : PermSet), (s ++ l).Nodup → l.foldl PermSet.insert s = s ++ l := by
  intro l
  induction l with
  | nil => intro s _; simp
  | cons p l ih =>
    intro s h
    have hp : p ∉ s := by
      intro hp
      have := (List.nodup_append.1 h).2.2 hp (List.mem_cons_self _ _)
      exact this
    simp only [List.foldl_cons, PermSet.insert, if_neg hp]
    rw [ih (s ++ [p]) (by simpa using h)]
    simp

theorem PermSet.make_unique_nodup (s : PermSet) (h : s.Nodup) : PermSet.make_unique s = s := by
  unfold PermSet.make_unique
  rw [PermSet.foldl_insert_nodup s [] (by simpa using h)]
  simp

theorem PermSet.foldl_insert_inverse_spec :
    ∀ (l : List Perm) (s : PermSet),
      ∃ extra, l.foldl (fun acc p => PermSet.insert acc p.inverse) s = s ++ extra ∧
        (∀ x ∈ extra, ∃ p ∈ l, x = p.inverse) ∧
        ∀ p ∈ l, p.inverse ∈ s ++ extra := by
  intro l
  induction l with
  | nil => intro s; exact ⟨[], by simp, by simp, by simp⟩
  | cons p l ih =>
    intro s
    simp only [List.foldl_cons]
    by_cases hp : p.inverse ∈ s
    · obtain ⟨extra, h1, h2, h3⟩ := ih s
      have hins : PermSet.insert s p.inverse = s := by simp [PermSet.insert, hp]
      refine ⟨extra, ?_, ?_, ?_⟩
      · rw [hins]; exact h1
      · intro x hx
        obtain ⟨q, hq, rfl⟩ := h2 x hx
        exact ⟨q, List.mem_cons_of_mem _ hq, rfl⟩
      · intro q hq
        rcases List.mem_cons.1 hq with rfl | hq
        · exact List.mem_append_left _ hp
        · exact h3 q hq
    · obtain ⟨extra, h1, h2, h3⟩ := ih (s ++ [p.inverse])
      have hins : PermSet.insert s p.inverse = s ++ [p.inverse] := by simp [PermSet.insert, hp]
      refine ⟨p.inverse :: extra, ?_, ?_, ?_⟩
      · rw [hins, h1]; simp
      · intro x hx
        rcases List.mem_cons.1 hx with rfl | hx
        · exact ⟨p, List.mem_cons_self _ _, rfl⟩
        · obtain ⟨q, hq, rfl⟩ := h2 x hx
          exact ⟨q, List.mem_cons_of_mem _ hq, rfl⟩
      · intro q hq
        rcases List.mem_cons.1 hq with rfl | hq
        · simp
        · have := h3 q hq
          simpa using this

/-- `insert_inverses` appends inverses behind the members. -/
theorem PermSet.insert_inverses_spec (s : PermSet) :
    ∃ extra, PermSet.insert_inverses s = s ++ extra ∧
      (∀ x ∈ extra, ∃ p ∈ s, x = p.inverse) ∧ ∀ p ∈ s, p.inverse ∈ s ++ extra :=
  PermSet.foldl_insert_inverse_spec s s

theorem PermSet.mem_insert_inverses (s : PermSet) (x : Perm) :
    x ∈ PermSet.insert_inverses s ↔ x ∈ s ∨ ∃ p ∈ s, x = p.inverse := by
  obtain ⟨extra, h1, h2, h3⟩ := PermSet.insert_inverses_spec s
  rw [h1]
  constructor
  · intro hx
    rcases List.mem_append.1 hx with hx | hx
    · exact Or.inl hx
    · exact Or.inr (h2 x hx)
  · rintro (hx | ⟨p, hp, rfl⟩)
    · exact List.mem_append_left _ hx
    · exact h3 p hp

theorem reverse_range'_map_take {α : Type} (f : Nat → α) (m n : Nat) (h : n ≤ m) :
    ((List.range' 1 m).reverse.map f).take n = (List.range n).map (fun k => f (m - k)) := by
  rw [List.reverse_range', List.map_map, ← List.map_take, List.take_range, min_eq_left h]
  apply List.map_congr_left
  intro k _
  simp only [Function.comp]
  congr 1
  omega

/-! ## The levels of the fast paths -/

theorem BSGS.construct_levels_spec (skip : Nat) (v : Variant) :
    ∀ (n i : Nat) (b : BSGS), b.transversals = some v → b.schreier_structures.length = i →
      (∀ k, i ≤ k → k < i + n →
        (∀ l ∈ b.level_labels skip k, l.valid ∧ l.degree = b.degree) ∧
        1 ≤ b.base_point k ∧ b.base_point k ≤ b.degree) →
      ∃ sss, BSGS.construct_levels skip n i b = Except.ok { b with schreier_structures := sss } ∧
        sss.length = i + n ∧
        (∀ k, k < i → sss.get? k = b.schreier_structures.get? k) ∧
        ∀ k, i ≤ k → k < i + n →
          Orbit.generate (b.base_point k) (b.level_labels skip k)
            (make_schreier_structure v (b.base_point k) b.degree
              (b.level_labels skip k)) = sss.get? k := by
  intro n
  induction n with
  | zero =>
    intro i b _ hlen _
    exact ⟨b.schreier_structures, rfl, by simpa using hlen, fun _ _ => rfl,
      fun k h1 h2 => by omega⟩
  | succ n ih =>
    intro i b hv hlen hlev
    obtain ⟨hL, hr1, hr2⟩ := hlev i (le_refl _) (by omega)
    have hdeg : (make_schreier_structure v (b.base_point i) b.degree
        (b.level_labels skip i)).degree = b.degree := by
      cases v <;> rfl
    obtain ⟨ss, hss, _⟩ := Orbit.generate_spec hL ⟨hr1, hr2⟩ _ hdeg
    have hupd : b.update_schreier_structure i (b.level_labels skip i) =
        Except.ok { b with schreier_structures := b.schreier_structures ++ [ss] } := by
      simp only [BSGS.update_schreier_structure, hv,
        BSGSTransversalsBase.update_schreier_structure, hss, hlen, lt_irrefl, if_false, if_true]
    obtain ⟨sss, h1, h2, h4, h3⟩ := ih (i + 1)
      { b with schreier_structures := b.schreier_structures ++ [ss] } hv (by simp [hlen])
      (fun k hk1 hk2 => hlev k (by omega) (by omega))
    have hpre : ∀ k, k < i + 1 → sss.get? k = (b.schreier_structures ++ [ss]).get? k := h4
    refine ⟨sss, ?_, by omega, ?_, ?_⟩
    · simp only [BSGS.construct_levels]
      have : PermSet.insert_inverses (PermSet.subset b.strong_generators 0 (b.degree - i - skip))
          = b.level_labels skip i := rfl
      rw [this, hupd]
      exact h1
    · intro k hk
      rw [hpre k (by omega), List.get?_eq_getElem?, List.get?_eq_getElem?,
        List.getElem?_append_left (by omega)]
    · intro k hk1 hk2
      by_cases hk : k = i
      · subst hk
        rw [hss, hpre k (by omega), List.get?_eq_getElem?,
          List.getElem?_append_right (by omega)]
        simp [hlen]
      · exact h3 k (by omega) (by omega)

/-- A product of permutations that fix the points `1, ..., k` fixes them. -/
theorem Generated.fixes {d k : Nat} {L : PermSet} (hL : ∀ l ∈ L, l.valid ∧ l.degree = d)
    (hfix : ∀ l ∈ L, ∀ x, 1 ≤ x → x ≤ k → l.apply x = x) (hk : k ≤ d) {t : Perm}
    (h : Generated d L t) : ∀ x, 1 ≤ x → x ≤ k → t.apply x = x := by
  induction h with
  | one => intro x _ _; exact Perm.apply_identity d x
  | gen hg => exact hfix _ hg
  | @mul a b ha hb iha ihb =>
    intro x h1 h2
    have hva := Generated.valid_degree hL ha
    have hvb := Generated.valid_degree hL hb
    rw [Perm.compose_apply _ _ (by rw [hva.2, hvb.2]), ihb x h1 h2, iha x h1 h2]
  | @inv a ha ih =>
    intro x h1 h2
    have hva := Generated.valid_degree hL ha
    have := Perm.inverse_apply hva.1 (x := x) h1 (by rw [hva.2]; omega)
    rw [ih x h1 h2] at this
    exact this

theorem length_of_nodes {d k : Nat} {V : List Nat} (hn : V.Nodup)
    (hmem : ∀ x, x ∈ V ↔ k + 1 ≤ x ∧ x ≤ d) : V.length = d - k := by
  have hperm : List.Perm V (List.range' (k + 1) (d - k)) := by
    rw [List.perm_ext_iff_of_nodup hn (List.nodup_range' _ _)]
    intro x
    rw [hmem, List.mem_range'_1]
    omega
  rw [hperm.length_eq, List.length_range']

/-- The orbit engine on a level of a fast path: the labels fix the points up
to `k` and reach every point from `k + 1` on. -/
theorem level_of_generate {d k : Nat} {L : PermSet} (hL : ∀ l ∈ L, l.valid ∧ l.degree = d)
    (hk : k + 1 ≤ d) (hfix : ∀ l ∈ L, ∀ x, 1 ≤ x → x ≤ k → l.apply x = x)
    (hreach : ∀ S : List Nat, k + 1 ∈ S → (∀ x ∈ S, ∀ l ∈ L, l.apply x ∈ S) →
      ∀ y, k + 1 ≤ y → y ≤ d → y ∈ S)
    (out : SchreierStructure) (hd : out.degree = d) :
    ∃ ss, Orbit.generate (k + 1) L out = some ss ∧ ss.labels = L ∧ LevelSpec d k ss := by
  obtain ⟨ss, h1, h2, h3, h4, h5, h6, h7, h8, h9⟩ :=
    Orbit.generate_spec hL (r := k + 1) ⟨by omega, hk⟩ out hd
  have htr : ∀ p ∈ ss.nodes, (ss.transversal p).valid ∧ (ss.transversal p).degree = d ∧
      (ss.transversal p).apply (k + 1) = p ∧
      ∀ x, 1 ≤ x → x ≤ k → (ss.transversal p).apply x = x := by
    intro p hp
    obtain ⟨hg, hap⟩ := h9 p hp
    have hv := Generated.valid_degree hL hg
    exact ⟨hv.1, hv.2, hap, Generated.fixes hL hfix (by omega) hg⟩
  refine ⟨ss, h1, h4, h2, h5, ?_, htr⟩
  intro x
  constructor
  · intro hx
    refine ⟨?_, (h6 x hx).2⟩
    obtain ⟨hv, hdeg, hap, hfx⟩ := htr x hx
    by_contra hlt
    have hx1 := (h6 x hx).1
    have := Perm.apply_inj hv (x := x) (y := k + 1) hx1 (by rw [hdeg]; exact (h6 x hx).2)
      (by omega) (by rw [hdeg]; exact hk) (by rw [hfx x hx1 (by omega), hap])
    omega
  · rintro ⟨hx1, hx2⟩
    exact hreach ss.nodes h7 h8 x hx1 hx2

/-! ## Order of a chain of orbits -/

theorem foldl_orbit_sizes (d : Nat) (f : Nat → Nat) :
    ∀ n, (∀ i, i < n → f i = d - i) →
      (List.range n).foldl (fun res i => res * f i) 1 = d.descFactorial n := by
  intro n
  induction n with
  | zero => intro _; rfl
  | succ n ih =>
    intro h
    rw [List.range_succ, List.foldl_append, ih (fun i hi => h i (by omega))]
    simp only [List.foldl_cons, List.foldl_nil]
    rw [h n (by omega), Nat.descFactorial_succ, Nat.mul_comm]

theorem descFactorial_pred (d : Nat) (hd : 1 ≤ d) : d.descFactorial (d - 1) = d.factorial := by
  have := Nat.factorial_mul_descFactorial (n := d) (k := d - 1) (by omega)
  have h1 : d - (d - 1) = 1 := by omega
  rw [h1] at this
  simpa using this

theorem descFactorial_pred_pred (d : Nat) (hd : 2 ≤ d) :
    d.descFactorial (d - 2) = d.factorial / 2 := by
  have := Nat.factorial_mul_descFactorial (n := d) (k := d - 2) (by omega)
  have h1 : d - (d - 2) = 2 := by omega
  rw [h1] at this
  have h2 : (2 : Nat).factorial = 2 := rfl
  rw [h2] at this
  omega

/-! ## The symmetric fast path -/

theorem foldl_insert_map (f : Nat → Perm) (l : List Nat) (s : PermSet) :
    l.foldl (fun s i => PermSet.insert s (f i)) s = (l.map f).foldl PermSet.insert s := by
  rw [List.foldl_map]

theorem symmetric_generators_nodup (d : Nat) : (symmetric_generators d).Nodup := by
  unfold symmetric_generators
  apply List.Nodup.map_on _ (List.nodup_reverse.2 (List.nodup_range' 1 (d - 1)))
  intro i hi j hj hij
  rw [List.mem_reverse, List.mem_range'_1] at hi hj
  have h1 := transposition_apply (d := d) (i := i) (x := i) hi.1 (by omega) hi.1 (by omega)
  have h2 := transposition_apply (d := d) (i := j) (x := i) hj.1 (by omega) hi.1 (by omega)
  rw [hij, h2] at h1
  simp only [if_true] at h1
  split_ifs at h1 <;> omega

theorem symmetric_generators_build (d : Nat) :
    PermSet.make_unique ((List.range' 1 (d - 1)).reverse.foldl
      (fun s i => PermSet.insert s (Perm.ofCycles d [[i, d]])) []) = symmetric_generators d := by
  have hn := symmetric_generators_nodup d
  unfold symmetric_generators at hn ⊢
  rw [foldl_insert_map, PermSet.foldl_insert_nodup _ [] (by rw [List.nil_append]; exact hn),
    List.nil_append]
  exact PermSet.make_unique_nodup _ hn

theorem mem_symmetric_labels {d k : Nat} (hk : k + 1 < d) (l : Perm) :
    l ∈ PermSet.insert_inverses (PermSet.subset (symmetric_generators d) 0 (d - k - 1)) ↔
      ∃ j, k + 1 ≤ j ∧ j ≤ d - 1 ∧ l = Perm.ofCycles d [[j, d]] := by
  have htake : PermSet.subset (symmetric_generators d) 0 (d - k - 1) =
      (List.range (d - k - 1)).map (fun m => Perm.ofCycles d [[d - 1 - m, d]]) := by
    unfold PermSet.subset symmetric_generators
    rw [List.drop_zero, reverse_range'_map_take _ _ _ (by omega)]
  have hmem : ∀ x, x ∈ PermSet.subset (symmetric_generators d) 0 (d - k - 1) ↔
      ∃ j, k + 1 ≤ j ∧ j ≤ d - 1 ∧ x = Perm.ofCycles d [[j, d]] := by
    intro x
    rw [htake, List.mem_map]
    constructor
    · rintro ⟨m, hm, rfl⟩
      rw [List.mem_range] at hm
      exact ⟨d - 1 - m, by omega, by omega, rfl⟩
    · rintro ⟨j, h1, h2, rfl⟩
      refine ⟨d - 1 - j, by rw [List.mem_range]; omega, ?_⟩
      have : d - 1 - (d - 1 - j) = j := by omega
      rw [this]
  rw [PermSet.mem_insert_inverses]
  constructor
  · rintro (h | ⟨p, hp, rfl⟩)
    · exact (hmem l).1 h
    · obtain ⟨j, h1, h2, rfl⟩ := (hmem p).1 hp
      exact ⟨j, h1, h2, transposition_inverse (by omega) (by omega)⟩
  · intro h
    exact Or.inl ((hmem l).2 h)

theorem getD_range' (s n k : Nat) (h : k < n) : (List.range' s n).getD k 0 = s + k := by
  rw [List.getD_eq_getElem _ _ (by simpa using h), List.getElem_range']
  omega

/-- What `construct_symmetric` builds in degree `d ≥ 2`. -/
theorem construct_symmetric_spec (d : Nat) (hd : 2 ≤ d) (v : Variant) :
    ∃ sss, (BSGS.init d v).construct_symmetric = Except.ok
        { degree := d, base := List.range' 1 (d - 1),
          strong_generators := symmetric_generators d, transversals := some v,
          schreier_structures := sss, is_symmetric := true, is_alternating := false } ∧
      sss.length = d - 1 ∧
      ∀ k, k < d - 1 → ∃ ss, sss.get? k = some ss ∧ LevelSpec d k ss ∧
        ∀ l, l ∈ ss.labels ↔ ∃ j, k + 1 ≤ j ∧ j ≤ d - 1 ∧ l = Perm.ofCycles d [[j, d]] := by
  have hlab : ∀ k, k < d - 1 → ∀ l,
      l ∈ PermSet.insert_inverses (PermSet.subset (symmetric_generators d) 0 (d - k - 1)) →
      ∃ j, k + 1 ≤ j ∧ j ≤ d - 1 ∧ l = Perm.ofCycles d [[j, d]] :=
    fun k hk l hl => (mem_symmetric_labels (by omega) l).1 hl
  have hL : ∀ k, k < d - 1 → ∀ l ∈ PermSet.insert_inverses
      (PermSet.subset (symmetric_generators d) 0 (d - k - 1)), l.valid ∧ l.degree = d := by
    intro k hk l hl
    obtain ⟨j, h1, h2, rfl⟩ := hlab k hk l hl
    exact transposition_valid (by omega) (by omega)
  obtain ⟨sss, h1, h2, _, h3⟩ := BSGS.construct_levels_spec 1 v (d - 1) 0
    { degree := d, base := List.range' 1 (d - 1), strong_generators := symmetric_generators d,
      transversals := some v, schreier_structures := [], is_symmetric := false,
      is_alternating := false } rfl rfl
    (by
      intro k _ hk
      simp only [Nat.zero_add] at hk
      refine ⟨hL k hk, ?_, ?_⟩
      · simp only [BSGS.base_point]; rw [getD_range' _ _ _ hk]; omega
      · simp only [BSGS.base_point]; rw [getD_range' _ _ _ hk]; omega)
  refine ⟨sss, ?_, by simpa using h2, ?_⟩
  · have hne : d ≠ 1 := by omega
    simp only [BSGS.construct_symmetric, BSGS.init, if_neg hne, symmetric_generators_build,
      List.length_range']
    rw [h1]
  · intro k hk
    have hgen := h3 k (Nat.zero_le _) (by simpa using hk)
    simp only [BSGS.base_point, BSGS.level_labels] at hgen
    rw [getD_range' _ _ _ hk, Nat.add_comm 1 k] at hgen
    obtain ⟨ss, hs1, hs2, hs3⟩ := level_of_generate (d := d) (k := k) (hL k hk) (by omega)
      (by
        intro l hl x hx1 hx2
        obtain ⟨j, h1, h2, rfl⟩ := hlab k hk l hl
        rw [transposition_apply (by omega) (by omega) hx1 (by omega)]
        split_ifs <;> omega)
      (by
        intro S hroot hcl y hy1 hy2
        have hd' : d ∈ S := by
          have := hcl (k + 1) hroot (Perm.ofCycles d [[k + 1, d]])
            ((mem_symmetric_labels (by omega) _).2 ⟨k + 1, le_refl _, by omega, rfl⟩)
          rw [transposition_apply (by omega) (by omega) (by omega) (by omega)] at this
          simpa using this
        by_cases hyd : y = d
        · rw [hyd]; exact hd'
        · have := hcl d hd' (Perm.ofCycles d [[y, d]])
            ((mem_symmetric_labels (by omega) _).2 ⟨y, hy1, by omega, rfl⟩)
          rw [transposition_apply (by omega) (by omega) (by omega) (le_refl _)] at this
          have hne : d ≠ y := fun h => hyd h.symm
          simpa [hne] using this)
      (make_schreier_structure v (k + 1) d (PermSet.insert_inverses
        (PermSet.subset (symmetric_generators d) 0 (d - k - 1))))
      (by cases v <;> rfl)
    refine ⟨ss, ?_, hs3, ?_⟩
    · rw [← hgen, hs1]
    · intro l
      rw [hs2]
      exact mem_symmetric_labels (by omega) l

/-! ## The alternating fast path -/

theorem alternating_cycles_nodup (d : Nat) : (alternating_cycles d).Nodup := by
  unfold alternating_cycles
  apply List.Nodup.map_on _ (List.nodup_reverse.2 (List.nodup_range' 1 (d - 2)))
  intro i hi j hj hij
  rw [List.mem_reverse, List.mem_range'_1] at hi hj
  have h1 := threecycle_apply (d := d) (i := i) (x := i) hi.1 (by omega) hi.1 (by omega)
  have h2 := threecycle_apply (d := d) (i := j) (x := i) hj.1 (by omega) hi.1 (by omega)
  rw [hij, h2] at h1
  simp only [if_true] at h1
  split_ifs at h1 <;> omega

theorem alternating_generators_build (d : Nat) :
    PermSet.insert_inverses ((List.range' 1 (d - 2)).reverse.foldl
      (fun s i => PermSet.insert s (Perm.ofCycles d [[i, d - 1, d]])) []) =
      PermSet.insert_inverses (alternating_cycles d) := by
  have hn := alternating_cycles_nodup d
  unfold alternating_cycles at hn ⊢
  rw [foldl_insert_map, PermSet.foldl_insert_nodup _ [] (by rw [List.nil_append]; exact hn),
    List.nil_append]

theorem length_alternating_cycles (d : Nat) : (alternating_cycles d).length = d - 2 := by
  simp [alternating_cycles]

theorem mem_alternating_cycles {d : Nat} (x : Perm) :
    x ∈ alternating_cycles d ↔ ∃ i, 1 ≤ i ∧ i ≤ d - 2 ∧ x = Perm.ofCycles d [[i, d - 1, d]] := by
  unfold alternating_cycles
  rw [List.mem_map]
  constructor
  · rintro ⟨i, hi, rfl⟩
    rw [List.mem_reverse, List.mem_range'_1] at hi
    exact ⟨i, hi.1, by omega, rfl⟩
  · rintro ⟨i, h1, h2, rfl⟩
    exact ⟨i, by rw [List.mem_reverse, List.mem_range'_1]; omega, rfl⟩

theorem mem_alternating_labels {d k : Nat} (hk : k + 2 < d) (l : Perm) :
    l ∈ PermSet.insert_inverses
        (PermSet.subset (PermSet.insert_inverses (alternating_cycles d)) 0 (d - k - 2)) ↔
      ∃ j, k + 1 ≤ j ∧ j ≤ d - 2 ∧
        (l = Perm.ofCycles d [[j, d - 1, d]] ∨
          l = Perm.inverse (Perm.ofCycles d [[j, d - 1, d]])) := by
  have htake : PermSet.subset (PermSet.insert_inverses (alternating_cycles d)) 0 (d - k - 2) =
      (List.range (d - k - 2)).map (fun m => Perm.ofCycles d [[d - 2 - m, d - 1, d]]) := by
    obtain ⟨extra, he, _⟩ := PermSet.insert_inverses_spec (alternating_cycles d)
    rw [he]
    unfold PermSet.subset
    rw [List.drop_zero, List.take_append_of_le_length
      (by rw [length_alternating_cycles]; omega)]
    unfold alternating_cycles
    rw [reverse_range'_map_take _ _ _ (by omega)]
  have hmem : ∀ x,
      x ∈ PermSet.subset (PermSet.insert_inverses (alternating_cycles d)) 0 (d - k - 2) ↔
      ∃ j, k + 1 ≤ j ∧ j ≤ d - 2 ∧ x = Perm.ofCycles d [[j, d - 1, d]] := by
    intro x
    rw [htake, List.mem_map]
    constructor
    · rintro ⟨m, hm, rfl⟩
      rw [List.mem_range] at hm
      exact ⟨d - 2 - m, by omega, by omega, rfl⟩
    · rintro ⟨j, h1, h2, rfl⟩
      refine ⟨d - 2 - j, by rw [List.mem_range]; omega, ?_⟩
      have : d - 2 - (d - 2 - j) = j := by omega
      rw [this]
  rw [PermSet.mem_insert_inverses]
  constructor
  · rintro (h | ⟨p, hp, rfl⟩)
    · obtain ⟨j, h1, h2, h3⟩ := (hmem l).1 h
      exact ⟨j, h1, h2, Or.inl h3⟩
    · obtain ⟨j, h1, h2, rfl⟩ := (hmem p).1 hp
      exact ⟨j, h1, h2, Or.inr rfl⟩
  · rintro ⟨j, h1, h2, h3 | h3⟩
    · exact Or.inl ((hmem l).2 ⟨j, h1, h2, h3⟩)
    · exact Or.inr ⟨_, (hmem _).2 ⟨j, h1, h2, rfl⟩, h3⟩

/-- What `construct_alternating` builds in degree `d ≥ 3`. -/
theorem construct_alternating_spec (d : Nat) (hd : 3 ≤ d) (v : Variant) :
    ∃ sss, (BSGS.init d v).construct_alternating = Except.ok
        { degree := d, base := List.range' 1 (d - 2),
          strong_generators := PermSet.insert_inverses (alternating_cycles d),
          transversals := some v, schreier_structures := sss, is_symmetric := false,
          is_alternating := true } ∧
      sss.length = d - 2 ∧
      ∀ k, k < d - 2 → ∃ ss, sss.get? k = some ss ∧ LevelSpec d k ss ∧
        ∀ l, l ∈ ss.labels ↔ ∃ j, k + 1 ≤ j ∧ j ≤ d - 2 ∧
          (l = Perm.ofCycles d [[j, d - 1, d]] ∨
            l = Perm.inverse (Perm.ofCycles d [[j, d - 1, d]])) := by
  have hlab : ∀ k, k < d - 2 → ∀ l,
      l ∈ PermSet.insert_inverses
        (PermSet.subset (PermSet.insert_inverses (alternating_cycles d)) 0 (d - k - 2)) →
      ∃ j, k + 1 ≤ j ∧ j ≤ d - 2 ∧
        (l = Perm.ofCycles d [[j, d - 1, d]] ∨
          l = Perm.inverse (Perm.ofCycles d [[j, d - 1, d]])) :=
    fun k hk l hl => (mem_alternating_labels (by omega) l).1 hl
  have hL : ∀ k, k < d - 2 → ∀ l ∈ PermSet.insert_inverses
      (PermSet.subset (PermSet.insert_inverses (alternating_cycles d)) 0 (d - k - 2)),
      l.valid ∧ l.degree = d := by
    intro k hk l hl
    obtain ⟨j, h1, h2, rfl | rfl⟩ := hlab k hk l hl
    · exact threecycle_valid (by omega) (by omega)
    · have := threecycle_valid (d := d) (i := j) (by omega) (by omega)
      exact ⟨Perm.valid_inverse this.1, by rw [Perm.degree_inverse, this.2]⟩
  obtain ⟨sss, h1, h2, _, h3⟩ := BSGS.construct_levels_spec 2 v (d - 2) 0
    { degree := d, base := List.range' 1 (d - 2),
      strong_generators := PermSet.insert_inverses (alternating_cycles d),
      transversals := some v, schreier_structures := [], is_symmetric := false,
      is_alternating := false } rfl rfl
    (by
      intro k _ hk
      simp only [Nat.zero_add] at hk
      refine ⟨hL k hk, ?_, ?_⟩
      · simp only [BSGS.base_point]; rw [getD_range' _ _ _ hk]; omega
      · simp only [BSGS.base_point]; rw [getD_range' _ _ _ hk]; omega)
  refine ⟨sss, ?_, by simpa using h2, ?_⟩
  · have hne : ¬ d < 2 := by omega
    simp only [BSGS.construct_alternating, BSGS.init, if_neg hne, alternating_generators_build,
      List.length_range']
    rw [h1]
  · intro k hk
    have hgen := h3 k (Nat.zero_le _) (by simpa using hk)
    simp only [BSGS.base_point, BSGS.level_labels] at hgen
    rw [getD_range' _ _ _ hk, Nat.add_comm 1 k] at hgen
    obtain ⟨ss, hs1, hs2, hs3⟩ := level_of_generate (d := d) (k := k) (hL k hk) (by omega)
      (by
        intro l hl x hx1 hx2
        obtain ⟨j, h1, h2, rfl | rfl⟩ := hlab k hk l hl
        · rw [threecycle_apply (by omega) (by omega) hx1 (by omega)]
          split_ifs <;> omega
        · have hv := threecycle_valid (d := d) (i := j) (by omega) (by omega)
          have hx := threecycle_apply (d := d) (i := j) (x := x) (by omega) (by omega) hx1
            (by omega)
          have hfx : (Perm.ofCycles d [[j, d - 1, d]]).apply x = x := by
            rw [hx]; split_ifs <;> omega
          have := Perm.inverse_apply hv.1 (x := x) hx1 (by rw [hv.2]; omega)
          rw [hfx] at this
          exact this)
      (by
        intro S hroot hcl y hy1 hy2
        have hmem : Perm.ofCycles d [[k + 1, d - 1, d]] ∈ PermSet.insert_inverses
            (PermSet.subset (PermSet.insert_inverses (alternating_cycles d)) 0 (d - k - 2)) :=
          (mem_alternating_labels (by omega) _).2 ⟨k + 1, le_refl _, by omega, Or.inl rfl⟩
        have hd1 : d - 1 ∈ S := by
          have := hcl (k + 1) hroot _ hmem
          rw [threecycle_apply (by omega) (by omega) (by omega) (by omega)] at this
          simpa using this
        have hd' : d ∈ S := by
          have := hcl (d - 1) hd1 _ hmem
          rw [threecycle_apply (by omega) (by omega) (by omega) (by omega)] at this
          have hne : d - 1 ≠ k + 1 := by omega
          simpa [hne] using this
        by_cases hyd : y = d
        · rw [hyd]; exact hd'
        · by_cases hyd1 : y = d - 1
          · rw [hyd1]; exact hd1
          · have := hcl d hd' (Perm.ofCycles d [[y, d - 1, d]])
              ((mem_alternating_labels (by omega) _).2 ⟨y, hy1, by omega, Or.inl rfl⟩)
            rw [threecycle_apply (by omega) (by omega) (by omega) (le_refl _)] at this
            have hne1 : d ≠ y := fun h => hyd h.symm
            have hne2 : d ≠ d - 1 := by omega
            simpa [hne1, hne2] using this)
      (make_schreier_structure v (k + 1) d (PermSet.insert_inverses
        (PermSet.subset (PermSet.insert_inverses (alternating_cycles d)) 0 (d - k - 2))))
      (by cases v <;> rfl)
    refine ⟨ss, ?_, hs3, ?_⟩
    · rw [← hgen, hs1]
    · intro l
      rw [hs2]
      exact mem_alternating_labels (by omega) l

theorem getD_of_get? {α : Type} (l : List α) (k : Nat) (x dflt : α) (h : l.get? k = some x) :
    l.getD k dflt = x := by
  rw [List.getD_eq_getElem?_getD, ← List.get?_eq_getElem?, h]; rfl

/-- The order of a BSGS whose level `i` has an orbit of `d - i` points. -/
theorem BSGS.order_of_levels (b : BSGS) (d : Nat)
    (h : ∀ i, i < b.base_size → (b.orbit i).length = d - i) :
    b.order = d.descFactorial b.base_size :=
  foldl_orbit_sizes d (fun i => (b.orbit i).length) b.base_size h

/-! ## `strip` -/

theorem Perm.id_iff (p : Perm) : p.id = true ↔ p = Perm.identity p.degree := by
  cases p with
  | mk img => simp [Perm.id, Perm.identity, Perm.degree]

/-- A permutation that fixes all points but possibly the last is the
identity. -/
theorem Perm.eq_identity_of_fixes {d : Nat} {p : Perm} (hv : p.valid) (hd : p.degree = d)
    (hfix : ∀ x, 1 ≤ x → x ≤ d - 1 → p.apply x = x) : p = Perm.identity d := by
  apply Perm.ext_apply
  · rw [hd, Perm.degree_identity]
  · intro x h1 h2
    rw [Perm.apply_identity]
    by_cases hx : x ≤ d - 1
    · exact hfix x h1 hx
    · have hxd : x = d := by omega
      have hr := Perm.apply_range hv h1 h2
      by_contra hne
      have hy : p.apply x ≤ d - 1 := by omega
      have := Perm.apply_inj hv hr.1 hr.2 h1 h2 (hfix _ hr.1 hy)
      omega

/-- On a chain whose base is `(1, ..., m)` and whose levels look like those of
the fast paths, `strip` with the product that applies the left factor first
passes all levels and leaves a permutation that fixes the base. -/
theorem BSGS.strip_loop_levels (b : BSGS) (d m : Nat) (hbase : b.base = List.range' 1 m)
    (hm : m ≤ d) (hlev : ∀ k, k < m → LevelSpec d k (b.schreier_structure k)) :
    ∀ (n i : Nat) (result : Perm), i + n = m → result.valid → result.degree = d →
      (∀ x, 1 ≤ x → x ≤ i → result.apply x = x) →
      ∃ ρ, BSGS.strip_loop Perm.mul_left_first b n i result = (ρ, m + 1) ∧ ρ.valid ∧
        ρ.degree = d ∧ ∀ x, 1 ≤ x → x ≤ m → ρ.apply x = x := by
  intro n
  induction n with
  | zero =>
    intro i result hi hv hd hfix
    refine ⟨result, ?_, hv, hd, fun x h1 h2 => hfix x h1 (by omega)⟩
    simp [BSGS.strip_loop, BSGS.base_size, hbase]
  | succ n ih =>
    intro i result hi hv hd hfix
    have him : i < m := by omega
    have hbp : b.base_point i = i + 1 := by
      simp only [BSGS.base_point, hbase]
      rw [getD_range' _ _ _ him, Nat.add_comm]
    have hβr := Perm.apply_range hv (x := i + 1) (by omega) (by omega)
    rw [hd] at hβr
    have hβ : i + 1 ≤ result.apply (i + 1) := by
      by_contra hlt
      have := Perm.apply_inj hv (x := result.apply (i + 1)) (y := i + 1) hβr.1
        (by rw [hd]; exact hβr.2) (by omega) (by omega) (hfix _ hβr.1 (by omega))
      omega
    have hL := hlev i him
    have hmem : result.apply (i + 1) ∈ (b.schreier_structure i).nodes :=
      (hL.nodes _).2 ⟨hβ, hβr.2⟩
    obtain ⟨htv, htd, hta, htf⟩ := hL.transversal _ hmem
    have hres : (Perm.mul_left_first result
        (Perm.inverse ((b.schreier_structure i).transversal (result.apply (i + 1))))).valid ∧
        (Perm.mul_left_first result
        (Perm.inverse ((b.schreier_structure i).transversal (result.apply (i + 1))))).degree = d
        := by
      refine ⟨Perm.valid_compose (Perm.valid_inverse htv) hv
        (by rw [Perm.degree_inverse, htd, hd]), ?_⟩
      simp only [Perm.mul_left_first, Perm.degree_compose, hd]
    obtain ⟨ρ, h1, h2⟩ := ih (i + 1) _ (by omega) hres.1 hres.2 (by
      intro x hx1 hx2
      simp only [Perm.mul_left_first]
      rw [Perm.compose_apply _ _ (by rw [Perm.degree_inverse, htd, hd])]
      by_cases hxi : x ≤ i
      · rw [hfix x hx1 hxi]
        have := Perm.inverse_apply htv (x := x) hx1 (by rw [htd]; omega)
        rw [htf x hx1 hxi] at this
        exact this
      · have hx : x = i + 1 := by omega
        subst hx
        have := Perm.inverse_apply htv (x := i + 1) (by omega) (by rw [htd]; omega)
        rw [hta] at this
        exact this)
    refine ⟨ρ, ?_, h2⟩
    simp only [BSGS.strip_loop, hbp, SchreierStructure.contains, hmem, decide_True,
      Bool.not_true, Bool.false_eq_true, if_false]
    exact h1

/-- Stripping does not leave the complement of a group that holds the
transversals, whichever of the two products `strip` uses. -/
theorem BSGS.strip_loop_not_generated (mul : Perm → Perm → Perm) (d : Nat) (S : PermSet)
    (hdeg : ∀ r t, r.degree = d → Generated d S t → (mul r (Perm.inverse t)).degree = d)
    (hback : ∀ r t, r.degree = d → Generated d S t → Generated d S (mul r (Perm.inverse t)) →
      Generated d S r)
    (b : BSGS)
    (hb : ∀ i, i < b.base_size → ∀ p ∈ b.orbit i, Generated d S (b.transversal i p)) :
    ∀ (n i : Nat) (result : Perm), i + n = b.base_size → result.degree = d →
      ¬ Generated d S result →
      (BSGS.strip_loop mul b n i result).1.degree = d ∧
        ¬ Generated d S (BSGS.strip_loop mul b n i result).1 := by
  intro n
  induction n with
  | zero =>
    intro i result _ hd hng
    exact ⟨hd, hng⟩
  | succ n ih =>
    intro i result hi hd hng
    simp only [BSGS.strip_loop]
    by_cases hc : (b.schreier_structure i).contains (result.apply (b.base_point i)) = true
    · simp only [hc, Bool.not_true, Bool.false_eq_true, if_false]
      have hmem : result.apply (b.base_point i) ∈ b.orbit i := by
        simpa [SchreierStructure.contains, BSGS.orbit] using hc
      have ht := hb i (by omega) _ hmem
      exact ih (i + 1) _ (by omega) (hdeg result _ hd ht)
        (fun h => hng (hback result _ hd ht h))
    · have hc' : (b.schreier_structure i).contains (result.apply (b.base_point i)) = false := by
        simpa using hc
      simp only [hc', Bool.not_false, if_true]
      exact ⟨hd, hng⟩

theorem strip_products_back (d : Nat) (S : PermSet) (hS : ∀ g ∈ S, g.valid ∧ g.degree = d) :
    (∀ r t, r.degree = d → Generated d S t → (Perm.compose r (Perm.inverse t)).degree = d) ∧
    (∀ r t, r.degree = d → Generated d S t → Generated d S (Perm.compose r (Perm.inverse t)) →
      Generated d S r) ∧
    (∀ r t, r.degree = d → Generated d S t →
      (Perm.mul_left_first r (Perm.inverse t)).degree = d) ∧
    (∀ r t, r.degree = d → Generated d S t →
      Generated d S (Perm.mul_left_first r (Perm.inverse t)) → Generated d S r) := by
  refine ⟨?_, ?_, ?_, ?_⟩
  · intro r t _ ht
    rw [Perm.degree_compose, Perm.degree_inverse, (Generated.valid_degree hS ht).2]
  · intro r t hr ht h
    have hv := Generated.valid_degree hS ht
    have : Perm.compose (Perm.compose r (Perm.inverse t)) t = r := by
      rw [Perm.compose_assoc _ _ _ (by rw [hr, Perm.degree_inverse, hv.2]),
        Perm.inverse_compose hv.1, hv.2, ← hr, Perm.compose_identity]
    rw [← this]
    exact Generated.mul h ht
  · intro r t hr _
    simp only [Perm.mul_left_first, Perm.degree_compose, hr]
  · intro r t hr ht h
    have hv := Generated.valid_degree hS ht
    have : Perm.compose t (Perm.mul_left_first r (Perm.inverse t)) = r := by
      simp only [Perm.mul_left_first]
      rw [← Perm.compose_assoc _ _ _ (by rw [Perm.degree_inverse]),
        Perm.compose_inverse hv.1, Perm.identity_compose]
    rw [← this]
    exact Generated.mul ht h

/-- A permutation outside the group does not strip completely. -/
theorem BSGS.strips_completely_of_not_generated (mul : Perm → Perm → Perm) (d : Nat)
    (S : PermSet)
    (hdeg : ∀ r t, r.degree = d → Generated d S t → (mul r (Perm.inverse t)).degree = d)
    (hback : ∀ r t, r.degree = d → Generated d S t → Generated d S (mul r (Perm.inverse t)) →
      Generated d S r)
    (b : BSGS)
    (hb : ∀ i, i < b.base_size → ∀ p ∈ b.orbit i, Generated d S (b.transversal i p))
    (σ : Perm) (hσd : σ.degree = d) (hσ : ¬ Generated d S σ) :
    BSGS.strips_completely mul b σ = false := by
  obtain ⟨h1, h2⟩ := BSGS.strip_loop_not_generated mul d S hdeg hback b hb (b.base_size - 0) 0 σ
    (by omega) hσd hσ
  have hid : (BSGS.strip mul b σ 0).1.id = false := by
    cases hc : (BSGS.strip mul b σ 0).1.id with
    | false => rfl
    | true =>
      exfalso
      apply h2
      have := (Perm.id_iff _).1 hc
      simp only [BSGS.strip] at this
      rw [this, h1]
      exact Generated.one
  simp only [BSGS.strips_completely, hid, Bool.false_and]

/-! ## Orbit closure: the nodes are the smallest closed set -/

theorem SchreierStructure.nodes_create_edge (ss : SchreierStructure) (p q i : Nat) :
    (ss.create_edge p q i).nodes = ss.nodes ++ [q] := by
  cases ss <;> simp [SchreierStructure.create_edge, SchreierStructure.nodes]

/-- The pass over the labels keeps the nodes of the structure equal to the
visited points, and every point it adds is the image of the popped point under
a label and is queued. -/
theorem Orbit.expand_nodes (p : Nat) :
    ∀ (rest : List Perm) (i : Nat) (V Q : List Nat) (ss : SchreierStructure),
      ss.nodes = V →
      (Orbit.expand p rest i V Q ss).2.2.nodes = (Orbit.expand p rest i V Q ss).1 ∧
      (∀ x ∈ (Orbit.expand p rest i V Q ss).1, x ∈ V ∨ ∃ l ∈ rest, x = l.apply p) ∧
      (∀ x ∈ V, x ∈ (Orbit.expand p rest i V Q ss).1) ∧
      ∀ x ∈ (Orbit.expand p rest i V Q ss).2.1, x ∈ Q ∨ x ∈ (Orbit.expand p rest i V Q ss).1 := by
  intro rest
  induction rest with
  | nil =>
    intro i V Q ss h
    simp only [Orbit.expand]
    exact ⟨h, fun x hx => Or.inl hx, fun x hx => hx, fun x hx => Or.inl hx⟩
  | cons l rest ih =>
    intro i V Q ss h
    simp only [Orbit.expand]
    by_cases hq : l.apply p ∈ V
    · simp only [hq, not_true_eq_false, if_false]
      obtain ⟨h1, h2, h3, h4⟩ := ih (i + 1) V Q ss h
      refine ⟨h1, ?_, h3, h4⟩
      intro x hx
      rcases h2 x hx with h' | ⟨l', hl', h'⟩
      · exact Or.inl h'
      · exact Or.inr ⟨l', List.mem_cons_of_mem _ hl', h'⟩
    · simp only [hq, not_false_eq_true, if_true]
      obtain ⟨h1, h2, h3, h4⟩ := ih (i + 1) (V ++ [l.apply p]) (Q ++ [l.apply p])
        (ss.create_edge p (l.apply p) i) (by rw [SchreierStructure.nodes_create_edge, h])
      refine ⟨h1, ?_, fun x hx => h3 x (List.mem_append_left _ hx), ?_⟩
      · intro x hx
        rcases h2 x hx with h' | ⟨l', hl', h'⟩
        · rcases List.mem_append.1 h' with h'' | h''
          · exact Or.inl h''
          · exact Or.inr ⟨l, List.mem_cons_self _ _, List.mem_singleton.1 h''⟩
        · exact Or.inr ⟨l', List.mem_cons_of_mem _ hl', h'⟩
      · intro x hx
        rcases h4 x hx with h' | h'
        · rcases List.mem_append.1 h' with h'' | h''
          · exact Or.inl h''
          · right
            apply h3
            exact List.mem_append_right _ h''
        · exact Or.inr h'

/-- Whatever the loop of the orbit engine returns, its nodes lie in every set
that holds the visited points and is closed under the labels. -/
theorem Orbit.loop_minimal (L : PermSet) (S : Nat → Prop)
    (hcl : ∀ x, S x → ∀ l ∈ L, S (l.apply x)) :
    ∀ (fuel : Nat) (Q V : List Nat) (ss ss' : SchreierStructure),
      Orbit.loop L fuel Q V ss = some ss' → ss.nodes = V → (∀ x ∈ Q, x ∈ V) →
      (∀ x ∈ V, S x) → ∀ x ∈ ss'.nodes, S x := by
  intro fuel
  induction fuel with
  | zero =>
    intro Q V ss ss' h hn _ hS
    cases Q with
    | nil =>
      simp only [Orbit.loop, Option.some.injEq] at h
      subst h; rw [hn]; exact hS
    | cons p rest => simp [Orbit.loop] at h
  | succ fuel ih =>
    intro Q V ss ss' h hn hQ hS
    cases Q with
    | nil =>
      simp only [Orbit.loop, Option.some.injEq] at h
      subst h; rw [hn]; exact hS
    | cons p rest =>
      simp only [Orbit.loop] at h
      obtain ⟨h1, h2, h3, h4⟩ := Orbit.expand_nodes p L 0 V rest ss hn
      have hp : p ∈ V := hQ p (List.mem_cons_self _ _)
      refine ih _ _ _ ss' h h1 ?_ ?_
      · intro x hx
        rcases h4 x hx with h' | h'
        · exact h3 x (hQ x (List.mem_cons_of_mem _ h'))
        · exact h'
      · intro x hx
        rcases h2 x hx with h' | ⟨l, hl, rfl⟩
        · exact hS x h'
        · exact hcl p (hS p hp) l hl

theorem Orbit.generate_minimal (r : Nat) (L : PermSet) (out ss : SchreierStructure)
    (h : Orbit.generate r L out = some ss) (S : Nat → Prop) (hr : S r)
    (hcl : ∀ x, S x → ∀ l ∈ L, S (l.apply x)) : ∀ x ∈ ss.nodes, S x := by
  refine Orbit.loop_minimal L S hcl _ _ _ _ ss h ?_ (fun x hx => hx) ?_
  · cases out <;> rfl
  · intro x hx
    rw [List.mem_singleton.1 hx]; exact hr

/-! ## The two Schreier structure variants filled by the same run -/

theorem SchreierStructure.Agree.after_create_edge {r d : Nat} {L : PermSet}
    {orbit : List (Nat × Perm)} {edges : List (Nat × Nat × Nat)}
    (h : SchreierStructure.Agree r d L orbit edges) {p q i : Nat} {l : Perm}
    (hp : p ∈ orbit.map Prod.fst) (hq : q ∉ orbit.map Prod.fst) (hi : L.get? i = some l) :
    SchreierStructure.Agree r d L
      (orbit ++ [(q, Perm.compose (L.getD i (Perm.identity d))
        ((SchreierStructure.explicit r d L orbit).transversal p))])
      (edges ++ [(q, p, i)]) := by
  obtain ⟨hn, ht⟩ := h
  have hget : L.getD i (Perm.identity d) = l := by
    rw [List.getD_eq_getElem?_getD, ← List.get?_eq_getElem?, hi]; rfl
  have hr : r ∈ orbit.map Prod.fst := by rw [hn]; exact List.mem_cons_self _ _
  constructor
  · simp [hn]
  · intro x hx
    simp only [List.map_append, List.map_cons, List.map_nil, List.mem_append,
      List.mem_singleton] at hx
    rcases hx with hx | rfl
    · obtain ⟨t, n, h1, h2, h3⟩ := ht x hx
      refine ⟨t, n, ?_, by simp only [List.length_append, List.length_singleton]; omega,
        h3.append _⟩
      rw [List.lookup_append, h1]; rfl
    · obtain ⟨t, n, h1, h2, h3⟩ := ht p hp
      refine ⟨Perm.compose l t, n + 1, ?_,
        by simp only [List.length_append, List.length_singleton]; omega, ?_⟩
      · rw [List.lookup_append, lookup_eq_none_of_not_mem_keys orbit x hq, hget]
        simp [SchreierStructure.transversal, h1, List.lookup_cons]
      · refine TreePath.step (h3.append _) ?_ ?_ hi
        · intro hxr; exact hq (hxr ▸ hr)
        · have hnone : edges.lookup x = none := by
            apply lookup_eq_none_of_not_mem_keys
            intro hmem
            apply hq
            rw [hn]
            exact List.mem_cons_of_mem _ hmem
          rw [List.lookup_append, hnone]
          simp [List.lookup_cons]

theorem Orbit.expand_agree {r d : Nat} {L : PermSet} (p : Nat) :
    ∀ (rest : List Perm) (i : Nat) (V Q : List Nat) (orbit : List (Nat × Perm))
      (edges : List (Nat × Nat × Nat)),
      (∃ pre, L = pre ++ rest ∧ pre.length = i) →
      SchreierStructure.Agree r d L orbit edges → orbit.map Prod.fst = V → p ∈ V →
      ∃ V' Q' orbit' edges',
        Orbit.expand p rest i V Q (SchreierStructure.explicit r d L orbit) =
          (V', Q', SchreierStructure.explicit r d L orbit') ∧
        Orbit.expand p rest i V Q (SchreierStructure.tree r d L edges) =
          (V', Q', SchreierStructure.tree r d L edges') ∧
        SchreierStructure.Agree r d L orbit' edges' ∧ orbit'.map Prod.fst = V' := by
  intro rest
  induction rest with
  | nil =>
    intro i V Q orbit edges _ h hV _
    exact ⟨V, Q, orbit, edges, rfl, rfl, h, hV⟩
  | cons l rest ih =>
    intro i V Q orbit edges hpre h hV hp
    obtain ⟨pre, hpre1, hpre2⟩ := hpre
    have hpre' : ∃ pre', L = pre' ++ rest ∧ pre'.length = i + 1 :=
      ⟨pre ++ [l], by simp [hpre1], by simp [hpre2]⟩
    have hget : L.get? i = some l := by
      rw [hpre1, ← hpre2, List.get?_eq_getElem?, List.getElem?_append_right (le_refl _)]
      simp
    simp only [Orbit.expand]
    by_cases hq : l.apply p ∈ V
    · simp only [hq, not_true_eq_false, if_false]
      exact ih (i + 1) V Q orbit edges hpre' h hV hp
    · simp only [hq, not_false_eq_true, if_true]
      have hagree := h.after_create_edge (p := p) (q := l.apply p) (i := i) (by rw [hV]; exact hp)
        (by rw [hV]; exact hq) hget
      exact ih (i + 1) (V ++ [l.apply p]) (Q ++ [l.apply p]) _ _ hpre' hagree
        (by simp [hV]) (List.mem_append_left _ hp)

theorem Orbit.loop_agree {r d : Nat} {L : PermSet} :
    ∀ (fuel : Nat) (Q V : List Nat) (orbit : List (Nat × Perm))
      (edges : List (Nat × Nat × Nat)),
      SchreierStructure.Agree r d L orbit edges → orbit.map Prod.fst = V → (∀ x ∈ Q, x ∈ V) →
      (Orbit.loop L fuel Q V (SchreierStructure.explicit r d L orbit) = none ∧
        Orbit.loop L fuel Q V (SchreierStructure.tree r d L edges) = none) ∨
      ∃ orbit' edges',
        Orbit.loop L fuel Q V (SchreierStructure.explicit r d L orbit) =
          some (SchreierStructure.explicit r d L orbit') ∧
        Orbit.loop L fuel Q V (SchreierStructure.tree r d L edges) =
          some (SchreierStructure.tree r d L edges') ∧
        SchreierStructure.Agree r d L orbit' edges' := by
  intro fuel
  induction fuel with
  | zero =>
    intro Q V orbit edges h _ _
    cases Q with
    | nil => exact Or.inr ⟨orbit, edges, rfl, rfl, h⟩
    | cons p rest => exact Or.inl ⟨rfl, rfl⟩
  | succ fuel ih =>
    intro Q V orbit edges h hV hQ
    cases Q with
    | nil => exact Or.inr ⟨orbit, edges, rfl, rfl, h⟩
    | cons p rest =>
      have hp : p ∈ V := hQ p (List.mem_cons_self _ _)
      obtain ⟨V', Q', orbit', edges', h1, h2, h3, h4⟩ :=
        Orbit.expand_agree (r := r) (d := d) (L := L) p L 0 V rest orbit edges ⟨[], rfl, rfl⟩
          h hV hp
      obtain ⟨_, _, e3, e4⟩ := Orbit.expand_nodes p L 0 V rest
        (SchreierStructure.explicit r d L orbit) (by simpa [SchreierStructure.nodes] using hV)
      rw [h1] at e3 e4
      simp only [Orbit.loop, h1, h2]
      refine ih Q' V' orbit' edges' h3 h4 ?_
      intro x hx
      rcases e4 x hx with h' | h'
      · exact e3 x (hQ x (List.mem_cons_of_mem _ h'))
      · exact h'

/-- For agreeing structures `transversal` returns the same permutation. -/
theorem SchreierStructure.Agree.transversal_eq {r d : Nat} {L : PermSet}
    (hL : ∀ l ∈ L, l.valid ∧ l.degree = d) {orbit : List (Nat × Perm)}
    {edges : List (Nat × Nat × Nat)} (h : SchreierStructure.Agree r d L orbit edges) :
    (SchreierStructure.explicit r d L orbit).nodes = (SchreierStructure.tree r d L edges).nodes ∧
    ∀ p ∈ (SchreierStructure.explicit r d L orbit).nodes,
      (SchreierStructure.explicit r d L orbit).transversal p =
        (SchreierStructure.tree r d L edges).transversal p := by
  refine ⟨h.1, fun p hp => ?_⟩
  obtain ⟨t, n, h1, h2, h3⟩ := h.2 p hp
  have hw := (TreePath.walk hL h3).2 edges.length h2 (Perm.identity d) (Perm.degree_identity d)
  simp only [SchreierStructure.transversal, h1, Option.getD_some, hw, Perm.identity_compose]

/-! ## Sequences of `insert` calls -/

theorem TMORs.inserts_append (r : TMORs) (xs ys : List TaskAllocation) :
    TMORs.inserts r (xs ++ ys) =
      ((TMORs.inserts r xs).1 ++ (TMORs.inserts (TMORs.inserts r xs).2 ys).1,
        (TMORs.inserts (TMORs.inserts r xs).2 ys).2) := by
  induction xs generalizing r with
  | nil => rfl
  | cons x xs ih =>
    show TMORs.inserts r (x :: (xs ++ ys)) = _
    simp only [TMORs.inserts, ih, List.cons_append]

theorem TMORs.length_inserts (r : TMORs) (xs : List TaskAllocation) :
    (TMORs.inserts r xs).1.length = xs.length := by
  induction xs generalizing r with
  | nil => rfl
  | cons x xs ih => simp only [TMORs.inserts, List.length_cons, ih]

theorem TMORs.is_repr_iff_lookup (r : TMORs) (m : TaskAllocation) :
    r.is_repr m = false ↔ r.orbit_reprs.lookup m = none := by
  unfold TMORs.is_repr
  cases r.orbit_reprs.lookup m <;> simp

/-- After a sequence of inserts the registry knows what it knew before and
what was inserted. -/
theorem TMORs.is_repr_inserts (r : TMORs) (xs : List TaskAllocation) (x : TaskAllocation) :
    (TMORs.inserts r xs).2.is_repr x = true ↔ r.is_repr x = true ∨ x ∈ xs := by
  induction xs generalizing r with
  | nil => simp [TMORs.inserts]
  | cons y ys ih =>
    simp only [TMORs.inserts, ih, TMORs.is_repr_insert, List.mem_cons]
    tauto

/-- Inserts only append to the map. -/
theorem TMORs.inserts_extends (r : TMORs) (xs : List TaskAllocation) :
    ∃ extra, (TMORs.inserts r xs).2.orbit_reprs = r.orbit_reprs ++ extra := by
  induction xs generalizing r with
  | nil => exact ⟨[], by simp [TMORs.inserts]⟩
  | cons y ys ih =>
    obtain ⟨extra, h⟩ := ih (r.insert y).2
    simp only [TMORs.inserts, h]
    unfold TMORs.insert
    cases r.orbit_reprs.lookup y with
    | some i => exact ⟨extra, rfl⟩
    | none => exact ⟨(y, r.orbit_reprs.length) :: extra, by simp⟩

theorem TMORs.is_repr_empty (x : TaskAllocation) : TMORs.empty.is_repr x = false := rfl

/-- What `insert` returns for an allocation that is not in the registry. -/
theorem TMORs.insert_new (r : TMORs) (m : TaskAllocation) (h : r.is_repr m = false) :
    r.insert m = ((true, r.num_orbits), ⟨r.orbit_reprs ++ [(m, r.num_orbits)]⟩) := by
  unfold TMORs.insert
  rw [(TMORs.is_repr_iff_lookup r m).1 h]
  rfl

/-- The number of orbits after a sequence of inserts into the empty registry
is the number of distinct allocations inserted. -/
theorem TMORs.num_orbits_inserts (xs : List TaskAllocation) :
    (TMORs.inserts TMORs.empty xs).2.num_orbits = xs.dedup.length := by
  induction xs using List.reverseRecOn with
  | nil => rfl
  | append_singleton xs x ih =>
    rw [TMORs.inserts_append]
    simp only [TMORs.inserts]
    rw [← List.card_toFinset, List.toFinset_append, List.toFinset_cons, List.toFinset_nil]
    by_cases hx : x ∈ xs
    · have hrep : (TMORs.inserts TMORs.empty xs).2.is_repr x = true :=
        (TMORs.is_repr_inserts _ _ _).2 (Or.inr hx)
      have hsame : ((TMORs.inserts TMORs.empty xs).2.insert x).2 =
          (TMORs.inserts TMORs.empty xs).2 := by
        unfold TMORs.insert
        unfold TMORs.is_repr at hrep
        cases hl : (TMORs.inserts TMORs.empty xs).2.orbit_reprs.lookup x with
        | some i => rfl
        | none => rw [hl] at hrep; exact absurd hrep (by simp)
      rw [hsame, ih, ← List.card_toFinset]
      congr 1
      ext y
      simp only [Finset.mem_union, List.mem_toFinset, Finset.mem_insert, Finset.not_mem_empty,
        or_false]
      constructor
      · intro h; exact Or.inl h
      · rintro (h | h)
        · exact h
        · rw [h]; exact hx
    · have hrep : (TMORs.inserts TMORs.empty xs).2.is_repr x = false := by
        cases h : (TMORs.inserts TMORs.empty xs).2.is_repr x with
        | false => rfl
        | true =>
          rcases (TMORs.is_repr_inserts _ _ _).1 h with h' | h'
          · simp [TMORs.is_repr_empty] at h'
          · exact absurd h' hx
      rw [TMORs.insert_new _ _ hrep]
      simp only [TMORs.num_orbits, List.length_append, List.length_singleton] at ih ⊢
      rw [ih, ← List.card_toFinset]
      have : xs.toFinset ∪ Insert.insert x ∅ = Insert.insert x xs.toFinset := by
        ext y
        simp only [Finset.mem_union, List.mem_toFinset, Finset.mem_insert, Finset.not_mem_empty,
          or_false]
        exact or_comm
      rw [this, Finset.card_insert_of_not_mem (by simpa using hx)]

theorem TMORs.insert_fst_iff (r : TMORs) (m : TaskAllocation) :
    (r.insert m).1.1 = true ↔ r.is_repr m = false := by
  unfold TMORs.insert TMORs.is_repr
  cases r.orbit_reprs.lookup m <;> simp

theorem TMORs.is_repr_inserts_empty (xs : List TaskAllocation) (x : TaskAllocation) :
    (TMORs.inserts TMORs.empty xs).2.is_repr x = false ↔ x ∉ xs := by
  constructor
  · intro h hx
    have := (TMORs.is_repr_inserts TMORs.empty xs x).2 (Or.inr hx)
    rw [h] at this
    exact absurd this (by simp)
  · intro hx
    cases h : (TMORs.inserts TMORs.empty xs).2.is_repr x with
    | false => rfl
    | true =>
      rcases (TMORs.is_repr_inserts _ _ _).1 h with h' | h'
      · simp [TMORs.is_repr_empty] at h'
      · exact absurd h' hx

/-- Inserting again an allocation whose first insertion happened after the
inserts `p1` returns the id assigned then and leaves the registry as it is. -/
theorem TMORs.insert_again (p1 p2 : List TaskAllocation) (a : TaskAllocation) (ha : a ∉ p1) :
    (TMORs.inserts TMORs.empty (p1 ++ a :: p2)).2.insert a =
      ((false, (TMORs.inserts TMORs.empty p1).2.num_orbits),
        (TMORs.inserts TMORs.empty (p1 ++ a :: p2)).2) := by
  have hnew := TMORs.insert_new _ a ((TMORs.is_repr_inserts_empty p1 a).2 ha)
  obtain ⟨extra, hext⟩ := TMORs.inserts_extends ((TMORs.inserts TMORs.empty p1).2.insert a).2 p2
  have hstate : (TMORs.inserts TMORs.empty (p1 ++ a :: p2)).2 =
      (TMORs.inserts ((TMORs.inserts TMORs.empty p1).2.insert a).2 p2).2 := by
    rw [TMORs.inserts_append]
    rfl
  have hlook : (TMORs.inserts TMORs.empty (p1 ++ a :: p2)).2.orbit_reprs.lookup a =
      some (TMORs.inserts TMORs.empty p1).2.num_orbits := by
    rw [hstate, hext, hnew]
    simp only [List.lookup_append]
    rw [(TMORs.is_repr_iff_lookup _ a).1 ((TMORs.is_repr_inserts_empty p1 a).2 ha)]
    simp [List.lookup_cons]
  unfold TMORs.insert
  rw [hlook]

/-! ## `min_elem_local_search` -/

theorem applyWord_append (a : TaskAllocation) (o : Nat) (w1 w2 : List Perm) :
    applyWord a o (w1 ++ w2) = applyWord (applyWord a o w1) o w2 := by
  simp [applyWord, List.foldl_append]

theorem InOrbit.applyWord {G : PermGroup} (hG : G.wf) {a : TaskAllocation} {o : Nat} :
    ∀ (w : List Perm) (x : TaskAllocation), InOrbit G a o x → (∀ g ∈ w, g ∈ G.generators) →
      InOrbit G a o (mpsym.applyWord x o w) := by
  intro w
  induction w with
  | nil => intro x hx _; exact hx
  | cons g w ih =>
    intro x hx hw
    exact ih _ (hx.step hG (hw g (List.mem_cons_self _ _)))
      (fun g' hg' => hw g' (List.mem_cons_of_mem _ hg'))

/-- One pass of the local search over the generators `gs`. -/
theorem min_elem_local_search_pass_spec (o : Nat) :
    ∀ (gs : List Perm) (r : TaskAllocation) (st : Bool),
      (∃ w, (∀ g ∈ w, g ∈ gs) ∧ (min_elem_local_search_pass o gs r st).1 = applyWord r o w) ∧
      ((min_elem_local_search_pass o gs r st).1 = r ∨
        lexLt (min_elem_local_search_pass o gs r st).1 r = true) ∧
      ((min_elem_local_search_pass o gs r st).2 = true →
        st = true ∧ (min_elem_local_search_pass o gs r st).1 = r ∧
          ∀ g ∈ gs, lexLt (permuted r g o) r = false) ∧
      ((min_elem_local_search_pass o gs r st).2 = false →
        st = false ∨ lexLt (min_elem_local_search_pass o gs r st).1 r = true) := by
  intro gs
  induction gs with
  | nil =>
    intro r st
    refine ⟨⟨[], by simp, rfl⟩, Or.inl rfl, fun h => ⟨h, rfl, by simp⟩, fun h => Or.inl h⟩
  | cons g gs ih =>
    intro r st
    simp only [min_elem_local_search_pass, less_than]
    by_cases hlt : lexLt (permuted r g o) r = true
    · simp only [hlt, if_true]
      obtain ⟨⟨w, hw1, hw2⟩, h2, h3, _⟩ := ih (permuted r g o) false
      have hless : lexLt (min_elem_local_search_pass o gs (permuted r g o) false).1 r = true := by
        rcases h2 with h | h
        · rw [h]; exact hlt
        · exact lexLt_trans h hlt
      refine ⟨⟨g :: w, ?_, ?_⟩, Or.inr hless, ?_, fun _ => Or.inr hless⟩
      · intro g' hg'
        rcases List.mem_cons.1 hg' with rfl | h
        · exact List.mem_cons_self _ _
        · exact List.mem_cons_of_mem _ (hw1 g' h)
      · rw [hw2]; rfl
      · intro h
        exact absurd (h3 h).1 (by simp)
    · simp only [hlt, Bool.false_eq_true, if_false]
      obtain ⟨⟨w, hw1, hw2⟩, h2, h3, h4⟩ := ih r st
      refine ⟨⟨w, fun g' hg' => List.mem_cons_of_mem _ (hw1 g' hg'), hw2⟩, h2, ?_, h4⟩
      intro h
      obtain ⟨e1, e2, e3⟩ := h3 h
      refine ⟨e1, e2, ?_⟩
      intro g' hg'
      rcases List.mem_cons.1 hg' with rfl | h'
      · exact Bool.eq_false_iff.2 hlt
      · exact e3 g' h'

/-- The `while` loop of the local search ends, at an allocation reached by a
sequence of generators that no generator makes smaller. -/
theorem min_elem_local_search_loop_spec (G : PermGroup) (a : TaskAllocation) (o : Nat)
    (hG : G.wf) :
    ∀ (c : Nat) (r : TaskAllocation), InOrbit G a o r →
      ((orbitList G a o).toFinset.filter (fun x => lexLt x r = true)).card = c →
      ∃ n, ∀ fuel, n ≤ fuel → ∃ res,
        min_elem_local_search_loop G.generators o fuel r = some res ∧
        (∃ w, (∀ g ∈ w, g ∈ G.generators) ∧ res = applyWord r o w) ∧
        ∀ g ∈ G.generators, lexLt (permuted res g o) res = false := by
  intro c
  induction c using Nat.strong_induction_on with
  | _ c ih =>
    intro r hr hc
    obtain ⟨⟨w, hw1, hw2⟩, h2, h3, h4⟩ := min_elem_local_search_pass_spec o G.generators r true
    cases hst : (min_elem_local_search_pass o G.generators r true).2 with
    | true =>
      obtain ⟨_, e2, e3⟩ := h3 hst
      refine ⟨1, fun fuel hf => ⟨r, ?_, ⟨[], by simp, rfl⟩, e3⟩⟩
      obtain ⟨f, rfl⟩ : ∃ f, fuel = f + 1 := ⟨fuel - 1, by omega⟩
      have hpair : min_elem_local_search_pass o G.generators r true = (r, true) :=
        Prod.ext e2 hst
      simp only [min_elem_local_search_loop, hpair]
    | false =>
      have hless : lexLt (min_elem_local_search_pass o G.generators r true).1 r = true := by
        rcases h4 hst with h | h
        · exact absurd h (by simp)
        · exact h
      have hin : InOrbit G a o (min_elem_local_search_pass o G.generators r true).1 := by
        rw [hw2]; exact InOrbit.applyWord hG w r hr hw1
      obtain ⟨n, hn⟩ := ih _ (by
        rw [← hc]
        apply Finset.card_lt_card
        rw [Finset.ssubset_iff_of_subset]
        · refine ⟨(min_elem_local_search_pass o G.generators r true).1, ?_, ?_⟩
          · simp only [Finset.mem_filter, List.mem_toFinset]
            exact ⟨(mem_orbitList hG).2 hin, hless⟩
          · simp [lexLt_irrefl]
        · intro x hx
          simp only [Finset.mem_filter, List.mem_toFinset] at hx ⊢
          exact ⟨hx.1, lexLt_trans hx.2 hless⟩) _ hin rfl
      refine ⟨n + 1, fun fuel hf => ?_⟩
      obtain ⟨f, rfl⟩ : ∃ f, fuel = f + 1 := ⟨fuel - 1, by omega⟩
      obtain ⟨res, e1, ⟨w', hw1', hw2'⟩, e3⟩ := hn f (by omega)
      have hpair : min_elem_local_search_pass o G.generators r true =
          ((min_elem_local_search_pass o G.generators r true).1, false) :=
        Prod.ext rfl hst
      refine ⟨res, ?_, ⟨w ++ w', ?_, ?_⟩, e3⟩
      · simp only [min_elem_local_search_loop]
        rw [hpair]
        exact e1
      · intro g hg
        rcases List.mem_append.1 hg with h | h
        · exact hw1 g h
        · exact hw1' g h
      · rw [applyWord_append, ← hw2, hw2']

/-! ## Element enumeration -/

theorem BSGS.mem_tuples_succ (b : BSGS) (n i : Nat) (t : List Nat) :
    t ∈ b.tuples (n + 1) i ↔ ∃ β ∈ b.orbit i, ∃ r ∈ b.tuples n (i + 1), t = β :: r := by
  simp only [BSGS.tuples, List.mem_flatMap, List.mem_map]
  constructor
  · rintro ⟨β, hβ, r, hr, rfl⟩
    exact ⟨β, hβ, r, hr, rfl⟩
  · rintro ⟨β, hβ, r, hr, rfl⟩
    exact ⟨β, hβ, r, hr, rfl⟩

/-- The tuples of `n` levels from `i` on are the lists of `n` points whose `m`-th
entry lies in the orbit of level `i + m`. -/
theorem BSGS.mem_tuples (b : BSGS) :
    ∀ (n i : Nat) (t : List Nat),
      t ∈ b.tuples n i ↔ t.length = n ∧ ∀ m, m < n → t.getD m 0 ∈ b.orbit (i + m) := by
  intro n
  induction n with
  | zero =>
    intro i t
    simp only [BSGS.tuples, List.mem_singleton]
    constructor
    · rintro rfl
      exact ⟨rfl, fun m hm => absurd hm (by omega)⟩
    · rintro ⟨h, -⟩
      exact List.length_eq_zero.1 h
  | succ n ih =>
    intro i t
    rw [BSGS.mem_tuples_succ]
    constructor
    · rintro ⟨β, hβ, r, hr, rfl⟩
      obtain ⟨h1, h2⟩ := (ih (i + 1) r).1 hr
      refine ⟨by simp [h1], fun m hm => ?_⟩
      cases m with
      | zero => simpa using hβ
      | succ m =>
        have := h2 m (by omega)
        rw [show i + (m + 1) = i + 1 + m by omega]
        simpa using this
    · rintro ⟨h1, h2⟩
      cases t with
      | nil => simp at h1
      | cons β r =>
        refine ⟨β, by simpa using h2 0 (by omega), r, (ih (i + 1) r).2 ⟨by simpa using h1, ?_⟩, rfl⟩
        intro m hm
        have := h2 (m + 1) (by omega)
        rw [show i + (m + 1) = i + 1 + m by omega] at this
        simpa using this

theorem length_flatMap_map {α β γ : Type} (xs : List β) (g : α → β → γ) :
    ∀ l : List α, (l.flatMap (fun a => xs.map (g a))).length = l.length * xs.length := by
  intro l
  induction l with
  | nil => simp
  | cons a l ih =>
    rw [List.flatMap_cons, List.length_append, ih, List.length_map, List.length_cons]
    ring

theorem BSGS.length_tuples (b : BSGS) :
    ∀ (n i acc : Nat),
      (List.range' i n).foldl (fun res k => res * (b.orbit k).length) acc =
        acc * (b.tuples n i).length := by
  intro n
  induction n with
  | zero => intro i acc; simp [BSGS.tuples]
  | succ n ih =>
    intro i acc
    rw [List.range'_succ, List.foldl_cons, ih]
    simp only [BSGS.tuples]
    rw [length_flatMap_map]
    ring

theorem BSGS.length_elements (b : BSGS) : b.elements.length = b.order := by
  unfold BSGS.elements BSGS.order
  rw [List.length_map, List.range_eq_range', BSGS.length_tuples, one_mul]

theorem BSGS.nodup_tuples (b : BSGS) (hb : b.Chain) :
    ∀ (n i : Nat), i + n ≤ b.base_size → (b.tuples n i).Nodup := by
  intro n
  induction n with
  | zero => intro i _; simp [BSGS.tuples]
  | succ n ih =>
    intro i hi
    simp only [BSGS.tuples]
    rw [List.nodup_flatMap]
    refine ⟨fun β _ => ?_, ?_⟩
    · exact (ih (i + 1) (by omega)).map (fun x y h => (List.cons.inj h).2)
    · refine List.Pairwise.imp ?_ (hb i (by omega)).2.1
      intro β1 β2 hne
      intro t h1 h2
      obtain ⟨r1, _, rfl⟩ := List.mem_map.1 h1
      obtain ⟨r2, _, e⟩ := List.mem_map.1 h2
      exact hne (List.cons.inj e).1.symm

/-- The product of a tuple of the levels from `i` on is a permutation of the
domain that fixes the base points before `i`. -/
theorem BSGS.tuple_product_spec (b : BSGS) (hb : b.Chain) :
    ∀ (n i : Nat) (t : List Nat), i + n ≤ b.base_size → t ∈ b.tuples n i →
      (b.tuple_product i t).valid ∧ (b.tuple_product i t).degree = b.degree ∧
      ∀ j, j < i → (b.tuple_product i t).apply (b.base_point j) = b.base_point j := by
  intro n
  induction n with
  | zero =>
    intro i t _ ht
    simp only [BSGS.tuples, List.mem_singleton] at ht
    subst ht
    exact ⟨Perm.valid_identity _, Perm.degree_identity _, fun j _ => Perm.apply_identity _ _⟩
  | succ n ih =>
    intro i t hi ht
    obtain ⟨β, hβ, r, hr, rfl⟩ := (BSGS.mem_tuples_succ b n i t).1 ht
    obtain ⟨v1, d1, f1⟩ := ih (i + 1) r (by omega) hr
    obtain ⟨-, -, hT⟩ := hb i (by omega)
    obtain ⟨v2, d2, -, f2⟩ := hT β hβ
    have hd : (b.transversal i β).degree = (b.tuple_product (i + 1) r).degree := by
      rw [d1, d2]
    refine ⟨Perm.valid_compose v2 v1 hd, by simp only [BSGS.tuple_product, Perm.degree_compose, d1],
      fun j hj => ?_⟩
    simp only [BSGS.tuple_product]
    rw [Perm.compose_apply _ _ hd, f1 j (by omega), f2 j hj]

theorem Perm.compose_left_cancel {a x y : Perm} (ha : a.valid)
    (h : Perm.compose a x = Perm.compose a y) : x = y := by
  have h2 := congrArg (Perm.compose (Perm.inverse a)) h
  rw [← Perm.compose_assoc _ _ _ (Perm.degree_inverse a), ← Perm.compose_assoc _ _ _
    (Perm.degree_inverse a), Perm.inverse_compose ha, Perm.identity_compose,
    Perm.identity_compose] at h2
  exact h2

/-- Distinct base-image tuples have distinct products. -/
theorem BSGS.tuple_product_inj (b : BSGS) (hb : b.Chain) :
    ∀ (n i : Nat), i + n ≤ b.base_size →
      ∀ t1 ∈ b.tuples n i, ∀ t2 ∈ b.tuples n i,
        b.tuple_product i t1 = b.tuple_product i t2 → t1 = t2 := by
  intro n
  induction n with
  | zero =>
    intro i _ t1 h1 t2 h2 _
    simp only [BSGS.tuples, List.mem_singleton] at h1 h2
    rw [h1, h2]
  | succ n ih =>
    intro i hi t1 h1 t2 h2 he
    obtain ⟨β1, hβ1, r1, hr1, rfl⟩ := (BSGS.mem_tuples_succ b n i t1).1 h1
    obtain ⟨β2, hβ2, r2, hr2, rfl⟩ := (BSGS.mem_tuples_succ b n i t2).1 h2
    obtain ⟨v1, d1, f1⟩ := BSGS.tuple_product_spec b hb n (i + 1) r1 (by omega) hr1
    obtain ⟨v2, d2, f2⟩ := BSGS.tuple_product_spec b hb n (i + 1) r2 (by omega) hr2
    obtain ⟨-, -, hT⟩ := hb i (by omega)
    obtain ⟨tv1, td1, ta1, -⟩ := hT β1 hβ1
    obtain ⟨tv2, td2, ta2, -⟩ := hT β2 hβ2
    simp only [BSGS.tuple_product] at he
    have hβ : β1 = β2 := by
      have h := congrArg (fun p => Perm.apply p (b.base_point i)) he
      simp only at h
      rw [Perm.compose_apply _ _ (by rw [td1, d1]), Perm.compose_apply _ _ (by rw [td2, d2]),
        f1 i (by omega), f2 i (by omega), ta1, ta2] at h
      exact h
    subst hβ
    have hr : b.tuple_product (i + 1) r1 = b.tuple_product (i + 1) r2 :=
      Perm.compose_left_cancel tv1 he
    rw [ih (i + 1) (by omega) r1 hr1 r2 hr2 hr]

theorem BSGS.elements_nodup (b : BSGS) (hb : b.Chain) : b.elements.Nodup :=
  List.Nodup.map_on (BSGS.tuple_product_inj b hb b.base_size 0 (by omega))
    (BSGS.nodup_tuples b hb b.base_size 0 (by omega))

/-! ## Sign -/

theorem Perm.toFun_val {d : Nat} {p : Perm} (hv : p.valid) (hd : p.degree = d) (i : Fin d) :
    (Perm.toFun d p i).1 + 1 = p.apply (i.1 + 1) := by
  have h := Perm.apply_range hv (x := i.1 + 1) (by omega) (by have := i.2; omega)
  have hlt : p.apply (i.1 + 1) - 1 < d := by omega
  simp only [Perm.toFun, dif_pos hlt]
  omega

theorem Perm.toEquiv_apply {d : Nat} {p : Perm} (hv : p.valid) (hd : p.degree = d) (i : Fin d) :
    Perm.toEquiv d p i = Perm.toFun d p i := by
  have h : (∀ i, Perm.toFun d p.inverse (Perm.toFun d p i) = i) ∧
      (∀ i, Perm.toFun d p (Perm.toFun d p.inverse i) = i) := by
    have hvi := Perm.valid_inverse hv
    have hdi : p.inverse.degree = d := by rw [Perm.degree_inverse, hd]
    constructor
    · intro i
      apply Fin.ext
      have h1 := Perm.toFun_val hvi hdi (Perm.toFun d p i)
      rw [Perm.toFun_val hv hd i, Perm.inverse_apply hv (by omega) (by have := i.2; omega)] at h1
      omega
    · intro i
      apply Fin.ext
      have h1 := Perm.toFun_val hv hd (Perm.toFun d p.inverse i)
      rw [Perm.toFun_val hvi hdi i, Perm.apply_inverse hv (by omega) (by have := i.2; omega)] at h1
      omega
  unfold Perm.toEquiv
  rw [dif_pos h]
  rfl

theorem Perm.toEquiv_val {d : Nat} {p : Perm} (hv : p.valid) (hd : p.degree = d) (i : Fin d) :
    (Perm.toEquiv d p i).1 + 1 = p.apply (i.1 + 1) := by
  rw [Perm.toEquiv_apply hv hd, Perm.toFun_val hv hd]

theorem Perm.toEquiv_identity (d : Nat) : Perm.toEquiv d (Perm.identity d) = 1 := by
  apply Equiv.ext
  intro i
  apply Fin.ext
  have h := Perm.toEquiv_val (Perm.valid_identity d) (Perm.degree_identity d) i
  rw [Perm.apply_identity] at h
  simp only [Equiv.Perm.coe_one, id_eq]
  omega

theorem Perm.toEquiv_compose {d : Nat} {a b : Perm} (ha : a.valid) (hb : b.valid)
    (hda : a.degree = d) (hdb : b.degree = d) :
    Perm.toEquiv d (Perm.compose a b) = Perm.toEquiv d a * Perm.toEquiv d b := by
  apply Equiv.ext
  intro i
  apply Fin.ext
  have h := Perm.toEquiv_val (Perm.valid_compose ha hb (by rw [hda, hdb]))
    (by rw [Perm.degree_compose, hdb]) i
  rw [Perm.compose_apply _ _ (by rw [hda, hdb]), ← Perm.toEquiv_val hb hdb i,
    ← Perm.toEquiv_val ha hda] at h
  simp only [Equiv.Perm.coe_mul, Function.comp_apply]
  omega

theorem Perm.toEquiv_inverse {d : Nat} {a : Perm} (ha : a.valid) (hda : a.degree = d) :
    Perm.toEquiv d (Perm.inverse a) = (Perm.toEquiv d a)⁻¹ := by
  apply eq_inv_of_mul_eq_one_left
  rw [← Perm.toEquiv_compose (Perm.valid_inverse ha) ha (by rw [Perm.degree_inverse, hda]) hda,
    Perm.inverse_compose ha, hda, Perm.toEquiv_identity]

theorem Perm.sign_eq {d : Nat} {p : Perm} (hd : p.degree = d) :
    p.sign = ((Equiv.Perm.sign (Perm.toEquiv d p) : ℤˣ) : Int) := by
  subst hd
  rfl

theorem Perm.sign_identity (d : Nat) : (Perm.identity d).sign = 1 := by
  rw [Perm.sign_eq (Perm.degree_identity d), Perm.toEquiv_identity]
  simp

theorem Perm.sign_compose {d : Nat} {a b : Perm} (ha : a.valid) (hb : b.valid)
    (hda : a.degree = d) (hdb : b.degree = d) :
    (Perm.compose a b).sign = a.sign * b.sign := by
  rw [Perm.sign_eq (d := d) (by rw [Perm.degree_compose, hdb]), Perm.sign_eq hda,
    Perm.sign_eq hdb, Perm.toEquiv_compose ha hb hda hdb]
  simp

theorem Perm.sign_inverse {d : Nat} {a : Perm} (ha : a.valid) (hda : a.degree = d) :
    (Perm.inverse a).sign = a.sign := by
  rw [Perm.sign_eq (d := d) (by rw [Perm.degree_inverse, hda]), Perm.sign_eq hda,
    Perm.toEquiv_inverse ha hda]
  simp

/-- Every element of a group generated by even permutations is even. -/
theorem Generated.sign_one {d : Nat} {S : PermSet}
    (hS : ∀ g ∈ S, g.valid ∧ g.degree = d ∧ g.sign = 1) {p : Perm} (hp : Generated d S p) :
    p.valid ∧ p.degree = d ∧ p.sign = 1 := by
  induction hp with
  | one => exact ⟨Perm.valid_identity d, Perm.degree_identity d, Perm.sign_identity d⟩
  | gen hg => exact hS _ hg
  | mul _ _ iha ihb =>
    obtain ⟨va, da, sa⟩ := iha
    obtain ⟨vb, db, sb⟩ := ihb
    exact ⟨Perm.valid_compose va vb (by rw [da, db]), by rw [Perm.degree_compose, db],
      by rw [Perm.sign_compose va vb da db, sa, sb]; rfl⟩
  | inv _ iha =>
    obtain ⟨va, da, sa⟩ := iha
    exact ⟨Perm.valid_inverse va, by rw [Perm.degree_inverse, da],
      by rw [Perm.sign_inverse va da, sa]⟩

/-! ## Product-replacement randomizer -/

theorem getD_mem_or_default {α : Type} (l : List α) (i : Nat) (x : α) :
    l.getD i x ∈ l ∨ l.getD i x = x := by
  by_cases h : i < l.length
  · left
    rw [List.getD_eq_getElem _ _ h]
    exact List.getElem_mem h
  · right
    exact List.getD_eq_default _ _ (by omega)

theorem PrRandomizer.InGroup.getD {S : PermSet} {pr : PrRandomizer} (h : pr.InGroup S)
    (i : Nat) : Generated S.degree S (pr.tape.getD i (Perm.identity pr.degree)) := by
  rcases getD_mem_or_default pr.tape i (Perm.identity pr.degree) with hm | he
  · exact h.2.1 _ hm
  · rw [he, h.1]
    exact Generated.one

theorem PrRandomizer.InGroup.after_step {S : PermSet} {pr : PrRandomizer} (h : pr.InGroup S) :
    pr.step.InGroup S := by
  have hx := h.getD (pr.rnd pr.pos).i
  have hy := h.getD (pr.rnd pr.pos).j
  have hy' : Generated S.degree S
      (if (pr.rnd pr.pos).inverse then
        Perm.inverse (pr.tape.getD (pr.rnd pr.pos).j (Perm.identity pr.degree))
      else pr.tape.getD (pr.rnd pr.pos).j (Perm.identity pr.degree)) := by
    split
    · exact Generated.inv hy
    · exact hy
  have hx' : Generated S.degree S
      (if (pr.rnd pr.pos).right then
        Perm.compose (pr.tape.getD (pr.rnd pr.pos).i (Perm.identity pr.degree))
          (if (pr.rnd pr.pos).inverse then
            Perm.inverse (pr.tape.getD (pr.rnd pr.pos).j (Perm.identity pr.degree))
          else pr.tape.getD (pr.rnd pr.pos).j (Perm.identity pr.degree))
      else
        Perm.compose
          (if (pr.rnd pr.pos).inverse then
            Perm.inverse (pr.tape.getD (pr.rnd pr.pos).j (Perm.identity pr.degree))
          else pr.tape.getD (pr.rnd pr.pos).j (Perm.identity pr.degree))
          (pr.tape.getD (pr.rnd pr.pos).i (Perm.identity pr.degree))) := by
    split
    · exact Generated.mul hx hy'
    · exact Generated.mul hy' hx
  refine ⟨h.1, ?_, ?_⟩
  · intro t ht
    simp only [PrRandomizer.step] at ht
    rcases List.mem_or_eq_of_mem_set ht with hm | rfl
    · exact h.2.1 t hm
    · exact hx'
  · simp only [PrRandomizer.step]
    split
    · next hr =>
      rw [if_pos hr] at hx'
      exact Generated.mul h.2.2 hx'
    · next hr =>
      rw [if_neg hr] at hx'
      exact Generated.mul hx' h.2.2

theorem PrRandomizer.seed_inGroup (S : PermSet) (rnd : Nat → PrChoice) :
    (PrRandomizer.seed S rnd).InGroup S := by
  refine ⟨rfl, ?_, Generated.one⟩
  intro t ht
  simp only [PrRandomizer.seed, List.mem_map] at ht
  obtain ⟨k, _, rfl⟩ := ht
  rcases getD_mem_or_default S (k % S.length) (Perm.identity S.degree) with hm | he
  · exact Generated.gen hm
  · rw [he]
    exact Generated.one

theorem PrRandomizer.iterate_inGroup {S : PermSet} :
    ∀ (k : Nat) (pr : PrRandomizer), pr.InGroup S →
      (Nat.iterate PrRandomizer.step k pr).InGroup S := by
  intro k
  induction k with
  | zero => intro pr h; exact h
  | succ k ih =>
    intro pr h
    rw [Function.iterate_succ_apply]
    exact ih _ h.after_step

theorem PrRandomizer.create_inGroup (S : PermSet) (rnd : Nat → PrChoice) :
    (PrRandomizer.create S rnd).InGroup S :=
  PrRandomizer.iterate_inGroup 50 _ (PrRandomizer.seed_inGroup S rnd)

theorem PrRandomizer.InGroup.after_next {S : PermSet} {pr : PrRandomizer} (h : pr.InGroup S) :
    Generated S.degree S pr.next.1 ∧ pr.next.2.InGroup S := by
  refine ⟨?_, h.after_step⟩
  simp only [PrRandomizer.next]
  have h0 := h.after_step.getD 0
  exact Generated.mul h.after_step.2.2 h0

theorem PrRandomizer.InGroup.draw {S : PermSet} :
    ∀ (k : Nat) (pr : PrRandomizer), pr.InGroup S →
      (∀ p ∈ (pr.draw k).1, Generated S.degree S p) ∧ (pr.draw k).2.InGroup S := by
  intro k
  induction k with
  | zero =>
    intro pr h
    exact ⟨fun p hp => by simp [PrRandomizer.draw] at hp, h⟩
  | succ k ih =>
    intro pr h
    obtain ⟨h1, h2⟩ := ih _ h.after_next.2
    refine ⟨?_, h2⟩
    intro p hp
    simp only [PrRandomizer.draw, List.mem_cons] at hp
    rcases hp with rfl | hp
    · exact h.after_next.1
    · exact h1 p hp

/-- Samples drawn from even generators contain no odd permutation, so
`test_symmetric` fails. -/
theorem PrRandomizer.test_symmetric_even {S : PermSet} {pr : PrRandomizer} (h : pr.InGroup S)
    (hS : ∀ g ∈ S, g.valid ∧ g.degree = S.degree ∧ g.sign = 1) (runs : Nat) :
    (pr.test_symmetric runs).1 = false := by
  simp only [PrRandomizer.test_symmetric, Bool.and_eq_false_imp, List.any_eq_true, beq_iff_eq]
  rintro ⟨p, hp, hs⟩
  have := (Generated.sign_one hS ((PrRandomizer.InGroup.draw runs pr h).1 p hp)).2.2
  rw [this] at hs
  exact absurd hs (by decide)

/-! ## The constructor -/

theorem BSGS.create_trivial (alg : Algorithms) (rnd : Nat → PrChoice) (d : Nat) (gens : PermSet)
    (opts : BSGSOptions) (hd : 0 < d) (ht : gens.trivial = true) :
    BSGS.create alg rnd d gens opts = Except.ok (BSGS.blank d) := by
  unfold BSGS.create
  rw [if_neg (by omega), if_pos ht]

theorem BSGS.create_shallow (alg : Algorithms) (rnd : Nat → PrChoice) (d : Nat) (gens : PermSet)
    (opts : BSGSOptions) (hd : 0 < d) (ht : gens.trivial = false)
    (hdeg : gens.assert_degree d = true)
    (hs : opts.transversals = Transversals.SHALLOW_SCHREIER_TREES) :
    BSGS.create alg rnd d gens opts = Except.error Error.unsupported := by
  unfold BSGS.create
  rw [if_neg (by omega), if_neg (by simp [ht]), if_neg (by simp [hdeg]), hs]

theorem BSGS.strips_completely_blank (mul : Perm → Perm → Perm) (d : Nat) (σ : Perm) :
    BSGS.strips_completely mul (BSGS.blank d) σ = true ↔ σ = Perm.identity σ.degree := by
  simp [BSGS.strips_completely, BSGS.strip, BSGS.strip_loop, BSGS.blank, BSGS.base_size,
    Perm.id_iff]

/-! ## Automorphism oracle wrapper -/

theorem foldl_save_gens_mem (nr : Nat) :
    ∀ (raws : List (List Nat)) (gens : PermSet) (q : Perm),
      q ∈ raws.foldl (_save_gens nr) gens ↔
        q ∈ gens ∨ ∃ p ∈ raws, q = ⟨(List.range nr).map (fun i => p.getD i 0 + 1)⟩ := by
  intro raws
  induction raws with
  | nil => intro gens q; simp
  | cons p raws ih =>
    intro gens q
    rw [List.foldl_cons, ih, _save_gens, PermSet.mem_insert]
    simp only [List.mem_cons, exists_eq_or_imp]
    tauto

theorem translated_degree (nr : Nat) (p : List Nat) :
    (⟨(List.range nr).map (fun i => p.getD i 0 + 1)⟩ : Perm).degree = nr := by
  simp [Perm.degree]

theorem translated_apply (nr : Nat) (p : List Nat) {i : Nat} (hi : i < nr) :
    (⟨(List.range nr).map (fun i => p.getD i 0 + 1)⟩ : Perm).apply (i + 1) = p.getD i 0 + 1 := by
  rw [Perm.apply_succ_lt _ (by simpa using hi)]
  simp

/-- The translation of an array that maps `[0, nr)` onto itself is a
permutation. -/
theorem translated_valid (nr : Nat) (p : List Nat) (hin : ∀ i, i < nr → p.getD i 0 < nr)
    (honto : ∀ j, j < nr → ∃ i, i < nr ∧ p.getD i 0 = j) :
    (⟨(List.range nr).map (fun i => p.getD i 0 + 1)⟩ : Perm).valid := by
  constructor
  · have hsub : List.range' 1 nr ⊆ (List.range nr).map (fun i => p.getD i 0 + 1) := by
      intro y hy
      rw [List.mem_range'_1] at hy
      obtain ⟨i, hi, he⟩ := honto (y - 1) (by omega)
      exact List.mem_map.2 ⟨i, List.mem_range.2 hi, by simp only [he]; omega⟩
    have hsp := List.subperm_of_subset (List.nodup_range' 1 nr) hsub
    have hperm := hsp.perm_of_length_le (by simp)
    exact hperm.nodup_iff.1 (List.nodup_range' 1 nr)
  · intro x hx
    simp only [List.mem_map, List.mem_range] at hx
    obtain ⟨i, hi, rfl⟩ := hx
    have := hin i hi
    simp only [List.length_map, List.length_range]
    omega

theorem NautyGraph.add_edges_no_targets (G : NautyGraph) :
    ∀ adj : List (Nat × List Nat), adj.all (fun p => p.2.isEmpty) = true →
      G.add_edges adj = Except.ok G := by
  intro adj
  induction adj with
  | nil => intro _; rfl
  | cons p adj ih =>
    intro h
    simp only [List.all_cons, Bool.and_eq_true, List.isEmpty_iff] at h
    simp only [NautyGraph.add_edges, h.1, NautyGraph.add_edges_from]
    exact ih h.2

theorem NautyGraph.run_no_edge :
    ∀ (calls : List NautyCall) (G : NautyGraph), G.edges = [] →
      (∀ c ∈ calls, c.adds_no_edge = true) →
      ∃ G', G.run calls = Except.ok G' ∧ G'.edges = [] ∧ G'.n = G.n ∧
        G'.n_reduced = G.n_reduced ∧ G'.directed = G.directed ∧
        G'.effectively_directed = G.effectively_directed := by
  intro calls
  induction calls with
  | nil => intro G hG _; exact ⟨G, rfl, hG, rfl, rfl, rfl, rfl⟩
  | cons c calls ih =>
    intro G hG h
    have hc := h c (List.mem_cons_self _ _)
    have hrest : ∀ c' ∈ calls, c'.adds_no_edge = true :=
      fun c' hc' => h c' (List.mem_cons_of_mem _ hc')
    cases c with
    | add_edge u v => simp [NautyCall.adds_no_edge] at hc
    | add_edges adj =>
      simp only [NautyGraph.run, NautyGraph.add_edges_no_targets G adj hc]
      exact ih G hG hrest
    | set_partition ptn =>
      simp only [NautyGraph.run]
      exact ih (G.set_partition ptn) hG hrest

theorem NautyGraph.automorphism_generators_no_edge (oracle : NautyOracle) (G : NautyGraph)
    (h : G.edges = []) : G.automorphism_generators oracle = [] := by
  simp [NautyGraph.automorphism_generators, h]

/-! ## Rebuilding a level -/

/-- For an index below the size, the assertion `i == size` after the swap
fails. -/
theorem BSGSTransversalsBase.update_existing (v : Variant) (sss : List SchreierStructure)
    (i root degree : Nat) (generators : PermSet) (hi : i < sss.length) :
    BSGSTransversalsBase.update_schreier_structure v sss i root degree generators =
      Except.error Error.assertion ∨
    BSGSTransversalsBase.update_schreier_structure v sss i root degree generators =
      Except.error Error.fuel := by
  unfold BSGSTransversalsBase.update_schreier_structure
  cases Orbit.generate root generators (make_schreier_structure v root degree generators) with
  | none => exact Or.inr rfl
  | some ss =>
    left
    simp only [hi, if_true, List.length_set]
    rw [if_neg (by omega)]

/-- Without the assertion, the call for an index below the size puts the new
structure at the index and appends the old one. -/
theorem BSGSTransversalsBase.update_existing_ndebug (v : Variant)
    (sss : List SchreierStructure) (i root degree : Nat) (generators : PermSet)
    (hi : i < sss.length) (r : List SchreierStructure)
    (h : BSGSTransversalsBase.update_schreier_structure_ndebug v sss i root degree generators =
      Except.ok r) :
    r.length = sss.length + 1 ∧ r.get? sss.length = sss.get? i := by
  unfold BSGSTransversalsBase.update_schreier_structure_ndebug at h
  cases hg : Orbit.generate root generators
      (make_schreier_structure v root degree generators) with
  | none => rw [hg] at h; cases h
  | some ss =>
    rw [hg] at h
    simp only [hi, if_true] at h
    injection h with h
    subst h
    constructor
    · simp
    · rw [List.get?_eq_getElem?, List.get?_eq_getElem?,
        List.getElem?_append_right (by simp), List.length_set, Nat.sub_self,
        List.getD_eq_getElem _ _ hi, List.getElem?_eq_getElem hi]
      rfl

/-! ## Termination of the local search -/

/-- The number of passes of the local search is at most one more than the
number of orbit elements below the starting allocation. -/
theorem min_elem_local_search_loop_terminates (G : PermGroup) (a : TaskAllocation) (o : Nat)
    (hG : G.wf) :
    ∀ (c : Nat) (r : TaskAllocation), InOrbit G a o r →
      ((orbitList G a o).toFinset.filter (fun x => lexLt x r = true)).card ≤ c →
      ∀ fuel, c + 1 ≤ fuel → ∃ res,
        min_elem_local_search_loop G.generators o fuel r = some res := by
  intro c
  induction c with
  | zero =>
    intro r hr hc fuel hf
    obtain ⟨f, rfl⟩ : ∃ f, fuel = f + 1 := ⟨fuel - 1, by omega⟩
    obtain ⟨⟨w, hw1, hw2⟩, _, _, h4⟩ := min_elem_local_search_pass_spec o G.generators r true
    cases hst : (min_elem_local_search_pass o G.generators r true).2 with
    | true =>
      refine ⟨(min_elem_local_search_pass o G.generators r true).1, ?_⟩
      have hpair : min_elem_local_search_pass o G.generators r true =
          ((min_elem_local_search_pass o G.generators r true).1, true) := Prod.ext rfl hst
      simp only [min_elem_local_search_loop]
      rw [hpair]
    | false =>
      exfalso
      have hless : lexLt (min_elem_local_search_pass o G.generators r true).1 r = true := by
        rcases h4 hst with h | h
        · exact absurd h (by simp)
        · exact h
      have hin : InOrbit G a o (min_elem_local_search_pass o G.generators r true).1 := by
        rw [hw2]; exact InOrbit.applyWord hG w r hr hw1
      have hmem : (min_elem_local_search_pass o G.generators r true).1 ∈
          (orbitList G a o).toFinset.filter (fun x => lexLt x r = true) := by
        simp only [Finset.mem_filter, List.mem_toFinset]
        exact ⟨(mem_orbitList hG).2 hin, hless⟩
      have := Finset.card_pos.2 ⟨_, hmem⟩
      omega
  | succ c ih =>
    intro r hr hc fuel hf
    obtain ⟨f, rfl⟩ : ∃ f, fuel = f + 1 := ⟨fuel - 1, by omega⟩
    obtain ⟨⟨w, hw1, hw2⟩, _, _, h4⟩ := min_elem_local_search_pass_spec o G.generators r true
    cases hst : (min_elem_local_search_pass o G.generators r true).2 with
    | true =>
      refine ⟨(min_elem_local_search_pass o G.generators r true).1, ?_⟩
      have hpair : min_elem_local_search_pass o G.generators r true =
          ((min_elem_local_search_pass o G.generators r true).1, true) := Prod.ext rfl hst
      simp only [min_elem_local_search_loop]
      rw [hpair]
    | false =>
      have hless : lexLt (min_elem_local_search_pass o G.generators r true).1 r = true := by
        rcases h4 hst with h | h
        · exact absurd h (by simp)
        · exact h
      have hin : InOrbit G a o (min_elem_local_search_pass o G.generators r true).1 := by
        rw [hw2]; exact InOrbit.applyWord hG w r hr hw1
      have hlt : ((orbitList G a o).toFinset.filter (fun x =>
          lexLt x (min_elem_local_search_pass o G.generators r true).1 = true)).card <
          ((orbitList G a o).toFinset.filter (fun x => lexLt x r = true)).card := by
        apply Finset.card_lt_card
        rw [Finset.ssubset_iff_of_subset]
        · refine ⟨(min_elem_local_search_pass o G.generators r true).1, ?_, ?_⟩
          · simp only [Finset.mem_filter, List.mem_toFinset]
            exact ⟨(mem_orbitList hG).2 hin, hless⟩
          · simp [lexLt_irrefl]
        · intro x hx
          simp only [Finset.mem_filter, List.mem_toFinset] at hx ⊢
          exact ⟨hx.1, lexLt_trans hx.2 hless⟩
      obtain ⟨res, hres⟩ := ih _ hin (by omega) f (by omega)
      have hpair : min_elem_local_search_pass o G.generators r true =
          ((min_elem_local_search_pass o G.generators r true).1, false) := Prod.ext rfl hst
      refine ⟨res, ?_⟩
      simp only [min_elem_local_search_loop]
      rw [hpair]
      exact hres

theorem card_below_le (G : PermGroup) (a : TaskAllocation) (o : Nat) (r : TaskAllocation) :
    ((orbitList G a o).toFinset.filter (fun x => lexLt x r = true)).card ≤
      (orbitList G a o).length :=
  le_trans (Finset.card_filter_le _ _) (List.toFinset_card_le _)

/-! ## The representative is not above the input -/

theorem min_elem_iterate_loop_le (tasks : TaskAllocation) (o : Nat) (orbits : Option TMORs) :
    ∀ (elems : List Perm) (rep : TaskAllocation), lexLt tasks rep = false →
      lexLt tasks (min_elem_iterate_loop tasks o orbits elems rep) = false := by
  intro elems
  induction elems with
  | nil => intro rep h; exact h
  | cons e elems ih =>
    intro rep h
    simp only [min_elem_iterate_loop, less_than]
    by_cases hlt : lexLt (permuted tasks e o) rep = true
    · have hle : lexLt tasks (permuted tasks e o) = false := by
        cases hc : lexLt tasks (permuted tasks e o) with
        | false => rfl
        | true =>
          have := lexLt_trans hc hlt
          rw [h] at this
          exact absurd this (by decide)
      simp only [hlt, if_true]
      split
      · exact hle
      · exact ih _ hle
    · simp only [hlt, Bool.false_eq_true, if_false]
      exact ih _ h

theorem min_elem_iterate_le (G : PermGroup) (a : TaskAllocation) (o : Nat)
    (orbits : Option TMORs) : lexLt a (min_elem_iterate G a o orbits) = false :=
  min_elem_iterate_loop_le a o orbits G.elements a (lexLt_irrefl a)

theorem min_elem_local_search_loop_le (gens : PermSet) (o : Nat) :
    ∀ (fuel : Nat) (r res : TaskAllocation),
      min_elem_local_search_loop gens o fuel r = some res → lexLt r res = false := by
  intro fuel
  induction fuel with
  | zero => intro r res h; simp [min_elem_local_search_loop] at h
  | succ fuel ih =>
    intro r res h
    obtain ⟨_, h2, _, _⟩ := min_elem_local_search_pass_spec o gens r true
    have hle : lexLt r (min_elem_local_search_pass o gens r true).1 = false := by
      rcases h2 with e | e
      · rw [e]; exact lexLt_irrefl r
      · exact lexLt_asymm e
    simp only [min_elem_local_search_loop] at h
    cases hst : (min_elem_local_search_pass o gens r true).2 with
    | true =>
      have hpair : min_elem_local_search_pass o gens r true =
          ((min_elem_local_search_pass o gens r true).1, true) := Prod.ext rfl hst
      rw [hpair] at h
      simp only [Option.some.injEq] at h
      rw [← h]
      exact hle
    | false =>
      have hpair : min_elem_local_search_pass o gens r true =
          ((min_elem_local_search_pass o gens r true).1, false) := Prod.ext rfl hst
      rw [hpair] at h
      exact lexLt_le_trans (ih _ res h) hle

/-! ## `strip` fixes the base points it has passed -/

theorem Perm.inverse_apply_fixed {p : Perm} (hv : p.valid) {x : Nat} (h1 : 1 ≤ x)
    (h2 : x ≤ p.degree) (hfix : p.apply x = x) : (Perm.inverse p).apply x = x := by
  have := Perm.inverse_apply hv h1 h2
  rw [hfix] at this
  exact this

/-- The loop of `strip`, with the product that applies the left factor first:
the levels from `offs` on that were passed hold base points that the result
fixes. -/
theorem BSGS.strip_loop_passed (b : BSGS)
    (hbase : ∀ i, i < b.base_size → 1 ≤ b.base_point i ∧ b.base_point i ≤ b.degree)
    (hT : ∀ i, i < b.base_size → ∀ p ∈ b.orbit i,
      (b.transversal i p).valid ∧ (b.transversal i p).degree = b.degree ∧
      (b.transversal i p).apply (b.base_point i) = p ∧
      ∀ m, m < i → (b.transversal i p).apply (b.base_point m) = b.base_point m)
    (offs : Nat) :
    ∀ (n i : Nat) (result : Perm), i + n = b.base_size → offs ≤ i →
      result.degree = b.degree →
      (∀ m, offs ≤ m → m < i → result.apply (b.base_point m) = b.base_point m) →
      ∀ m, offs ≤ m → m + 1 < (BSGS.strip_loop Perm.mul_left_first b n i result).2 →
        (BSGS.strip_loop Perm.mul_left_first b n i result).1.apply (b.base_point m) =
          b.base_point m := by
  intro n
  induction n with
  | zero =>
    intro i result hi _ _ hfix m hm1 hm2
    simp only [BSGS.strip_loop] at hm2 ⊢
    exact hfix m hm1 (by omega)
  | succ n ih =>
    intro i result hi ho hd hfix m hm1 hm2
    simp only [BSGS.strip_loop] at hm2 ⊢
    by_cases hc : (b.schreier_structure i).contains (result.apply (b.base_point i)) = true
    · simp only [hc, Bool.not_true, Bool.false_eq_true, if_false] at hm2 ⊢
      have hmem : result.apply (b.base_point i) ∈ b.orbit i := by
        simpa [SchreierStructure.contains, BSGS.orbit] using hc
      obtain ⟨tv, td, ta, tf⟩ := hT i (by omega) _ hmem
      have hbi := hbase i (by omega)
      have hdeg : (Perm.inverse (b.transversal i (result.apply (b.base_point i)))).degree =
          result.degree := by rw [Perm.degree_inverse, td, hd]
      refine ih (i + 1) _ (by omega) (by omega) ?_ ?_ m hm1 hm2
      · simp only [Perm.mul_left_first, Perm.degree_compose, hd]
      · intro m' h1 h2
        show (Perm.compose (Perm.inverse (b.transversal i (result.apply (b.base_point i))))
          result).apply (b.base_point m') = b.base_point m'
        rw [Perm.compose_apply _ _ hdeg]
        by_cases hmi : m' = i
        · subst hmi
          have := Perm.inverse_apply tv (x := b.base_point m') hbi.1 (by rw [td]; exact hbi.2)
          rw [ta] at this
          exact this
        · have hlt : m' < i := by omega
          rw [hfix m' h1 hlt]
          have hbm := hbase m' (by omega)
          exact Perm.inverse_apply_fixed tv hbm.1 (by rw [td]; exact hbm.2) (tf m' hlt)
    · simp only [hc, Bool.not_false, if_true] at hm2 ⊢
      exact hfix m hm1 (by omega)

/-! ## The level invariant on the fast paths -/

theorem mem_foldl_filter_insert (c : Perm → Bool) :
    ∀ (S acc : PermSet) (x : Perm),
      x ∈ S.foldl (fun ret sg => if c sg then PermSet.insert ret sg else ret) acc ↔
        x ∈ acc ∨ (x ∈ S ∧ c x = true) := by
  intro S
  induction S with
  | nil => intro acc x; simp
  | cons s S ih =>
    intro acc x
    rw [List.foldl_cons, ih]
    by_cases hc : c s = true
    · simp only [hc, if_true, PermSet.mem_insert, List.mem_cons]
      constructor
      · rintro ((h | rfl) | h)
        · exact Or.inl h
        · exact Or.inr ⟨Or.inl rfl, hc⟩
        · exact Or.inr ⟨Or.inr h.1, h.2⟩
      · rintro (h | ⟨rfl | h, h2⟩)
        · exact Or.inl (Or.inl h)
        · exact Or.inl (Or.inr rfl)
        · exact Or.inr ⟨h, h2⟩
    · simp only [hc, Bool.false_eq_true, if_false, List.mem_cons]
      constructor
      · rintro (h | h)
        · exact Or.inl h
        · exact Or.inr ⟨Or.inr h.1, h.2⟩
      · rintro (h | ⟨rfl | h, h2⟩)
        · exact Or.inl h
        · exact absurd h2 hc
        · exact Or.inr ⟨h, h2⟩

theorem BSGS.mem_strong_generators_from (b : BSGS) (i : Nat) (x : Perm) :
    x ∈ b.strong_generators_from i ↔
      x ∈ b.strong_generators ∧ x.stabilizes (b.base.take i) = true := by
  unfold BSGS.strong_generators_from
  rw [mem_foldl_filter_insert]
  simp

theorem Perm.stabilizes_iff (p : Perm) (pts : List Nat) :
    p.stabilizes pts = true ↔ ∀ x ∈ pts, p.apply x = x := by
  simp [Perm.stabilizes]

theorem take_range'_one (n k : Nat) (h : k ≤ n) :
    (List.range' 1 n).take k = List.range' 1 k := by
  obtain ⟨m, rfl⟩ : ∃ m, n = m + k := ⟨n - k, by omega⟩
  rw [← List.range'_append_1 1 k m, List.take_left' (by simp)]

theorem Perm.inverse_inverse {p : Perm} (hv : p.valid) : Perm.inverse (Perm.inverse p) = p := by
  apply Perm.ext_apply
  · rw [Perm.degree_inverse, Perm.degree_inverse]
  · intro x h1 h2
    rw [Perm.degree_inverse, Perm.degree_inverse] at h2
    have hr := Perm.apply_range hv h1 h2
    have h := Perm.inverse_apply (Perm.valid_inverse hv) (x := p.apply x) hr.1
      (by rw [Perm.degree_inverse]; exact hr.2)
    rw [Perm.inverse_apply hv h1 h2] at h
    exact h

theorem Perm.inverse_fixes_iff {p : Perm} (hv : p.valid) {x : Nat} (h1 : 1 ≤ x)
    (h2 : x ≤ p.degree) : (Perm.inverse p).apply x = x ↔ p.apply x = x := by
  constructor
  · intro h
    have := Perm.apply_inverse hv h1 h2
    rw [h] at this
    exact this
  · intro h
    have := Perm.inverse_apply hv h1 h2
    rw [h] at this
    exact this

theorem Perm.stabilizes_inverse {p : Perm} (hv : p.valid) (k : Nat) (hk : k ≤ p.degree) :
    (Perm.inverse p).stabilizes (List.range' 1 k) = true ↔
      p.stabilizes (List.range' 1 k) = true := by
  rw [Perm.stabilizes_iff, Perm.stabilizes_iff]
  constructor
  · intro h x hx
    have hx' := List.mem_range'_1.1 hx
    exact (Perm.inverse_fixes_iff hv hx'.1 (by omega)).1 (h x hx)
  · intro h x hx
    have hx' := List.mem_range'_1.1 hx
    exact (Perm.inverse_fixes_iff hv hx'.1 (by omega)).2 (h x hx)

theorem mem_symmetric_generators {d : Nat} (x : Perm) :
    x ∈ symmetric_generators d ↔ ∃ j, 1 ≤ j ∧ j ≤ d - 1 ∧ x = Perm.ofCycles d [[j, d]] := by
  unfold symmetric_generators
  rw [List.mem_map]
  constructor
  · rintro ⟨i, hi, rfl⟩
    rw [List.mem_reverse, List.mem_range'_1] at hi
    exact ⟨i, hi.1, by omega, rfl⟩
  · rintro ⟨i, h1, h2, rfl⟩
    exact ⟨i, by rw [List.mem_reverse, List.mem_range'_1]; omega, rfl⟩

theorem transposition_stabilizes {d j k : Nat} (hj : 1 ≤ j) (hjd : j < d) (hk : k < d) :
    (Perm.ofCycles d [[j, d]]).stabilizes (List.range' 1 k) = true ↔ k < j := by
  rw [Perm.stabilizes_iff]
  constructor
  · intro h
    by_contra hlt
    have := h j (List.mem_range'_1.2 ⟨hj, by omega⟩)
    rw [transposition_apply hj hjd hj (by omega)] at this
    simp only [if_true] at this
    omega
  · intro h x hx
    have hx' := List.mem_range'_1.1 hx
    rw [transposition_apply hj hjd hx'.1 (by omega)]
    split_ifs <;> omega

theorem threecycle_stabilizes {d j k : Nat} (hj : 1 ≤ j) (hjd : j + 1 < d) (hk : k + 1 < d) :
    (Perm.ofCycles d [[j, d - 1, d]]).stabilizes (List.range' 1 k) = true ↔ k < j := by
  rw [Perm.stabilizes_iff]
  constructor
  · intro h
    by_contra hlt
    have := h j (List.mem_range'_1.2 ⟨hj, by omega⟩)
    rw [threecycle_apply hj hjd hj (by omega)] at this
    simp only [if_true] at this
    omega
  · intro h x hx
    have hx' := List.mem_range'_1.1 hx
    rw [threecycle_apply hj hjd hx'.1 (by omega)]
    split_ifs <;> omega

theorem symmetric_level_invariant (d : Nat) (hd : 2 ≤ d) (v : Variant) :
    ∃ b, (BSGS.init d v).construct_symmetric = Except.ok b ∧ b.LevelInvariant := by
  obtain ⟨sss, h1, h2, h3⟩ := construct_symmetric_spec d hd v
  refine ⟨_, h1, ?_⟩
  intro i hi
  have hi' : i < d - 1 := by simpa [BSGS.base_size] using hi
  obtain ⟨ss, hget, hspec, hlab⟩ := h3 i hi'
  have hss : BSGS.schreier_structure
      { degree := d, base := List.range' 1 (d - 1),
        strong_generators := symmetric_generators d, transversals := some v,
        schreier_structures := sss, is_symmetric := true, is_alternating := false } i = ss :=
    getD_of_get? _ _ _ _ hget
  have hbp : BSGS.base_point
      { degree := d, base := List.range' 1 (d - 1),
        strong_generators := symmetric_generators d, transversals := some v,
        schreier_structures := sss, is_symmetric := true, is_alternating := false } i = i + 1 := by
    simp only [BSGS.base_point]
    rw [getD_range' _ _ _ hi', Nat.add_comm]
  have hsg : ∀ x, x ∈ BSGS.strong_generators_from
      { degree := d, base := List.range' 1 (d - 1),
        strong_generators := symmetric_generators d, transversals := some v,
        schreier_structures := sss, is_symmetric := true, is_alternating := false } i ↔
      ∃ j, i + 1 ≤ j ∧ j ≤ d - 1 ∧ x = Perm.ofCycles d [[j, d]] := by
    intro x
    rw [BSGS.mem_strong_generators_from]
    simp only
    rw [take_range'_one _ _ (by omega), mem_symmetric_generators]
    constructor
    · rintro ⟨⟨j, hj1, hj2, rfl⟩, hst⟩
      exact ⟨j, by
        have := (transposition_stabilizes hj1 (by omega) (by omega)).1 hst
        omega, hj2, rfl⟩
    · rintro ⟨j, hj1, hj2, rfl⟩
      exact ⟨⟨j, by omega, hj2, rfl⟩,
        (transposition_stabilizes (by omega) (by omega) (by omega)).2 (by omega)⟩
  rw [hss, hbp]
  refine ⟨hspec.root, fun l => ?_, ⟨Perm.ofCycles d [[i + 1, d]],
    (mem_symmetric_generators _).2 ⟨i + 1, by omega, by omega, rfl⟩, ?_⟩⟩
  · rw [hlab, hsg]
    constructor
    · exact Or.inl
    · rintro (h | ⟨s, hs, rfl⟩)
      · exact h
      · obtain ⟨j, hj1, hj2, rfl⟩ := (hsg s).1 hs
        exact ⟨j, hj1, hj2, transposition_inverse (by omega) (by omega)⟩
  · rw [transposition_apply (by omega) (by omega) (by omega) (by omega)]
    simp only [if_true]
    omega

theorem alternating_level_invariant (d : Nat) (hd : 3 ≤ d) (v : Variant) :
    ∃ b, (BSGS.init d v).construct_alternating = Except.ok b ∧ b.LevelInvariant := by
  obtain ⟨sss, h1, h2, h3⟩ := construct_alternating_spec d hd v
  refine ⟨_, h1, ?_⟩
  intro i hi
  have hi' : i < d - 2 := by simpa [BSGS.base_size] using hi
  obtain ⟨ss, hget, hspec, hlab⟩ := h3 i hi'
  have hss : BSGS.schreier_structure
      { degree := d, base := List.range' 1 (d - 2),
        strong_generators := PermSet.insert_inverses (alternating_cycles d),
        transversals := some v, schreier_structures := sss, is_symmetric := false,
        is_alternating := true } i = ss :=
    getD_of_get? _ _ _ _ hget
  have hbp : BSGS.base_point
      { degree := d, base := List.range' 1 (d - 2),
        strong_generators := PermSet.insert_inverses (alternating_cycles d),
        transversals := some v, schreier_structures := sss, is_symmetric := false,
        is_alternating := true } i = i + 1 := by
    simp only [BSGS.base_point]
    rw [getD_range' _ _ _ hi', Nat.add_comm]
  have hsg : ∀ x, x ∈ BSGS.strong_generators_from
      { degree := d, base := List.range' 1 (d - 2),
        strong_generators := PermSet.insert_inverses (alternating_cycles d),
        transversals := some v, schreier_structures := sss, is_symmetric := false,
        is_alternating := true } i ↔
      ∃ j, i + 1 ≤ j ∧ j ≤ d - 2 ∧
        (x = Perm.ofCycles d [[j, d - 1, d]] ∨
          x = Perm.inverse (Perm.ofCycles d [[j, d - 1, d]])) := by
    intro x
    rw [BSGS.mem_strong_generators_from]
    simp only
    rw [take_range'_one _ _ (by omega), PermSet.mem_insert_inverses]
    constructor
    · rintro ⟨h | ⟨p, hp, rfl⟩, hst⟩
      · obtain ⟨j, hj1, hj2, rfl⟩ := (mem_alternating_cycles x).1 h
        exact ⟨j, by
          have := (threecycle_stabilizes hj1 (by omega) (by omega)).1 hst
          omega, hj2, Or.inl rfl⟩
      · obtain ⟨j, hj1, hj2, rfl⟩ := (mem_alternating_cycles p).1 hp
        have hv := threecycle_valid (d := d) (i := j) hj1 (by omega)
        rw [Perm.stabilizes_inverse hv.1 i (by rw [hv.2]; omega)] at hst
        exact ⟨j, by
          have := (threecycle_stabilizes hj1 (by omega) (by omega)).1 hst
          omega, hj2, Or.inr rfl⟩
    · rintro ⟨j, hj1, hj2, rfl | rfl⟩
      · exact ⟨Or.inl ((mem_alternating_cycles _).2 ⟨j, by omega, hj2, rfl⟩),
          (threecycle_stabilizes (by omega) (by omega) (by omega)).2 (by omega)⟩
      · have hv := threecycle_valid (d := d) (i := j) (by omega) (by omega)
        refine ⟨Or.inr ⟨_, (mem_alternating_cycles _).2 ⟨j, by omega, hj2, rfl⟩, rfl⟩, ?_⟩
        rw [Perm.stabilizes_inverse hv.1 i (by rw [hv.2]; omega)]
        exact (threecycle_stabilizes (by omega) (by omega) (by omega)).2 (by omega)
  rw [hss, hbp]
  refine ⟨hspec.root, fun l => ?_, ⟨Perm.ofCycles d [[i + 1, d - 1, d]],
    (PermSet.mem_insert_inverses _ _).2
      (Or.inl ((mem_alternating_cycles _).2 ⟨i + 1, by omega, by omega, rfl⟩)), ?_⟩⟩
  · rw [hlab, hsg]
    constructor
    · exact Or.inl
    · rintro (h | ⟨s, hs, rfl⟩)
      · exact h
      · obtain ⟨j, hj1, hj2, rfl | rfl⟩ := (hsg s).1 hs
        · exact ⟨j, hj1, hj2, Or.inr rfl⟩
        · have hv := threecycle_valid (d := d) (i := j) (by omega) (by omega)
          exact ⟨j, hj1, hj2, Or.inl (Perm.inverse_inverse hv.1)⟩
  · rw [threecycle_apply (by omega) (by omega) (by omega) (by omega)]
    simp only [if_true]
    omega

/-! ## The claims -/

/-- C1: with no registry, `min_elem_iterate` returns the lexicographically
smallest allocation among `σ·a`, `σ` ranging over the elements of the group
(identity included): the result is `τ·a` for a group element `τ`, and no
`σ·a` is smaller than the result. -/
theorem min_elem_iterate_minimum (G : PermGroup) (a : TaskAllocation) (o : Nat) (hG : G.wf)
    (_ha : InRange a o G.degree) :
    (∃ τ, Generated G.degree G.generators τ ∧ min_elem_iterate G a o none = permuted a τ o) ∧
    ∀ σ, Generated G.degree G.generators σ →
      lexLt (permuted a σ o) (min_elem_iterate G a o none) = false :=
  min_elem_iterate_isOrbitMin G a o none hG (registryMinimal_none G a o)

theorem min_elem_iterate_minimum_witness :
    exS3.wf ∧ InRange [3, 1, 2] 0 exS3.degree ∧
    min_elem_iterate exS3 [3, 1, 2] 0 none = [1, 2, 3] ∧
    ((∃ τ, Generated exS3.degree exS3.generators τ ∧
        min_elem_iterate exS3 [3, 1, 2] 0 none = permuted [3, 1, 2] τ 0) ∧
      ∀ σ, Generated exS3.degree exS3.generators σ →
        lexLt (permuted [3, 1, 2] σ 0) (min_elem_iterate exS3 [3, 1, 2] 0 none) = false) :=
  ⟨@PermGroup.wf_of_check exS3 3 (by decide), by decide, by decide,
    min_elem_iterate_minimum exS3 [3, 1, 2] 0 (@PermGroup.wf_of_check exS3 3 (by decide))
      (by decide)⟩

/-- C2: with no registry, `min_elem_orbits`, which applies only the listed
generators, returns (once its loop is given enough passes to end) the same
allocation as `min_elem_iterate`, the lexicographic minimum of the orbit under
the group the generators generate. -/
theorem min_elem_orbits_eq_min_elem_iterate (G : PermGroup) (a : TaskAllocation) (o : Nat)
    (hG : G.wf) (_ha : InRange a o G.degree) :
    ∃ n, ∀ fuel, n ≤ fuel →
      min_elem_orbits G fuel a o none = some (min_elem_iterate G a o none) :=
  min_elem_orbits_registry G a o none hG (registryMinimal_none G a o)

theorem min_elem_orbits_eq_min_elem_iterate_witness :
    exC2.wf ∧ InRange [2, 1, 3, 4] 0 exC2.degree ∧
    min_elem_orbits exC2 3 [2, 1, 3, 4] 0 none = some [1, 2, 3, 4] ∧
    ∃ n, ∀ fuel, n ≤ fuel →
      min_elem_orbits exC2 fuel [2, 1, 3, 4] 0 none =
        some (min_elem_iterate exC2 [2, 1, 3, 4] 0 none) :=
  ⟨@PermGroup.wf_of_check exC2 1 (by decide), by decide, by decide,
    min_elem_orbits_eq_min_elem_iterate exC2 [2, 1, 3, 4] 0
      (@PermGroup.wf_of_check exC2 1 (by decide)) (by decide)⟩

/-- C3: orbit equivalence.  For an allocation `a` in range and an element `σ`
of the group, the representative of `σ·a` equals the representative of `a`,
for ITERATE and for ORBIT_BFS (no registry). -/
theorem min_repr_orbit_equivalence (G : PermGroup) (a : TaskAllocation) (o : Nat) (σ : Perm)
    (hG : G.wf) (_ha : InRange a o G.degree) (hσ : Generated G.degree G.generators σ) :
    min_elem_iterate G (permuted a σ o) o none = min_elem_iterate G a o none ∧
    ∃ n, ∀ fuel, n ≤ fuel → ∃ r,
      min_elem_orbits G fuel a o none = some r ∧
      min_elem_orbits G fuel (permuted a σ o) o none = some r := by
  refine ⟨min_elem_iterate_permuted G a o hG hσ, ?_⟩
  obtain ⟨n1, h1⟩ := min_elem_orbits_registry G a o none hG (registryMinimal_none G a o)
  obtain ⟨n2, h2⟩ := min_elem_orbits_registry G (permuted a σ o) o none hG
    (registryMinimal_none G _ o)
  refine ⟨max n1 n2, fun fuel hf => ⟨min_elem_iterate G a o none, ?_, ?_⟩⟩
  · exact h1 fuel (le_trans (le_max_left _ _) hf)
  · rw [h2 fuel (le_trans (le_max_right _ _) hf), min_elem_iterate_permuted G a o hG hσ]

theorem min_repr_orbit_equivalence_witness :
    exS3.wf ∧ InRange [2, 3, 1] 0 exS3.degree ∧
    Generated exS3.degree exS3.generators ⟨[1, 3, 2]⟩ ∧
    permuted [2, 3, 1] ⟨[1, 3, 2]⟩ 0 = [3, 2, 1] ∧
    (min_elem_iterate exS3 (permuted [2, 3, 1] ⟨[1, 3, 2]⟩ 0) 0 none =
        min_elem_iterate exS3 [2, 3, 1] 0 none ∧
      ∃ n, ∀ fuel, n ≤ fuel → ∃ r,
        min_elem_orbits exS3 fuel [2, 3, 1] 0 none = some r ∧
        min_elem_orbits exS3 fuel (permuted [2, 3, 1] ⟨[1, 3, 2]⟩ 0) 0 none = some r) :=
  ⟨@PermGroup.wf_of_check exS3 3 (by decide), by decide,
    Generated.gen (by decide), by decide,
    min_repr_orbit_equivalence exS3 [2, 3, 1] 0 ⟨[1, 3, 2]⟩
      (@PermGroup.wf_of_check exS3 3 (by decide)) (by decide) (Generated.gen (by decide))⟩

/-- C4: canonicalisation is idempotent.  For ITERATE and for ORBIT_BFS (no
registry), the minimiser applied to its own result returns that result. -/
theorem min_repr_idempotent (G : PermGroup) (a : TaskAllocation) (o : Nat)
    (hG : G.wf) (_ha : InRange a o G.degree) :
    min_elem_iterate G (min_elem_iterate G a o none) o none = min_elem_iterate G a o none ∧
    ∃ n, ∀ fuel, n ≤ fuel → ∃ r,
      min_elem_orbits G fuel a o none = some r ∧ min_elem_orbits G fuel r o none = some r := by
  refine ⟨min_elem_iterate_idem G a o hG, ?_⟩
  obtain ⟨n1, h1⟩ := min_elem_orbits_registry G a o none hG (registryMinimal_none G a o)
  obtain ⟨n2, h2⟩ := min_elem_orbits_registry G (min_elem_iterate G a o none) o none hG
    (registryMinimal_none G _ o)
  refine ⟨max n1 n2, fun fuel hf => ⟨min_elem_iterate G a o none, ?_, ?_⟩⟩
  · exact h1 fuel (le_trans (le_max_left _ _) hf)
  · rw [h2 fuel (le_trans (le_max_right _ _) hf), min_elem_iterate_idem G a o hG]

theorem min_repr_idempotent_witness :
    exS3.wf ∧ InRange [3, 1, 2] 0 exS3.degree ∧
    (min_elem_iterate exS3 (min_elem_iterate exS3 [3, 1, 2] 0 none) 0 none =
        min_elem_iterate exS3 [3, 1, 2] 0 none ∧
      ∃ n, ∀ fuel, n ≤ fuel → ∃ r,
        min_elem_orbits exS3 fuel [3, 1, 2] 0 none = some r ∧
        min_elem_orbits exS3 fuel r 0 none = some r) :=
  ⟨@PermGroup.wf_of_check exS3 3 (by decide), by decide,
    min_repr_idempotent exS3 [3, 1, 2] 0 (@PermGroup.wf_of_check exS3 3 (by decide))
      (by decide)⟩

/-- C5: deduplication through the registry.  Calling `mapping` with ITERATE or
ORBIT_BFS (mixed freely) on a sequence of allocations in range, from the empty
registry on: every call returns, any two allocations of the sequence that lie
in one orbit receive the same representative, and after every call the
registry holds at most one allocation per orbit. -/
theorem mapping_registry_dedup (G : PermGroup) (o : Nat)
    (seq : List (TaskAllocation × MappingMethod)) (hG : G.wf)
    (hm : ∀ p ∈ seq, p.2 ≠ MappingMethod.LOCAL_SEARCH)
    (_hr : ∀ p ∈ seq, InRange p.1 o G.degree) :
    ∃ n, ∀ fuel, n ≤ fuel → ∃ out,
      mapping_seq G fuel o seq TMORs.empty = some out ∧
      out.length = seq.length ∧
      (∀ p ∈ seq.zip out, ∀ q ∈ seq.zip out, InOrbit G p.1.1 o q.1.1 → p.2.1 = q.2.1) ∧
      (∀ p ∈ out, ∀ x y, p.2.is_repr x = true → p.2.is_repr y = true →
        InOrbit G x o y → x = y) := by
  obtain ⟨n, hn⟩ := mapping_seq_spec G o hG seq TMORs.empty (RegistryOK.empty G o) hm
  refine ⟨n, fun fuel hf => ?_⟩
  obtain ⟨out, h1, h2, h3⟩ := hn fuel hf
  refine ⟨out, h1, ?_, ?_, ?_⟩
  · have := congrArg List.length h2
    simpa using this
  · intro p hp q hq hpq
    have e1 := zip_of_map_eq Prod.fst (fun p => min_elem_iterate G p.1 o none) seq out h2 p hp
    have e2 := zip_of_map_eq Prod.fst (fun p => min_elem_iterate G p.1 o none) seq out h2 q hq
    rw [e1, e2]
    obtain ⟨σ, hσ, h⟩ := hpq
    show min_elem_iterate G p.1.1 o none = min_elem_iterate G q.1.1 o none
    rw [h]
    exact (min_elem_iterate_permuted G p.1.1 o hG hσ).symm
  · intro p hp x y hx hy hxy
    exact (h3 p hp).one_per_orbit hG hx hy hxy

theorem mapping_registry_dedup_witness :
    exS3.wf ∧
    (∀ p ∈ [(([3, 1, 2] : TaskAllocation), MappingMethod.ITERATE),
        ([2, 1, 3], MappingMethod.ORBITS), ([3, 3, 1], MappingMethod.ORBITS),
        ([1, 2, 3], MappingMethod.ORBITS)], p.2 ≠ MappingMethod.LOCAL_SEARCH) ∧
    (∀ p ∈ [(([3, 1, 2] : TaskAllocation), MappingMethod.ITERATE),
        ([2, 1, 3], MappingMethod.ORBITS), ([3, 3, 1], MappingMethod.ORBITS),
        ([1, 2, 3], MappingMethod.ORBITS)], InRange p.1 0 exS3.degree) ∧
    mapping_seq exS3 7 0 [([3, 1, 2], MappingMethod.ITERATE),
        ([2, 1, 3], MappingMethod.ORBITS), ([3, 3, 1], MappingMethod.ORBITS),
        ([1, 2, 3], MappingMethod.ORBITS)] TMORs.empty =
      some [([1, 2, 3], ⟨[([1, 2, 3], 0)]⟩), ([1, 2, 3], ⟨[([1, 2, 3], 0)]⟩),
        ([1, 1, 2], ⟨[([1, 2, 3], 0), ([1, 1, 2], 1)]⟩),
        ([1, 2, 3], ⟨[([1, 2, 3], 0), ([1, 1, 2], 1)]⟩)] ∧
    ∃ n, ∀ fuel, n ≤ fuel → ∃ out,
      mapping_seq exS3 fuel 0 [([3, 1, 2], MappingMethod.ITERATE),
        ([2, 1, 3], MappingMethod.ORBITS), ([3, 3, 1], MappingMethod.ORBITS),
        ([1, 2, 3], MappingMethod.ORBITS)] TMORs.empty = some out ∧
      out.length = 4 ∧
      (∀ p ∈ List.zip [(([3, 1, 2] : TaskAllocation), MappingMethod.ITERATE),
            ([2, 1, 3], MappingMethod.ORBITS), ([3, 3, 1], MappingMethod.ORBITS),
            ([1, 2, 3], MappingMethod.ORBITS)] out,
          ∀ q ∈ List.zip [(([3, 1, 2] : TaskAllocation), MappingMethod.ITERATE),
            ([2, 1, 3], MappingMethod.ORBITS), ([3, 3, 1], MappingMethod.ORBITS),
            ([1, 2, 3], MappingMethod.ORBITS)] out,
          InOrbit exS3 p.1.1 0 q.1.1 → p.2.1 = q.2.1) ∧
      (∀ p ∈ out, ∀ x y, p.2.is_repr x = true → p.2.is_repr y = true →
        InOrbit exS3 x 0 y → x = y) :=
  ⟨@PermGroup.wf_of_check exS3 3 (by decide), by decide, by decide, by decide,
    mapping_registry_dedup exS3 0 _ (@PermGroup.wf_of_check exS3 3 (by decide))
      (by decide) (by decide)⟩

/-- C6, as stated, fails at its own witness: on the BSGS that
`construct_symmetric` builds in degree 3, `strip` with the composition of §4.A,
`compose(a, b)(x) = a(b(x))`, takes the transposition `(1 2)` to `(1 3)` with
final index 3, so `strips_completely` is false. -/
theorem strip_symmetric_compose_counterexample :
    (BSGS.init 3 Variant.explicit).construct_symmetric = Except.ok exS3_bsgs ∧
    (⟨[2, 1, 3]⟩ : Perm).valid ∧ (⟨[2, 1, 3]⟩ : Perm).degree = 3 ∧
    BSGS.strip Perm.compose exS3_bsgs ⟨[2, 1, 3]⟩ 0 = (⟨[3, 2, 1]⟩, 3) ∧
    BSGS.strips_completely Perm.compose exS3_bsgs ⟨[2, 1, 3]⟩ = false :=
  ⟨by rfl, by decide, by decide, by rfl, by rfl⟩

/-- C6, amended: for the BSGS built by `construct_symmetric` in degree `d ≥ 2`
(`k = d - 1` levels) and every permutation `σ` of degree `d`, `strip(σ)` returns
the identity with final index `k + 1`, i.e. `strips_completely(σ)` is true, when
the product used by `strip` applies its left factor first,
`(a · b)(x) = b(a(x))`. -/
theorem strip_symmetric_left_first (d : Nat) (hd : 2 ≤ d) (v : Variant) (σ : Perm)
    (hσ : σ.valid) (hσd : σ.degree = d) :
    ∃ b, (BSGS.init d v).construct_symmetric = Except.ok b ∧ b.base_size = d - 1 ∧
      BSGS.strip Perm.mul_left_first b σ 0 = (Perm.identity d, b.base_size + 1) ∧
      BSGS.strips_completely Perm.mul_left_first b σ = true := by
  obtain ⟨sss, h1, h2, h3⟩ := construct_symmetric_spec d hd v
  refine ⟨_, h1, by simp [BSGS.base_size], ?_⟩
  have hlev : ∀ k, k < d - 1 → LevelSpec d k (sss.getD k (SchreierStructure.explicit 0 d [] []))
      := by
    intro k hk
    obtain ⟨ss, hs1, hs2, _⟩ := h3 k hk
    rw [getD_of_get? _ _ _ _ hs1]
    exact hs2
  obtain ⟨ρ, hρ1, hρ2, hρ3, hρ4⟩ := BSGS.strip_loop_levels
    { degree := d, base := List.range' 1 (d - 1), strong_generators := symmetric_generators d,
      transversals := some v, schreier_structures := sss, is_symmetric := true,
      is_alternating := false } d (d - 1) rfl (by omega) hlev (d - 1) 0 σ (by omega) hσ hσd
    (fun x h1 h2 => by omega)
  have hρ : ρ = Perm.identity d := Perm.eq_identity_of_fixes hρ2 hρ3 hρ4
  subst hρ
  have hstrip : BSGS.strip Perm.mul_left_first
      { degree := d, base := List.range' 1 (d - 1), strong_generators := symmetric_generators d,
        transversals := some v, schreier_structures := sss, is_symmetric := true,
        is_alternating := false } σ 0 = (Perm.identity d, d - 1 + 1) := by
    simp only [BSGS.strip, BSGS.base_size, List.length_range', Nat.sub_zero]
    exact hρ1
  refine ⟨by rw [hstrip]; simp [BSGS.base_size], ?_⟩
  simp only [BSGS.strips_completely, hstrip, BSGS.base_size, List.length_range', beq_self_eq_true,
    Bool.and_true]
  rw [Perm.id_iff, Perm.degree_identity]

theorem strip_symmetric_left_first_witness :
    2 ≤ 3 ∧ (⟨[2, 1, 3]⟩ : Perm).valid ∧ (⟨[2, 1, 3]⟩ : Perm).degree = 3 ∧
    BSGS.strip Perm.mul_left_first exS3_bsgs ⟨[2, 1, 3]⟩ 0 = (⟨[1, 2, 3]⟩, 3) ∧
    ∃ b, (BSGS.init 3 Variant.explicit).construct_symmetric = Except.ok b ∧
      b.base_size = 3 - 1 ∧
      BSGS.strip Perm.mul_left_first b ⟨[2, 1, 3]⟩ 0 = (Perm.identity 3, b.base_size + 1) ∧
      BSGS.strips_completely Perm.mul_left_first b ⟨[2, 1, 3]⟩ = true :=
  ⟨by decide, by decide, by decide, by rfl,
    strip_symmetric_left_first 3 (by decide) Variant.explicit ⟨[2, 1, 3]⟩ (by decide)
      (by decide)⟩

/-- C7, as stated, fails at its candidate witness: on the BSGS that
`construct_alternating` builds in degree 3 (base `(1)`, `k = 1`), the
transposition `(2 3)` is not in the group, yet `strip` passes the only level
(the image of the base point, 1, lies in the orbit) and returns the final index
`k + 1 = 2`, with the residue `(2 3)`, for either product. -/
theorem strip_nonmember_counterexample :
    (BSGS.init 3 Variant.explicit).construct_alternating = Except.ok exA3_bsgs ∧
    exA3_bsgs.base_size = 1 ∧
    (⟨[1, 3, 2]⟩ : Perm).valid ∧ (⟨[1, 3, 2]⟩ : Perm).degree = 3 ∧
    ¬ Generated 3 exA3_bsgs.strong_generators ⟨[1, 3, 2]⟩ ∧
    BSGS.strip Perm.compose exA3_bsgs ⟨[1, 3, 2]⟩ 0 = (⟨[1, 3, 2]⟩, 2) ∧
    BSGS.strip Perm.mul_left_first exA3_bsgs ⟨[1, 3, 2]⟩ 0 = (⟨[1, 3, 2]⟩, 2) :=
  ⟨by rfl, by rfl, by decide, by decide,
    fun h => absurd (((@PermGroup.wf_of_check exA3 2 (by decide)).2 _).2 h) (by decide),
    by rfl, by rfl⟩

/-- C7, amended: for every BSGS whose transversals lie in a group `G` (given
by generators `S` of degree `d`) and every permutation `σ` of degree `d` that is
not in `G`, `strip(σ)` does not strip completely, i.e. the final index is `≤ k`
or the residue is not the identity (`strips_completely(σ)` is false), for either
product. -/
theorem strip_nonmember_not_complete (d : Nat) (S : PermSet)
    (hS : ∀ g ∈ S, g.valid ∧ g.degree = d) (b : BSGS)
    (hb : ∀ i, i < b.base_size → ∀ p ∈ b.orbit i, Generated d S (b.transversal i p))
    (σ : Perm) (_hσv : σ.valid) (hσd : σ.degree = d) (hσ : ¬ Generated d S σ) :
    BSGS.strips_completely Perm.compose b σ = false ∧
    BSGS.strips_completely Perm.mul_left_first b σ = false := by
  obtain ⟨h1, h2, h3, h4⟩ := strip_products_back d S hS
  exact ⟨BSGS.strips_completely_of_not_generated Perm.compose d S h1 h2 b hb σ hσd hσ,
    BSGS.strips_completely_of_not_generated Perm.mul_left_first d S h3 h4 b hb σ hσd hσ⟩

theorem strip_nonmember_not_complete_witness :
    (∀ g ∈ exA3.generators, g.valid ∧ g.degree = 3) ∧
    (∀ i, i < exA3_bsgs.base_size → ∀ p ∈ exA3_bsgs.orbit i,
      Generated 3 exA3.generators (exA3_bsgs.transversal i p)) ∧
    (⟨[1, 3, 2]⟩ : Perm).valid ∧ (⟨[1, 3, 2]⟩ : Perm).degree = 3 ∧
    ¬ Generated 3 exA3.generators ⟨[1, 3, 2]⟩ ∧
    (BSGS.strips_completely Perm.compose exA3_bsgs ⟨[1, 3, 2]⟩ = false ∧
      BSGS.strips_completely Perm.mul_left_first exA3_bsgs ⟨[1, 3, 2]⟩ = false) :=
  ⟨by decide,
    fun i hi p hp => closureUpTo_generated _ _ 1 _
      ((by decide : ∀ i, i < exA3_bsgs.base_size → ∀ p ∈ exA3_bsgs.orbit i,
        exA3_bsgs.transversal i p ∈ closureUpTo exA3.generators 3 1) i hi p hp),
    by decide, by decide,
    fun h => absurd (((@PermGroup.wf_of_check exA3 2 (by decide)).2 _).2 h) (by decide),
    strip_nonmember_not_complete 3 exA3.generators (by decide) exA3_bsgs
      (fun i hi p hp => closureUpTo_generated _ _ 1 _
        ((by decide : ∀ i, i < exA3_bsgs.base_size → ∀ p ∈ exA3_bsgs.orbit i,
          exA3_bsgs.transversal i p ∈ closureUpTo exA3.generators 3 1) i hi p hp))
      ⟨[1, 3, 2]⟩ (by decide) (by decide)
      (fun h => absurd (((@PermGroup.wf_of_check exA3 2 (by decide)).2 _).2 h) (by decide))⟩

/-- C8: the symmetric fast path.  For every degree `d ≥ 2` (and either kind of
transversals) `construct_symmetric` returns a BSGS with base `(1, ..., d-1)`,
strong generators exactly the `d - 1` transpositions `(i d)`, `i = 1..d-1`, and
at the 0-based level `i` a Schreier structure with root `i + 1` whose orbit is
`{i+1, ..., d}`, of size `d - i`; its `order()` is `d!`. -/
theorem construct_symmetric_correct (d : Nat) (hd : 2 ≤ d) (v : Variant) :
    ∃ b, (BSGS.init d v).construct_symmetric = Except.ok b ∧
      b.base = List.range' 1 (d - 1) ∧
      b.strong_generators =
        (List.range' 1 (d - 1)).reverse.map (fun i => Perm.ofCycles d [[i, d]]) ∧
      b.strong_generators.length = d - 1 ∧
      (∀ i x, 1 ≤ i → i < d → 1 ≤ x → x ≤ d →
        (Perm.ofCycles d [[i, d]]).apply x = if x = i then d else if x = d then i else x) ∧
      (∀ i, i < d - 1 →
        (b.schreier_structure i).root = i + 1 ∧
        (∀ x, x ∈ b.orbit i ↔ i + 1 ≤ x ∧ x ≤ d) ∧
        (b.orbit i).length = d - i) ∧
      b.order = d.factorial := by
  obtain ⟨sss, h1, h2, h3⟩ := construct_symmetric_spec d hd v
  have hlev : ∀ i, i < d - 1 →
      (sss.getD i (SchreierStructure.explicit 0 d [] [])).root = i + 1 ∧
      (∀ x, x ∈ (sss.getD i (SchreierStructure.explicit 0 d [] [])).nodes ↔
        i + 1 ≤ x ∧ x ≤ d) ∧
      (sss.getD i (SchreierStructure.explicit 0 d [] [])).nodes.length = d - i := by
    intro i hi
    obtain ⟨ss, hs1, hs2, _⟩ := h3 i hi
    rw [getD_of_get? _ _ _ _ hs1]
    exact ⟨hs2.root, hs2.nodes, length_of_nodes hs2.nodup hs2.nodes⟩
  refine ⟨_, h1, rfl, rfl, by simp [symmetric_generators],
    fun i x hi1 hi2 hx1 hx2 => transposition_apply hi1 hi2 hx1 hx2, hlev, ?_⟩
  refine Eq.trans (BSGS.order_of_levels _ d ?_) ?_
  · intro i hi
    exact (hlev i (by simpa [BSGS.base_size] using hi)).2.2
  · simp only [BSGS.base_size, List.length_range']
    exact descFactorial_pred d (by omega)

theorem construct_symmetric_correct_witness :
    2 ≤ 3 ∧
    (BSGS.init 3 Variant.explicit).construct_symmetric = Except.ok
      { degree := 3, base := [1, 2], strong_generators := [⟨[1, 3, 2]⟩, ⟨[3, 2, 1]⟩],
        transversals := some Variant.explicit,
        schreier_structures := [SchreierStructure.explicit 1 3 [⟨[1, 3, 2]⟩, ⟨[3, 2, 1]⟩]
            [(1, ⟨[1, 2, 3]⟩), (3, ⟨[3, 2, 1]⟩), (2, ⟨[2, 3, 1]⟩)],
          SchreierStructure.explicit 2 3 [⟨[1, 3, 2]⟩] [(2, ⟨[1, 2, 3]⟩), (3, ⟨[1, 3, 2]⟩)]],
        is_symmetric := true, is_alternating := false } ∧
    ∃ b, (BSGS.init 3 Variant.explicit).construct_symmetric = Except.ok b ∧
      b.base = List.range' 1 (3 - 1) ∧
      b.strong_generators =
        (List.range' 1 (3 - 1)).reverse.map (fun i => Perm.ofCycles 3 [[i, 3]]) ∧
      b.strong_generators.length = 3 - 1 ∧
      (∀ i x, 1 ≤ i → i < 3 → 1 ≤ x → x ≤ 3 →
        (Perm.ofCycles 3 [[i, 3]]).apply x = if x = i then 3 else if x = 3 then i else x) ∧
      (∀ i, i < 3 - 1 →
        (b.schreier_structure i).root = i + 1 ∧
        (∀ x, x ∈ b.orbit i ↔ i + 1 ≤ x ∧ x ≤ 3) ∧
        (b.orbit i).length = 3 - i) ∧
      b.order = Nat.factorial 3 :=
  ⟨by decide, by rfl, construct_symmetric_correct 3 (by decide) Variant.explicit⟩

/-- C9: the alternating fast path.  For every degree `d ≥ 3` (and either kind
of transversals) `construct_alternating` returns a BSGS with base
`(1, ..., d-2)`, strong generators the 3-cycles `(i d-1 d)`, `i = 1..d-2`,
together with their inverses, and at the 0-based level `i` a Schreier structure
with root `i + 1` whose orbit is `{i+1, ..., d}`, of size `d - i`; its
`order()` is `d!/2`. -/
theorem construct_alternating_correct (d : Nat) (hd : 3 ≤ d) (v : Variant) :
    ∃ b, (BSGS.init d v).construct_alternating = Except.ok b ∧
      b.base = List.range' 1 (d - 2) ∧
      (∀ l, l ∈ b.strong_generators ↔ ∃ i, 1 ≤ i ∧ i ≤ d - 2 ∧
        (l = Perm.ofCycles d [[i, d - 1, d]] ∨
          l = Perm.inverse (Perm.ofCycles d [[i, d - 1, d]]))) ∧
      (∀ i x, 1 ≤ i → i + 1 < d → 1 ≤ x → x ≤ d →
        (Perm.ofCycles d [[i, d - 1, d]]).apply x =
          if x = i then d - 1 else if x = d - 1 then d else if x = d then i else x) ∧
      (∀ i, i < d - 2 →
        (b.schreier_structure i).root = i + 1 ∧
        (∀ x, x ∈ b.orbit i ↔ i + 1 ≤ x ∧ x ≤ d) ∧
        (b.orbit i).length = d - i) ∧
      b.order = d.factorial / 2 := by
  obtain ⟨sss, h1, h2, h3⟩ := construct_alternating_spec d hd v
  have hlev : ∀ i, i < d - 2 →
      (sss.getD i (SchreierStructure.explicit 0 d [] [])).root = i + 1 ∧
      (∀ x, x ∈ (sss.getD i (SchreierStructure.explicit 0 d [] [])).nodes ↔
        i + 1 ≤ x ∧ x ≤ d) ∧
      (sss.getD i (SchreierStructure.explicit 0 d [] [])).nodes.length = d - i := by
    intro i hi
    obtain ⟨ss, hs1, hs2, _⟩ := h3 i hi
    rw [getD_of_get? _ _ _ _ hs1]
    exact ⟨hs2.root, hs2.nodes, length_of_nodes hs2.nodup hs2.nodes⟩
  refine ⟨_, h1, rfl, ?_,
    fun i x hi1 hi2 hx1 hx2 => threecycle_apply hi1 hi2 hx1 hx2, hlev, ?_⟩
  · intro l
    show l ∈ PermSet.insert_inverses (alternating_cycles d) ↔ _
    rw [PermSet.mem_insert_inverses]
    constructor
    · rintro (h | ⟨p, hp, rfl⟩)
      · obtain ⟨i, hi1, hi2, hi3⟩ := (mem_alternating_cycles l).1 h
        exact ⟨i, hi1, hi2, Or.inl hi3⟩
      · obtain ⟨i, hi1, hi2, rfl⟩ := (mem_alternating_cycles p).1 hp
        exact ⟨i, hi1, hi2, Or.inr rfl⟩
    · rintro ⟨i, hi1, hi2, h | h⟩
      · exact Or.inl ((mem_alternating_cycles l).2 ⟨i, hi1, hi2, h⟩)
      · exact Or.inr ⟨_, (mem_alternating_cycles _).2 ⟨i, hi1, hi2, rfl⟩, h⟩
  · refine Eq.trans (BSGS.order_of_levels _ d ?_) ?_
    · intro i hi
      exact (hlev i (by simpa [BSGS.base_size] using hi)).2.2
    · simp only [BSGS.base_size, List.length_range']
      exact descFactorial_pred_pred d (by omega)

theorem construct_alternating_correct_witness :
    3 ≤ 4 ∧
    (BSGS.init 4 Variant.tree).construct_alternating = Except.ok
      { degree := 4, base := [1, 2],
        strong_generators := [⟨[1, 3, 4, 2]⟩, ⟨[3, 2, 4, 1]⟩, ⟨[1, 4, 2, 3]⟩, ⟨[4, 2, 1, 3]⟩],
        transversals := some Variant.tree,
        schreier_structures := [SchreierStructure.tree 1 4
            [⟨[1, 3, 4, 2]⟩, ⟨[3, 2, 4, 1]⟩, ⟨[1, 4, 2, 3]⟩, ⟨[4, 2, 1, 3]⟩]
            [(3, 1, 1), (4, 1, 3), (2, 3, 2)],
          SchreierStructure.tree 2 4 [⟨[1, 3, 4, 2]⟩, ⟨[1, 4, 2, 3]⟩] [(3, 2, 0), (4, 2, 1)]],
        is_symmetric := false, is_alternating := true } ∧
    ∃ b, (BSGS.init 4 Variant.tree).construct_alternating = Except.ok b ∧
      b.base = List.range' 1 (4 - 2) ∧
      (∀ l, l ∈ b.strong_generators ↔ ∃ i, 1 ≤ i ∧ i ≤ 4 - 2 ∧
        (l = Perm.ofCycles 4 [[i, 4 - 1, 4]] ∨
          l = Perm.inverse (Perm.ofCycles 4 [[i, 4 - 1, 4]]))) ∧
      (∀ i x, 1 ≤ i → i + 1 < 4 → 1 ≤ x → x ≤ 4 →
        (Perm.ofCycles 4 [[i, 4 - 1, 4]]).apply x =
          if x = i then 4 - 1 else if x = 4 - 1 then 4 else if x = 4 then i else x) ∧
      (∀ i, i < 4 - 2 →
        (b.schreier_structure i).root = i + 1 ∧
        (∀ x, x ∈ b.orbit i ↔ i + 1 ≤ x ∧ x ≤ 4) ∧
        (b.orbit i).length = 4 - i) ∧
      b.order = Nat.factorial 4 / 2 :=
  ⟨by decide, by rfl, construct_alternating_correct 4 (by decide) Variant.tree⟩

/-- C10: the Schreier transversal law.  For every root of the domain, every set
of labels that are permutations of the degree and either kind of Schreier
structure, `Orbit.generate` fills the structure, and for every point `p` of the
orbit `transversal(p)` maps the root to `p`; the transversal of the root fixes
the root.  In particular this is the structure that
`update_schreier_structure` appends as a new level. -/
theorem schreier_transversal_law (v : Variant) (r d : Nat) (L : PermSet)
    (hL : ∀ l ∈ L, l.valid ∧ l.degree = d) (hr : 1 ≤ r ∧ r ≤ d) :
    ∃ ss, Orbit.generate r L (make_schreier_structure v r d L) = some ss ∧
      (∀ p ∈ ss.nodes, (ss.transversal p).apply r = p) ∧
      (ss.transversal r).apply r = r ∧
      ∀ sss : List SchreierStructure,
        BSGSTransversalsBase.update_schreier_structure v sss sss.length r d L =
          Except.ok (sss ++ [ss]) := by
  obtain ⟨ss, h1, _, _, _, _, _, h7, _, h9⟩ := Orbit.generate_spec hL hr
    (make_schreier_structure v r d L) (by cases v <;> rfl)
  refine ⟨ss, h1, fun p hp => (h9 p hp).2, (h9 r h7).2, fun sss => ?_⟩
  simp only [BSGSTransversalsBase.update_schreier_structure, h1, lt_irrefl, if_false, if_true]

theorem schreier_transversal_law_witness :
    (∀ l ∈ ([⟨[1, 3, 2]⟩, ⟨[3, 2, 1]⟩] : PermSet), l.valid ∧ l.degree = 3) ∧
    (1 ≤ 1 ∧ 1 ≤ 3) ∧
    Orbit.generate 1 [⟨[1, 3, 2]⟩, ⟨[3, 2, 1]⟩]
        (make_schreier_structure Variant.tree 1 3 [⟨[1, 3, 2]⟩, ⟨[3, 2, 1]⟩]) =
      some (SchreierStructure.tree 1 3 [⟨[1, 3, 2]⟩, ⟨[3, 2, 1]⟩] [(3, 1, 1), (2, 3, 0)]) ∧
    ∃ ss, Orbit.generate 1 [⟨[1, 3, 2]⟩, ⟨[3, 2, 1]⟩]
        (make_schreier_structure Variant.tree 1 3 [⟨[1, 3, 2]⟩, ⟨[3, 2, 1]⟩]) = some ss ∧
      (∀ p ∈ ss.nodes, (ss.transversal p).apply 1 = p) ∧
      (ss.transversal 1).apply 1 = 1 ∧
      ∀ sss : List SchreierStructure,
        BSGSTransversalsBase.update_schreier_structure Variant.tree sss sss.length 1 3
          [⟨[1, 3, 2]⟩, ⟨[3, 2, 1]⟩] = Except.ok (sss ++ [ss]) :=
  ⟨by decide, by decide, by rfl,
    schreier_transversal_law Variant.tree 1 3 [⟨[1, 3, 2]⟩, ⟨[3, 2, 1]⟩] (by decide)
      (by decide)⟩

/-- C11: orbit closure.  For a root of the domain and labels that are
permutations of the degree, the node set of the Schreier structure that
`Orbit.generate` produces contains the root, is closed under every label, and
is contained in every set that contains the root and is closed under the
labels. -/
theorem orbit_closure (v : Variant) (r d : Nat) (L : PermSet)
    (hL : ∀ l ∈ L, l.valid ∧ l.degree = d) (hr : 1 ≤ r ∧ r ≤ d) :
    ∃ ss, Orbit.generate r L (make_schreier_structure v r d L) = some ss ∧
      r ∈ ss.nodes ∧ (∀ x ∈ ss.nodes, ∀ l ∈ L, l.apply x ∈ ss.nodes) ∧
      ∀ S : Nat → Prop, S r → (∀ x, S x → ∀ l ∈ L, S (l.apply x)) → ∀ x ∈ ss.nodes, S x := by
  obtain ⟨ss, h1, _, _, _, _, _, h7, h8, _⟩ := Orbit.generate_spec hL hr
    (make_schreier_structure v r d L) (by cases v <;> rfl)
  exact ⟨ss, h1, h7, h8, fun S hS hcl => Orbit.generate_minimal r L _ ss h1 S hS hcl⟩

theorem orbit_closure_witness :
    (∀ l ∈ ([⟨[2, 1, 3, 4]⟩, ⟨[1, 3, 2, 4]⟩] : PermSet), l.valid ∧ l.degree = 4) ∧
    (1 ≤ 2 ∧ 2 ≤ 4) ∧
    Orbit.generate 2 [⟨[2, 1, 3, 4]⟩, ⟨[1, 3, 2, 4]⟩]
        (make_schreier_structure Variant.tree 2 4 [⟨[2, 1, 3, 4]⟩, ⟨[1, 3, 2, 4]⟩]) =
      some (SchreierStructure.tree 2 4 [⟨[2, 1, 3, 4]⟩, ⟨[1, 3, 2, 4]⟩] [(1, 2, 0), (3, 2, 1)]) ∧
    ∃ ss, Orbit.generate 2 [⟨[2, 1, 3, 4]⟩, ⟨[1, 3, 2, 4]⟩]
        (make_schreier_structure Variant.tree 2 4 [⟨[2, 1, 3, 4]⟩, ⟨[1, 3, 2, 4]⟩]) = some ss ∧
      2 ∈ ss.nodes ∧
      (∀ x ∈ ss.nodes, ∀ l ∈ ([⟨[2, 1, 3, 4]⟩, ⟨[1, 3, 2, 4]⟩] : PermSet),
        l.apply x ∈ ss.nodes) ∧
      ∀ S : Nat → Prop, S 2 →
        (∀ x, S x → ∀ l ∈ ([⟨[2, 1, 3, 4]⟩, ⟨[1, 3, 2, 4]⟩] : PermSet), S (l.apply x)) →
        ∀ x ∈ ss.nodes, S x :=
  ⟨by decide, by decide, by rfl,
    orbit_closure Variant.tree 2 4 [⟨[2, 1, 3, 4]⟩, ⟨[1, 3, 2, 4]⟩] (by decide) (by decide)⟩

/-- C16: round trip between the two Schreier structure variants.  For a root
of the domain and labels that are permutations of the degree, the explicit
transversals and the Schreier tree filled by the same `Orbit.generate` run have
the same nodes, and `transversal(p)` returns equal permutations for every orbit
point `p`. -/
theorem schreier_variants_agree (r d : Nat) (L : PermSet)
    (hL : ∀ l ∈ L, l.valid ∧ l.degree = d) (hr : 1 ≤ r ∧ r ≤ d) :
    ∃ ssE ssT,
      Orbit.generate r L (make_schreier_structure Variant.explicit r d L) = some ssE ∧
      Orbit.generate r L (make_schreier_structure Variant.tree r d L) = some ssT ∧
      ssE.nodes = ssT.nodes ∧
      ∀ p ∈ ssE.nodes, ssE.transversal p = ssT.transversal p := by
  obtain ⟨ssE, hE, _⟩ := Orbit.generate_spec hL hr
    (make_schreier_structure Variant.explicit r d L) rfl
  have hinit : SchreierStructure.Agree r d L [(r, Perm.identity d)] [] := by
    refine ⟨rfl, fun p hp => ?_⟩
    simp only [List.map_cons, List.map_nil, List.mem_singleton] at hp
    subst hp
    exact ⟨Perm.identity d, 0, by simp [List.lookup_cons], Nat.zero_le _, TreePath.root⟩
  have hloop := Orbit.loop_agree (r := r) (d := d) (L := L) (d + 1) [r] [r]
    [(r, Perm.identity d)] [] hinit rfl (fun x hx => hx)
  have hE' : Orbit.loop L (d + 1) [r] [r]
      (SchreierStructure.explicit r d L [(r, Perm.identity d)]) = some ssE := hE
  rcases hloop with ⟨h1, _⟩ | ⟨orbit', edges', h1, h2, h3⟩
  · rw [h1] at hE'
    exact absurd hE' (by simp)
  · rw [h1] at hE'
    have hEq : SchreierStructure.explicit r d L orbit' = ssE := Option.some.inj hE'
    refine ⟨ssE, SchreierStructure.tree r d L edges', hE, h2, ?_⟩
    rw [← hEq]
    exact h3.transversal_eq hL

theorem schreier_variants_agree_witness :
    (∀ l ∈ ([⟨[1, 3, 2]⟩, ⟨[3, 2, 1]⟩] : PermSet), l.valid ∧ l.degree = 3) ∧
    (1 ≤ 1 ∧ 1 ≤ 3) ∧
    Orbit.generate 1 [⟨[1, 3, 2]⟩, ⟨[3, 2, 1]⟩]
        (make_schreier_structure Variant.explicit 1 3 [⟨[1, 3, 2]⟩, ⟨[3, 2, 1]⟩]) =
      some (SchreierStructure.explicit 1 3 [⟨[1, 3, 2]⟩, ⟨[3, 2, 1]⟩]
        [(1, ⟨[1, 2, 3]⟩), (3, ⟨[3, 2, 1]⟩), (2, ⟨[2, 3, 1]⟩)]) ∧
    (SchreierStructure.tree 1 3 [⟨[1, 3, 2]⟩, ⟨[3, 2, 1]⟩] [(3, 1, 1), (2, 3, 0)]).transversal 2 =
      ⟨[2, 3, 1]⟩ ∧
    ∃ ssE ssT,
      Orbit.generate 1 [⟨[1, 3, 2]⟩, ⟨[3, 2, 1]⟩]
        (make_schreier_structure Variant.explicit 1 3 [⟨[1, 3, 2]⟩, ⟨[3, 2, 1]⟩]) = some ssE ∧
      Orbit.generate 1 [⟨[1, 3, 2]⟩, ⟨[3, 2, 1]⟩]
        (make_schreier_structure Variant.tree 1 3 [⟨[1, 3, 2]⟩, ⟨[3, 2, 1]⟩]) = some ssT ∧
      ssE.nodes = ssT.nodes ∧
      ∀ p ∈ ssE.nodes, ssE.transversal p = ssT.transversal p :=
  ⟨by decide, by decide, by rfl, by rfl,
    schreier_variants_agree 1 3 [⟨[1, 3, 2]⟩, ⟨[3, 2, 1]⟩] (by decide) (by decide)⟩

/-- C13: registry correctness.  In every sequence of `insert` calls on a
registry (empty at the start), a call `insert(a)` returns `true` as its first
component if and only if no allocation equal to `a` was inserted earlier in the
sequence. -/
theorem registry_insert_new_iff (pre post : List TaskAllocation) (a : TaskAllocation) :
    (TMORs.inserts TMORs.empty (pre ++ a :: post)).1.get? pre.length =
      some ((TMORs.inserts TMORs.empty pre).2.insert a).1 ∧
    (((TMORs.inserts TMORs.empty pre).2.insert a).1.1 = true ↔ a ∉ pre) := by
  constructor
  · rw [TMORs.inserts_append, List.get?_eq_getElem?]
    simp only
    rw [List.getElem?_append_right (by rw [TMORs.length_inserts]),
      TMORs.length_inserts, Nat.sub_self]
    simp only [TMORs.inserts, List.getElem?_cons_zero]
  · rw [TMORs.insert_fst_iff, TMORs.is_repr_inserts_empty]

theorem registry_insert_new_iff_witness :
    (TMORs.inserts TMORs.empty [[1, 2, 3], [1, 2, 3], [2, 1, 3]]).1 =
      [(true, 0), (false, 0), (true, 1)] ∧
    (TMORs.inserts TMORs.empty ([[1, 2, 3]] ++ [1, 2, 3] :: [[2, 1, 3]])).1.get?
        [[1, 2, 3]].length =
      some ((TMORs.inserts TMORs.empty [[1, 2, 3]]).2.insert [1, 2, 3]).1 ∧
    (((TMORs.inserts TMORs.empty [[1, 2, 3]]).2.insert [1, 2, 3]).1.1 = true ↔
      [1, 2, 3] ∉ [[1, 2, 3]]) :=
  ⟨by decide, registry_insert_new_iff [[1, 2, 3]] [[2, 1, 3]] [1, 2, 3]⟩

/-- C14: registry ids are dense and stable.  After any sequence `pre` of
inserts into the empty registry: inserting an allocation not yet present returns
as id the number of representatives stored before the call; inserting an
allocation already present returns the id it got at its first insertion and
leaves the registry unchanged; and `num_orbits()` is the number of distinct
allocations inserted. -/
theorem registry_ids_dense_stable (pre : List TaskAllocation) (a : TaskAllocation) :
    (a ∉ pre → ((TMORs.inserts TMORs.empty pre).2.insert a).1 =
      (true, (TMORs.inserts TMORs.empty pre).2.num_orbits)) ∧
    (∀ p1 p2, pre = p1 ++ a :: p2 → a ∉ p1 →
      ((TMORs.inserts TMORs.empty p1).2.insert a).1 =
        (true, (TMORs.inserts TMORs.empty p1).2.num_orbits) ∧
      (TMORs.inserts TMORs.empty pre).2.insert a =
        ((false, (TMORs.inserts TMORs.empty p1).2.num_orbits),
          (TMORs.inserts TMORs.empty pre).2)) ∧
    (TMORs.inserts TMORs.empty pre).2.num_orbits = pre.dedup.length := by
  refine ⟨fun ha => ?_, fun p1 p2 hpre ha => ⟨?_, ?_⟩, TMORs.num_orbits_inserts pre⟩
  · rw [TMORs.insert_new _ a ((TMORs.is_repr_inserts_empty pre a).2 ha)]
  · rw [TMORs.insert_new _ a ((TMORs.is_repr_inserts_empty p1 a).2 ha)]
  · rw [hpre]
    exact TMORs.insert_again p1 p2 a ha

theorem registry_ids_dense_stable_witness :
    TMORs.inserts TMORs.empty [[1, 2, 3], [1, 2, 3], [2, 1, 3]] =
      ([(true, 0), (false, 0), (true, 1)], ⟨[([1, 2, 3], 0), ([2, 1, 3], 1)]⟩) ∧
    (TMORs.inserts TMORs.empty [[1, 2, 3], [1, 2, 3], [2, 1, 3]]).2.num_orbits = 2 ∧
    (([2, 1, 3] : TaskAllocation) ∉ [[1, 2, 3], [1, 2, 3]] →
      ((TMORs.inserts TMORs.empty [[1, 2, 3], [1, 2, 3]]).2.insert [2, 1, 3]).1 =
        (true, (TMORs.inserts TMORs.empty [[1, 2, 3], [1, 2, 3]]).2.num_orbits)) ∧
    (∀ p1 p2, [[1, 2, 3], [1, 2, 3]] = p1 ++ [2, 1, 3] :: p2 → [2, 1, 3] ∉ p1 →
      ((TMORs.inserts TMORs.empty p1).2.insert [2, 1, 3]).1 =
        (true, (TMORs.inserts TMORs.empty p1).2.num_orbits) ∧
      (TMORs.inserts TMORs.empty [[1, 2, 3], [1, 2, 3]]).2.insert [2, 1, 3] =
        ((false, (TMORs.inserts TMORs.empty p1).2.num_orbits),
          (TMORs.inserts TMORs.empty [[1, 2, 3], [1, 2, 3]]).2)) ∧
    (TMORs.inserts TMORs.empty [[1, 2, 3], [1, 2, 3]]).2.num_orbits =
      [[1, 2, 3], ([1, 2, 3] : TaskAllocation)].dedup.length :=
  ⟨by decide, by decide, registry_ids_dense_stable [[1, 2, 3], [1, 2, 3]] [2, 1, 3]⟩

/-- C15: the local search ends (with enough passes allowed), and what it
returns is reached from the input by applying a finite sequence of generators of
the group and is made lexicographically smaller by no single generator. -/
theorem local_search_fixed_point (G : PermGroup) (a : TaskAllocation) (o : Nat)
    (orbits : Option TMORs) (hG : G.wf) :
    ∃ n, ∀ fuel, n ≤ fuel → ∃ r,
      min_elem_local_search G fuel a o orbits = some r ∧
      (∃ w, (∀ g ∈ w, g ∈ G.generators) ∧ r = applyWord a o w) ∧
      ∀ g ∈ G.generators, lexLt (permuted r g o) r = false :=
  min_elem_local_search_loop_spec G a o hG _ a (InOrbit.refl G a o) rfl

theorem local_search_fixed_point_witness :
    exS3.wf ∧ ∃ n, ∀ fuel, n ≤ fuel → ∃ r,
      min_elem_local_search exS3 fuel [3, 1, 2] 0 none = some r ∧
      (∃ w, (∀ g ∈ w, g ∈ exS3.generators) ∧ r = applyWord [3, 1, 2] 0 w) ∧
      ∀ g ∈ exS3.generators, lexLt (permuted r g 0) r = false :=
  ⟨@PermGroup.wf_of_check exS3 3 (by decide),
    local_search_fixed_point exS3 [3, 1, 2] 0 none (@PermGroup.wf_of_check exS3 3 (by decide))⟩

/-- C12: for a base with transversals that satisfies its invariants, two
different base-image tuples (one point of the orbit of every level) have
different products `T_1(β_1) · … · T_k(β_k)`; the enumeration therefore lists no
element twice, and its length is `order()`, the product of the orbit sizes. -/
theorem enumeration_exactly_once (b : BSGS) (hb : b.Chain) :
    (∀ t1 t2 : List Nat,
      (t1.length = b.base_size ∧ ∀ i, i < b.base_size → t1.getD i 0 ∈ b.orbit i) →
      (t2.length = b.base_size ∧ ∀ i, i < b.base_size → t2.getD i 0 ∈ b.orbit i) →
      t1 ≠ t2 → b.tuple_product 0 t1 ≠ b.tuple_product 0 t2) ∧
    b.elements.Nodup ∧ b.elements.length = b.order := by
  refine ⟨fun t1 t2 h1 h2 hne he => hne ?_, BSGS.elements_nodup b hb, BSGS.length_elements b⟩
  have m1 : t1 ∈ b.tuples b.base_size 0 :=
    (BSGS.mem_tuples b _ 0 t1).2 ⟨h1.1, fun m hm => by simpa using h1.2 m hm⟩
  have m2 : t2 ∈ b.tuples b.base_size 0 :=
    (BSGS.mem_tuples b _ 0 t2).2 ⟨h2.1, fun m hm => by simpa using h2.2 m hm⟩
  exact BSGS.tuple_product_inj b hb b.base_size 0 (by omega) t1 m1 t2 m2 he

theorem enumeration_exactly_once_witness :
    exA4_bsgs.Chain ∧
    exA4_bsgs.elements =
      [⟨[1, 2, 3, 4]⟩, ⟨[1, 3, 4, 2]⟩, ⟨[1, 4, 2, 3]⟩, ⟨[2, 3, 1, 4]⟩, ⟨[2, 1, 4, 3]⟩,
        ⟨[2, 4, 3, 1]⟩, ⟨[3, 1, 2, 4]⟩, ⟨[3, 2, 4, 1]⟩, ⟨[3, 4, 1, 2]⟩, ⟨[4, 1, 3, 2]⟩,
        ⟨[4, 3, 2, 1]⟩, ⟨[4, 2, 1, 3]⟩] ∧
    exA4_bsgs.order = 12 ∧
    ((∀ t1 t2 : List Nat,
      (t1.length = exA4_bsgs.base_size ∧
        ∀ i, i < exA4_bsgs.base_size → t1.getD i 0 ∈ exA4_bsgs.orbit i) →
      (t2.length = exA4_bsgs.base_size ∧
        ∀ i, i < exA4_bsgs.base_size → t2.getD i 0 ∈ exA4_bsgs.orbit i) →
      t1 ≠ t2 → exA4_bsgs.tuple_product 0 t1 ≠ exA4_bsgs.tuple_product 0 t2) ∧
    exA4_bsgs.elements.Nodup ∧ exA4_bsgs.elements.length = exA4_bsgs.order) :=
  ⟨by decide, by decide, by decide, enumeration_exactly_once exA4_bsgs (by decide)⟩

/-- C19: for every generator set `S` and every source of random choices, each
permutation that `next()` returns, over any number of calls, lies in the group
generated by `S`; and after any number of steps every tape entry and the
accumulator lie in that group. -/
theorem pr_randomizer_members (S : PermSet) (rnd : Nat → PrChoice) (n : Nat) :
    (∀ p ∈ ((PrRandomizer.create S rnd).draw n).1, Generated S.degree S p) ∧
    (∀ t ∈ (Nat.iterate PrRandomizer.step n (PrRandomizer.seed S rnd)).tape,
      Generated S.degree S t) ∧
    Generated S.degree S (Nat.iterate PrRandomizer.step n (PrRandomizer.seed S rnd)).acc :=
  ⟨(PrRandomizer.InGroup.draw n _ (PrRandomizer.create_inGroup S rnd)).1,
    (PrRandomizer.iterate_inGroup n _ (PrRandomizer.seed_inGroup S rnd)).2⟩

theorem pr_randomizer_members_witness :
    (∀ p ∈ ((PrRandomizer.create [⟨[3, 2, 1, 4]⟩, ⟨[2, 1, 4, 3]⟩] exRnd).draw 20).1,
      p ∈ [(⟨[1, 2, 3, 4]⟩ : Perm), ⟨[2, 3, 4, 1]⟩, ⟨[3, 4, 1, 2]⟩, ⟨[4, 1, 2, 3]⟩,
        ⟨[4, 3, 2, 1]⟩, ⟨[2, 1, 4, 3]⟩, ⟨[3, 2, 1, 4]⟩, ⟨[1, 4, 3, 2]⟩]) ∧
    ((∀ p ∈ ((PrRandomizer.create [⟨[3, 2, 1, 4]⟩, ⟨[2, 1, 4, 3]⟩] exRnd).draw 20).1,
      Generated (PermSet.degree [⟨[3, 2, 1, 4]⟩, ⟨[2, 1, 4, 3]⟩])
        [⟨[3, 2, 1, 4]⟩, ⟨[2, 1, 4, 3]⟩] p) ∧
    (∀ t ∈ (Nat.iterate PrRandomizer.step 20
        (PrRandomizer.seed [⟨[3, 2, 1, 4]⟩, ⟨[2, 1, 4, 3]⟩] exRnd)).tape,
      Generated (PermSet.degree [⟨[3, 2, 1, 4]⟩, ⟨[2, 1, 4, 3]⟩])
        [⟨[3, 2, 1, 4]⟩, ⟨[2, 1, 4, 3]⟩] t) ∧
    Generated (PermSet.degree [⟨[3, 2, 1, 4]⟩, ⟨[2, 1, 4, 3]⟩])
      [⟨[3, 2, 1, 4]⟩, ⟨[2, 1, 4, 3]⟩]
      (Nat.iterate PrRandomizer.step 20
        (PrRandomizer.seed [⟨[3, 2, 1, 4]⟩, ⟨[2, 1, 4, 3]⟩] exRnd)).acc) :=
  ⟨by decide, pr_randomizer_members [⟨[3, 2, 1, 4]⟩, ⟨[2, 1, 4, 3]⟩] exRnd 20⟩

/-- C20: when every generator is an even permutation, `test_symmetric` returns
false for every source of random choices and every number of samples. -/
theorem test_symmetric_rejects_even (S : PermSet) (rnd : Nat → PrChoice) (runs : Nat)
    (hS : ∀ g ∈ S, g.valid ∧ g.degree = S.degree ∧ g.sign = 1) :
    ((PrRandomizer.create S rnd).test_symmetric runs).1 = false :=
  PrRandomizer.test_symmetric_even (PrRandomizer.create_inGroup S rnd) hS runs

theorem test_symmetric_rejects_even_witness :
    (∀ g ∈ (List.range' 3 6).map (fun i => Perm.ofCycles 8 [[1, 2, i]]),
      g.valid ∧ g.degree = PermSet.degree ((List.range' 3 6).map
        (fun i => Perm.ofCycles 8 [[1, 2, i]])) ∧ g.sign = 1) ∧
    ((PrRandomizer.create ((List.range' 3 6).map (fun i => Perm.ofCycles 8 [[1, 2, i]]))
      exRnd).test_symmetric (PrRandomizer.default_runs 8)).1 = false :=
  ⟨by decide, test_symmetric_rejects_even _ exRnd _ (by decide)⟩

/-- C17, as stated, fails: with the empty generator set the
constructor returns before it looks at the options, so asking for the shallow
Schreier trees in degree 3 yields a BSGS and no error. -/
theorem shallow_trivial_counterexample :
    BSGS.create exAlgorithms exRnd 3 [] exShallowOptions = Except.ok (BSGS.blank 3) ∧
    BSGS.create exAlgorithms exRnd 3 [] exShallowOptions ≠ Except.error Error.unsupported :=
  ⟨by rfl, by
    intro h
    have h2 : BSGS.create exAlgorithms exRnd 3 [] exShallowOptions =
      Except.ok (BSGS.blank 3) := by rfl
    rw [h2] at h
    cases h⟩

/-- C17 (amended): for every degree `d > 0` and every non-trivial generator
set whose members all have degree `d`, constructing a BSGS with the option
`transversals = SHALLOW_SCHREIER_TREES` fails with the unsupported error and
produces no BSGS, whatever the other options are. -/
theorem shallow_unsupported (alg : Algorithms) (rnd : Nat → PrChoice) (d : Nat)
    (gens : PermSet) (opts : BSGSOptions) (hd : 0 < d) (ht : gens.trivial = false)
    (hdeg : gens.assert_degree d = true)
    (hs : opts.transversals = Transversals.SHALLOW_SCHREIER_TREES) :
    BSGS.create alg rnd d gens opts = Except.error Error.unsupported :=
  BSGS.create_shallow alg rnd d gens opts hd ht hdeg hs

theorem shallow_unsupported_witness :
    (0 < 3 ∧ PermSet.trivial [⟨[2, 3, 1]⟩] = false ∧
      PermSet.assert_degree [⟨[2, 3, 1]⟩] 3 = true ∧
      exShallowOptions.transversals = Transversals.SHALLOW_SCHREIER_TREES) ∧
    BSGS.create exAlgorithms exRnd 3 [⟨[2, 3, 1]⟩] exShallowOptions =
      Except.error Error.unsupported :=
  ⟨by decide, shallow_unsupported exAlgorithms exRnd 3 [⟨[2, 3, 1]⟩] exShallowOptions
    (by decide) (by decide) (by decide) (by decide)⟩

/-- C18: for every degree `d > 0` and every trivial generator set (every
member is an identity; the empty set is one), the constructor succeeds with an
empty base and no strong generators, `order()` is 1, and `strips_completely(σ)`
holds exactly when `σ` is the identity. -/
theorem trivial_group_bsgs (alg : Algorithms) (rnd : Nat → PrChoice) (d : Nat)
    (gens : PermSet) (opts : BSGSOptions) (hd : 0 < d) (ht : gens.trivial = true) :
    ∃ b, BSGS.create alg rnd d gens opts = Except.ok b ∧
      b.base = [] ∧ b.strong_generators = [] ∧ b.order = 1 ∧
      ∀ (mul : Perm → Perm → Perm) (σ : Perm),
        BSGS.strips_completely mul b σ = true ↔ σ = Perm.identity σ.degree :=
  ⟨BSGS.blank d, BSGS.create_trivial alg rnd d gens opts hd ht, rfl, rfl, rfl,
    fun mul σ => BSGS.strips_completely_blank mul d σ⟩

theorem trivial_group_bsgs_witness :
    (0 < 3 ∧ PermSet.trivial [Perm.identity 3] = true) ∧
    ∃ b, BSGS.create exAlgorithms exRnd 3 [Perm.identity 3] exShallowOptions = Except.ok b ∧
      b.base = [] ∧ b.strong_generators = [] ∧ b.order = 1 ∧
      ∀ (mul : Perm → Perm → Perm) (σ : Perm),
        BSGS.strips_completely mul b σ = true ↔ σ = Perm.identity σ.degree :=
  ⟨by decide, trivial_group_bsgs exAlgorithms exRnd 3 [Perm.identity 3] exShallowOptions
    (by decide) (by decide)⟩

/-- C21: generator translation of the automorphism wrapper.  For a graph with
an edge and `n_reduced ≤ n`, when the oracle hands arrays of length `n` to the
callback: every such array `p` is stored as a returned generator of degree
`n_reduced` whose image of the point `i + 1` is `p[i] + 1` for `i < n_reduced`
and whose image vector is a bijection of `[1, n_reduced]` whenever `p` maps
`[0, n_reduced)` onto itself; and every returned generator is the stored form
of such an array. -/
theorem automorphism_generators_translation (oracle : NautyOracle) (G : NautyGraph)
    (hne : G.edges ≠ []) (hnr : G.n_reduced ≤ G.n)
    (hlen : ∀ p ∈ oracle G.g G.lab G.ptn
      { digraph := G.effectively_directed, defaultptn := G.ptn_expl.isEmpty } G.n,
      p.length = G.n) :
    (∀ p ∈ oracle G.g G.lab G.ptn
        { digraph := G.effectively_directed, defaultptn := G.ptn_expl.isEmpty } G.n,
      ∃ q ∈ G.automorphism_generators oracle, NautyGraph.Translates G.n_reduced p q) ∧
    (∀ q ∈ G.automorphism_generators oracle,
      ∃ p ∈ oracle G.g G.lab G.ptn
        { digraph := G.effectively_directed, defaultptn := G.ptn_expl.isEmpty } G.n,
      NautyGraph.Translates G.n_reduced p q) := by
  have hE : G.edges.isEmpty = false := by
    cases h : G.edges with
    | nil => exact absurd h hne
    | cons _ _ => rfl
  have hT : ∀ p ∈ oracle G.g G.lab G.ptn
      { digraph := G.effectively_directed, defaultptn := G.ptn_expl.isEmpty } G.n,
      NautyGraph.Translates G.n_reduced p
        ⟨(List.range G.n_reduced).map (fun i => p.getD i 0 + 1)⟩ := by
    intro p hp
    refine ⟨translated_degree _ p, fun i hi => ⟨p.getD i 0, ?_, translated_apply _ p hi⟩,
      translated_valid _ p⟩
    have hi' : i < p.length := by rw [hlen p hp]; omega
    rw [List.get?_eq_getElem?, List.getElem?_eq_getElem hi', List.getD_eq_getElem _ _ hi']
  simp only [NautyGraph.automorphism_generators, hE, Bool.false_eq_true, if_false]
  constructor
  · intro p hp
    exact ⟨_, (foldl_save_gens_mem _ _ [] _).2 (Or.inr ⟨p, hp, rfl⟩), hT p hp⟩
  · intro q hq
    rcases (foldl_save_gens_mem _ _ [] q).1 hq with h | ⟨p, hp, rfl⟩
    · simp at h
    · exact ⟨p, hp, hT p hp⟩

theorem automorphism_generators_translation_witness :
    (NautyGraph.create 4 2 false false).run [NautyCall.set_partition [[0, 1], [2, 3]],
      NautyCall.add_edge 0 2, NautyCall.add_edge 1 3] = Except.ok exNautyGraph ∧
    exNautyGraph.automorphism_generators exOracle = [⟨[2, 1]⟩] ∧
    (exNautyGraph.edges ≠ [] ∧ exNautyGraph.n_reduced ≤ exNautyGraph.n ∧
      ∀ p ∈ exOracle exNautyGraph.g exNautyGraph.lab exNautyGraph.ptn
        { digraph := exNautyGraph.effectively_directed,
          defaultptn := exNautyGraph.ptn_expl.isEmpty } exNautyGraph.n,
        p.length = exNautyGraph.n) ∧
    ((∀ p ∈ exOracle exNautyGraph.g exNautyGraph.lab exNautyGraph.ptn
        { digraph := exNautyGraph.effectively_directed,
          defaultptn := exNautyGraph.ptn_expl.isEmpty } exNautyGraph.n,
      ∃ q ∈ exNautyGraph.automorphism_generators exOracle,
        NautyGraph.Translates exNautyGraph.n_reduced p q) ∧
    (∀ q ∈ exNautyGraph.automorphism_generators exOracle,
      ∃ p ∈ exOracle exNautyGraph.g exNautyGraph.lab exNautyGraph.ptn
        { digraph := exNautyGraph.effectively_directed,
          defaultptn := exNautyGraph.ptn_expl.isEmpty } exNautyGraph.n,
      NautyGraph.Translates exNautyGraph.n_reduced p q)) :=
  ⟨by rfl, by decide, by decide,
    automorphism_generators_translation exOracle exNautyGraph (by decide) (by decide)
      (by decide)⟩

/-- C27: a graph without edges yields no generators.  For every vertex count,
every `n_reduced`, either directedness and every sequence of calls that adds no
edge (any partitions), the calls succeed and `automorphism_generators` returns
the empty generator set, whatever the oracle would deliver. -/
theorem edgeless_no_generators (n n_reduced : Nat) (directed effectively_directed : Bool)
    (calls : List NautyCall) (h : ∀ c ∈ calls, c.adds_no_edge = true) :
    ∃ G, (NautyGraph.create n n_reduced directed effectively_directed).run calls =
        Except.ok G ∧
      G.n = n ∧ G.n_reduced = n_reduced ∧ G.edges = [] ∧
      ∀ oracle : NautyOracle, G.automorphism_generators oracle = [] := by
  obtain ⟨G, h1, h2, h3, h4, _, _⟩ := NautyGraph.run_no_edge calls
    (NautyGraph.create n n_reduced directed effectively_directed) rfl h
  exact ⟨G, h1, h3, h4, h2, fun oracle => NautyGraph.automorphism_generators_no_edge oracle G h2⟩

theorem edgeless_no_generators_witness :
    (∀ c ∈ [NautyCall.set_partition [[0, 1], [2, 3]], NautyCall.add_edges [(0, []), (1, [])]],
      c.adds_no_edge = true) ∧
    ∃ G, (NautyGraph.create 4 2 true false).run
        [NautyCall.set_partition [[0, 1], [2, 3]], NautyCall.add_edges [(0, []), (1, [])]] =
        Except.ok G ∧
      G.n = 4 ∧ G.n_reduced = 2 ∧ G.edges = [] ∧
      ∀ oracle : NautyOracle, G.automorphism_generators oracle = [] :=
  ⟨by decide, edgeless_no_generators 4 2 true false
    [NautyCall.set_partition [[0, 1], [2, 3]], NautyCall.add_edges [(0, []), (1, [])]]
    (by decide)⟩

/-- C25, the behaviour of the code: for an index `i` below the number of
Schreier structures, `update_schreier_structure` does not complete: after the
swap the assertion `i == size` fails.  With the assertions compiled out the
call completes, but it appends the old structure of position `i`, so the
number of Schreier structures grows by one. -/
theorem update_schreier_structure_rebuild_diverges (v : Variant)
    (sss : List SchreierStructure) (i root degree : Nat) (generators : PermSet)
    (hi : i < sss.length) :
    (∀ r, BSGSTransversalsBase.update_schreier_structure v sss i root degree generators ≠
      Except.ok r) ∧
    (∀ r, BSGSTransversalsBase.update_schreier_structure_ndebug v sss i root degree generators =
        Except.ok r →
      r.length = sss.length + 1 ∧ r.get? sss.length = sss.get? i) := by
  refine ⟨fun r h => ?_, fun r h =>
    BSGSTransversalsBase.update_existing_ndebug v sss i root degree generators hi r h⟩
  rcases BSGSTransversalsBase.update_existing v sss i root degree generators hi with h2 | h2
  · rw [h2] at h; cases h
  · rw [h2] at h; cases h

theorem update_schreier_structure_rebuild_diverges_witness :
    BSGSTransversalsBase.update_schreier_structure Variant.explicit
        [SchreierStructure.explicit 1 3 [] [(1, ⟨[1, 2, 3]⟩)]] 0 1 3 [⟨[2, 3, 1]⟩] =
      Except.error Error.assertion ∧
    BSGSTransversalsBase.update_schreier_structure_ndebug Variant.explicit
        [SchreierStructure.explicit 1 3 [] [(1, ⟨[1, 2, 3]⟩)]] 0 1 3 [⟨[2, 3, 1]⟩] =
      Except.ok [SchreierStructure.explicit 1 3 [⟨[2, 3, 1]⟩]
          [(1, ⟨[1, 2, 3]⟩), (2, ⟨[2, 3, 1]⟩), (3, ⟨[3, 1, 2]⟩)],
        SchreierStructure.explicit 1 3 [] [(1, ⟨[1, 2, 3]⟩)]] ∧
    0 < [SchreierStructure.explicit 1 3 [] [(1, ⟨[1, 2, 3]⟩)]].length ∧
    ((∀ r, BSGSTransversalsBase.update_schreier_structure Variant.explicit
        [SchreierStructure.explicit 1 3 [] [(1, ⟨[1, 2, 3]⟩)]] 0 1 3 [⟨[2, 3, 1]⟩] ≠
      Except.ok r) ∧
    (∀ r, BSGSTransversalsBase.update_schreier_structure_ndebug Variant.explicit
        [SchreierStructure.explicit 1 3 [] [(1, ⟨[1, 2, 3]⟩)]] 0 1 3 [⟨[2, 3, 1]⟩] =
        Except.ok r →
      r.length = [SchreierStructure.explicit 1 3 [] [(1, ⟨[1, 2, 3]⟩)]].length + 1 ∧
      r.get? [SchreierStructure.explicit 1 3 [] [(1, ⟨[1, 2, 3]⟩)]].length =
        [SchreierStructure.explicit 1 3 [] [(1, ⟨[1, 2, 3]⟩)]].get? 0)) :=
  ⟨by rfl, by rfl, by decide,
    update_schreier_structure_rebuild_diverges Variant.explicit
      [SchreierStructure.explicit 1 3 [] [(1, ⟨[1, 2, 3]⟩)]] 0 1 3 [⟨[2, 3, 1]⟩] (by decide)⟩

/-- C26: the local search terminates.  For a well-formed group and every
allocation `a`, a pass of the `while` loop keeps the current allocation in the
orbit of `a` and, unless it is the last pass, makes it strictly smaller; so the
loop ends, after at most one pass more than the orbit has elements. -/
theorem local_search_terminates (G : PermGroup) (a : TaskAllocation) (o : Nat)
    (orbits : Option TMORs) (hG : G.wf) :
    (∀ r, InOrbit G a o r →
      InOrbit G a o (min_elem_local_search_pass o G.generators r true).1 ∧
      ((min_elem_local_search_pass o G.generators r true).2 = false →
        lexLt (min_elem_local_search_pass o G.generators r true).1 r = true)) ∧
    ∀ fuel, (orbitList G a o).length + 1 ≤ fuel →
      ∃ r, min_elem_local_search G fuel a o orbits = some r := by
  constructor
  · intro r hr
    obtain ⟨⟨w, hw1, hw2⟩, _, _, h4⟩ := min_elem_local_search_pass_spec o G.generators r true
    refine ⟨by rw [hw2]; exact InOrbit.applyWord hG w r hr hw1, fun hst => ?_⟩
    rcases h4 hst with h | h
    · exact absurd h (by simp)
    · exact h
  · intro fuel hf
    exact min_elem_local_search_loop_terminates G a o hG _ a (InOrbit.refl G a o)
      (card_below_le G a o a) fuel hf

theorem local_search_terminates_witness :
    exS3.wf ∧ min_elem_local_search exS3 7 [3, 1, 2] 0 none = some [2, 1, 3] ∧
    ((∀ r, InOrbit exS3 [3, 1, 2] 0 r →
      InOrbit exS3 [3, 1, 2] 0 (min_elem_local_search_pass 0 exS3.generators r true).1 ∧
      ((min_elem_local_search_pass 0 exS3.generators r true).2 = false →
        lexLt (min_elem_local_search_pass 0 exS3.generators r true).1 r = true)) ∧
    ∀ fuel, (orbitList exS3 [3, 1, 2] 0).length + 1 ≤ fuel →
      ∃ r, min_elem_local_search exS3 fuel [3, 1, 2] 0 none = some r) :=
  ⟨@PermGroup.wf_of_check exS3 3 (by decide), by decide,
    local_search_terminates exS3 [3, 1, 2] 0 none (@PermGroup.wf_of_check exS3 3 (by decide))⟩

/-- C24, as stated, fails for an arbitrary registry: with the method `ORBITS`
and a registry that holds `[1, 3, 2]`, the search from `[1, 2, 3]` under the
symmetric group of degree 3 meets the registered allocation as the image under
the first generator and returns it, and `[1, 2, 3] < [1, 3, 2]`. -/
theorem mapping_orbits_worse_counterexample :
    exS3.wf ∧
    mapping exS3 7 [1, 2, 3] 0 MappingMethod.ORBITS (some ⟨[([1, 3, 2], 0)]⟩) =
      some ([1, 3, 2], some ⟨[([1, 3, 2], 0)]⟩) ∧
    lexLt [1, 2, 3] [1, 3, 2] = true :=
  ⟨@PermGroup.wf_of_check exS3 3 (by decide), by decide, by decide⟩

/-- C24 (amended): for a well-formed group and every allocation `a`, the
allocation that `mapping` returns is lexicographically less than or equal to
`a`: with the methods `ITERATE` and `LOCAL_SEARCH` for every content of the
registry, and with `ORBITS` when every registered allocation in the orbit of
`a` is the minimum of that orbit (no registry and the empty registry are such). -/
theorem mapping_not_worse (G : PermGroup) (a : TaskAllocation) (o : Nat) (m : MappingMethod)
    (orbits : Option TMORs) (hG : G.wf)
    (hreg : m = MappingMethod.ORBITS → RegistryMinimal G a o orbits) :
    ∃ n, ∀ fuel, n ≤ fuel → ∃ r reg,
      mapping G fuel a o m orbits = some (r, reg) ∧ lexLt a r = false := by
  cases m with
  | ITERATE =>
    exact ⟨0, fun fuel _ => ⟨_, _, rfl, min_elem_iterate_le G a o orbits⟩⟩
  | LOCAL_SEARCH =>
    refine ⟨(orbitList G a o).length + 1, fun fuel hf => ?_⟩
    obtain ⟨r, hr⟩ := min_elem_local_search_loop_terminates G a o hG _ a (InOrbit.refl G a o)
      (card_below_le G a o a) fuel hf
    refine ⟨r, orbits.map (fun R => (R.insert r).2), ?_,
      min_elem_local_search_loop_le G.generators o fuel a r hr⟩
    simp only [mapping, min_elem_local_search, hr, Option.map_some']
  | ORBITS =>
    obtain ⟨n, hn⟩ := min_elem_orbits_isOrbitMin G a o orbits hG (hreg rfl)
    refine ⟨n, fun fuel hf => ?_⟩
    obtain ⟨r, h1, h2⟩ := hn fuel hf
    refine ⟨r, orbits.map (fun R => (R.insert r).2), ?_, ?_⟩
    · simp only [mapping, h1, Option.map_some']
    · have := h2.2 (Perm.identity G.degree) Generated.one
      rw [permuted_identity] at this
      exact this

theorem mapping_not_worse_witness :
    exS3.wf ∧
    (MappingMethod.ORBITS = MappingMethod.ORBITS → RegistryMinimal exS3 [3, 1, 2] 0 none) ∧
    mapping exS3 7 [3, 1, 2] 0 MappingMethod.ORBITS none = some ([1, 2, 3], none) ∧
    ∃ n, ∀ fuel, n ≤ fuel → ∃ r reg,
      mapping exS3 fuel [3, 1, 2] 0 MappingMethod.ORBITS none = some (r, reg) ∧
        lexLt [3, 1, 2] r = false :=
  ⟨@PermGroup.wf_of_check exS3 3 (by decide), fun _ => registryMinimal_none exS3 [3, 1, 2] 0,
    by decide,
    mapping_not_worse exS3 [3, 1, 2] 0 MappingMethod.ORBITS none
      (@PermGroup.wf_of_check exS3 3 (by decide))
      (fun _ => registryMinimal_none exS3 [3, 1, 2] 0)⟩

/-- C23, as stated, fails with the composition of §4.A,
`compose(a, b)(x) = a(b(x))`: the BSGS of the symmetric group of degree 3 has
transversals that map the base point to the orbit point and fix the earlier
base points, `strip` takes the transposition `(1 2)` from level 0 to
`((1 3), 3)`, so the levels 0 and 1 were passed, and `(1 3)` moves the base
point 1 of level 0. -/
theorem strip_passed_compose_counterexample :
    (∀ i, i < exS3_bsgs.base_size → ∀ p ∈ exS3_bsgs.orbit i,
      (exS3_bsgs.transversal i p).apply (exS3_bsgs.base_point i) = p ∧
      ∀ m, m < i →
        (exS3_bsgs.transversal i p).apply (exS3_bsgs.base_point m) = exS3_bsgs.base_point m) ∧
    BSGS.strip Perm.compose exS3_bsgs ⟨[2, 1, 3]⟩ 0 = (⟨[3, 2, 1]⟩, 3) ∧
    0 < 3 - 1 ∧
    (⟨[3, 2, 1]⟩ : Perm).apply (exS3_bsgs.base_point 0) ≠ exS3_bsgs.base_point 0 :=
  ⟨by decide, by rfl, by decide, by decide⟩

/-- C23 (amended): stripping stabilises the base points it has passed, when
the product applies its left factor first, `(a · b)(x) = b(a(x))`.  For every
BSGS whose base points lie in the domain and in which each `transversal(p)` of
level `i` is a permutation of the degree that maps `b_i` to `p` and fixes the
earlier base points, every `σ` of the degree and every start level `offs`: if
`strip(σ, offs)` returns `(ρ, j)`, then `ρ` fixes the base point of every
0-based level `m` with `offs ≤ m < j - 1`. -/
theorem strip_fixes_passed_left_first (b : BSGS)
    (hbase : ∀ i, i < b.base_size → 1 ≤ b.base_point i ∧ b.base_point i ≤ b.degree)
    (hT : ∀ i, i < b.base_size → ∀ p ∈ b.orbit i,
      (b.transversal i p).valid ∧ (b.transversal i p).degree = b.degree ∧
      (b.transversal i p).apply (b.base_point i) = p ∧
      ∀ m, m < i → (b.transversal i p).apply (b.base_point m) = b.base_point m)
    (σ : Perm) (hσ : σ.degree = b.degree) (offs : Nat) :
    ∀ m, offs ≤ m → m + 1 < (BSGS.strip Perm.mul_left_first b σ offs).2 →
      (BSGS.strip Perm.mul_left_first b σ offs).1.apply (b.base_point m) = b.base_point m := by
  intro m hm1 hm2
  by_cases ho : offs ≤ b.base_size
  · exact BSGS.strip_loop_passed b hbase hT offs (b.base_size - offs) offs σ (by omega)
      (le_refl _) hσ (fun m' h1 h2 => absurd h2 (by omega)) m hm1 hm2
  · have hz : b.base_size - offs = 0 := by omega
    simp only [BSGS.strip, hz, BSGS.strip_loop] at hm2
    omega

theorem strip_fixes_passed_left_first_witness :
    ((∀ i, i < exS3_bsgs.base_size →
        1 ≤ exS3_bsgs.base_point i ∧ exS3_bsgs.base_point i ≤ exS3_bsgs.degree) ∧
      (∀ i, i < exS3_bsgs.base_size → ∀ p ∈ exS3_bsgs.orbit i,
        (exS3_bsgs.transversal i p).valid ∧
        (exS3_bsgs.transversal i p).degree = exS3_bsgs.degree ∧
        (exS3_bsgs.transversal i p).apply (exS3_bsgs.base_point i) = p ∧
        ∀ m, m < i →
          (exS3_bsgs.transversal i p).apply (exS3_bsgs.base_point m) =
            exS3_bsgs.base_point m) ∧
      (⟨[2, 1, 3]⟩ : Perm).degree = exS3_bsgs.degree) ∧
    BSGS.strip Perm.mul_left_first exS3_bsgs ⟨[2, 1, 3]⟩ 0 = (⟨[1, 2, 3]⟩, 3) ∧
    ∀ m, 0 ≤ m → m + 1 < (BSGS.strip Perm.mul_left_first exS3_bsgs ⟨[2, 1, 3]⟩ 0).2 →
      (BSGS.strip Perm.mul_left_first exS3_bsgs ⟨[2, 1, 3]⟩ 0).1.apply
        (exS3_bsgs.base_point m) = exS3_bsgs.base_point m :=
  ⟨by decide, by rfl,
    strip_fixes_passed_left_first exS3_bsgs (by decide) (by decide) ⟨[2, 1, 3]⟩ (by decide) 0⟩

/-- C22: the BSGS level invariant on both fast paths.  After
`construct_symmetric` (`d ≥ 2`) and after `construct_alternating` (`d ≥ 3`),
for either kind of transversals, every level `i` has a Schreier structure with
root `b_i` whose label set equals, as a set, the strong generators that fix the
earlier base points (`strong_generators(i)`) together with their inverses, and
no base point is fixed by all strong generators. -/
theorem fast_path_level_invariant (d : Nat) (v : Variant) :
    (2 ≤ d → ∃ b, (BSGS.init d v).construct_symmetric = Except.ok b ∧ b.LevelInvariant) ∧
    (3 ≤ d → ∃ b, (BSGS.init d v).construct_alternating = Except.ok b ∧ b.LevelInvariant) :=
  ⟨fun hd => symmetric_level_invariant d hd v, fun hd => alternating_level_invariant d hd v⟩

theorem fast_path_level_invariant_witness :
    (2 ≤ 3 ∧ 3 ≤ 3) ∧
    (BSGS.init 3 Variant.explicit).construct_symmetric = Except.ok exS3_bsgs ∧
    (BSGS.init 3 Variant.explicit).construct_alternating = Except.ok exA3_bsgs ∧
    (∃ b, (BSGS.init 3 Variant.explicit).construct_symmetric = Except.ok b ∧
      b.LevelInvariant) ∧
    (∃ b, (BSGS.init 3 Variant.explicit).construct_alternating = Except.ok b ∧
      b.LevelInvariant) :=
  ⟨by decide, by rfl, by rfl,
    (fast_path_level_invariant 3 Variant.explicit).1 (by decide),
    (fast_path_level_invariant 3 Variant.explicit).2 (by decide)⟩

end mpsym
